import Mathlib

/-!
# handystats: configuration patterns, gauges, time points

A shallow embedding of `src/config.cpp` (brace expansion of pattern keys,
`select_pattern`, `config_json`), of `src/metrics/gauge.cpp` and of
`src/chrono/time_point.cpp` (time-point operators, `to_system_time`,
`convert_to`), together with the properties of the specification that concern
them.

Strings are lists of characters.  A C string is the list of its characters
before the terminating NUL; reading the character at index `length` yields the
terminator, exactly as `pattern[i]` does in the source.
-/

namespace handystats

/-- The terminating character of a C string. -/
def NUL : Char := Char.ofNat 0

namespace chrono

/-- The units of a duration: TSC cycles and the wall-clock units. -/
inductive time_unit where
  | CYCLE | NSEC | USEC | MSEC | SEC
  deriving DecidableEq, Repr

/-- The clock a time point is read from. -/
inductive clock_type where
  | INTERNAL_CLOCK | SYSTEM_CLOCK
  deriving DecidableEq, Repr

/-- A `duration`: an `int64_t` count `m_rep` in the unit `m_unit`. -/
structure duration where
  m_rep : Int
  m_unit : time_unit
  deriving DecidableEq, Repr

/-- Modelled from the spec: the default-constructed `duration()` of the absent
`chrono.hpp`, the zero duration; `unit` is the unit that constructor gives it. -/
def duration.zero (unit : time_unit) : duration := ⟨0, unit⟩

/-- A `time_point`: the duration since the epoch and the clock. -/
structure time_point where
  m_since_epoch : duration
  m_clock : clock_type
  deriving DecidableEq, Repr

/-- The constructor `time_point::time_point()`: `m_since_epoch()` and the internal clock. -/
def time_point.init (unit : time_unit) : time_point :=
  ⟨duration.zero unit, clock_type.INTERNAL_CLOCK⟩

/-- The conversion of a `uint64_t` to the `int64_t` of a duration count. -/
def to_int64 (n : Nat) : Int :=
  if n % 2 ^ 64 < 2 ^ 63 then (n % 2 ^ 64 : Nat) else (n % 2 ^ 64 : Nat) - 2 ^ 64

/-! ### Time points (`src/chrono/time_point.cpp`) -/

/-- The operations on durations that `time_point.cpp` uses and that are
declared in the absent `chrono.hpp`: the arithmetic and comparison operators,
`count(unit)` and `duration::convert_to`. -/
structure chrono_impl where
  sub : duration → duration → duration
  add : duration → duration → duration
  div : duration → Int → duration
  eq : duration → duration → Bool
  ne : duration → duration → Bool
  lt : duration → duration → Bool
  le : duration → duration → Bool
  gt : duration → duration → Bool
  ge : duration → duration → Bool
  count : duration → time_unit → Int
  convert_to : time_unit → duration → duration

/-- The six comparison operators of `time_point`. -/
inductive comparison where
  | EQ | NE | LT | LE | GT | GE
  deriving DecidableEq, Repr

/-- The operator on durations that a comparison operator of `time_point`
applies to the durations since the epoch. -/
def chrono_impl.compare (impl : chrono_impl) : comparison → duration → duration → Bool
  | .EQ => impl.eq
  | .NE => impl.ne
  | .LT => impl.lt
  | .LE => impl.le
  | .GT => impl.gt
  | .GE => impl.ge

/-- The method `time_point::time_since_epoch()`. -/
def time_point.time_since_epoch (t : time_point) : duration := t.m_since_epoch

/-- The operators `time_point::operator+=(duration)` and
`time_point::operator+(duration)`, which copies and adds. -/
def time_point.add (impl : chrono_impl) (t : time_point) (d : duration) : time_point :=
  if t.m_clock = clock_type.INTERNAL_CLOCK then
    { t with m_since_epoch := impl.add t.m_since_epoch d }
  else
    if d.m_unit = time_unit.CYCLE then
      { t with m_since_epoch :=
        impl.add t.m_since_epoch (impl.convert_to t.m_since_epoch.m_unit d) }
    else
      { t with m_since_epoch := impl.add t.m_since_epoch d }

/-- The operators `time_point::operator-=(duration)` and
`time_point::operator-(duration)`, which copies and subtracts. -/
def time_point.sub (impl : chrono_impl) (t : time_point) (d : duration) : time_point :=
  if t.m_clock = clock_type.INTERNAL_CLOCK then
    { t with m_since_epoch := impl.sub t.m_since_epoch d }
  else
    if d.m_unit = time_unit.CYCLE then
      { t with m_since_epoch :=
        impl.sub t.m_since_epoch (impl.convert_to t.m_since_epoch.m_unit d) }
    else
      { t with m_since_epoch := impl.sub t.m_since_epoch d }

/-- The static variables of `to_system_time`: the two atomics and the flag
(`true` when the flag is set). -/
structure offset_state where
  ns_offset : Int
  offset_timestamp : Int
  lock : Bool
  deriving DecidableEq, Repr

/-- The initial values: `ns_offset(0)`, `offset_timestamp(0)`, `ATOMIC_FLAG_INIT`. -/
def offset_state.init : offset_state := ⟨0, 0, false⟩

/-- The constant `OFFSET_TIMEOUT (15 * (int64_t)1E9, time_unit::NSEC)`. -/
def OFFSET_TIMEOUT : duration := ⟨15 * 10 ^ 9, time_unit.NSEC⟩

/-- The constant `CLOSE_DISTANCE (15 * (int64_t)1E3, time_unit::NSEC)`. -/
def CLOSE_DISTANCE : duration := ⟨15 * 10 ^ 3, time_unit.NSEC⟩

/-- The constant `MAX_UPDATE_TRIES (100)`. -/
def MAX_UPDATE_TRIES : Nat := 100

/-- Modelled from the spec: `internal_clock::now()`, absent from src/; the TSC
read "produces a cycle-tagged Duration", on the internal clock.  `count` is
the counter value that the read finds. -/
def internal_clock_now (count : Int) : time_point :=
  ⟨⟨count, time_unit.CYCLE⟩, clock_type.INTERNAL_CLOCK⟩

/-- Modelled from the spec: `system_clock::now()`, absent from src/; the wall
clock, on the system clock.  `wall` is the time that the read finds. -/
def system_clock_now (wall : duration) : time_point :=
  ⟨wall, clock_type.SYSTEM_CLOCK⟩

/-- What the three clock reads of one calibration try find. -/
structure clock_sample where
  cycles_start : Int
  current_system_time : duration
  cycles_end : Int

/-- What the clock reads of one call of `to_system_time` find: the counter at
entry, and the sample of every calibration try `update_try`. -/
structure clock_readings where
  current_tsc_time : Int
  samples : Nat → clock_sample

/-- The three time points of a calibration try. -/
structure calibration_sample where
  cycles_start : time_point
  current_system_time : time_point
  cycles_end : time_point
  deriving DecidableEq, Repr

/-- The `for` loop of `to_system_time` from `update_try` on, with `remaining`
tries left: the sample of the first try whose two counter reads are closer
than `CLOSE_DISTANCE` (`none` when `close_pair_found` stays `false`), and the
number of tries made.  The two counter reads are on the same clock, so their
difference is the difference of their durations since the epoch. -/
def update_loop (impl : chrono_impl) (samples : Nat → clock_sample) :
    Nat → Nat → Option calibration_sample × Nat
  | 0, update_try => (none, update_try)
  | remaining + 1, update_try =>
    let cycles_start := internal_clock_now (samples update_try).cycles_start
    let current_system_time := system_clock_now (samples update_try).current_system_time
    let cycles_end := internal_clock_now (samples update_try).cycles_end
    if impl.lt (impl.sub cycles_end.m_since_epoch cycles_start.m_since_epoch) CLOSE_DISTANCE then
      (some ⟨cycles_start, current_system_time, cycles_end⟩, update_try + 1)
    else update_loop impl samples remaining (update_try + 1)

/-- The block `if (close_pair_found) { ... }`: the two stores. -/
def publish_offset (impl : chrono_impl) (st : offset_state) (tsc_unit : time_unit)
    (s : calibration_sample) : offset_state :=
  let cycles_middle := s.cycles_start.add impl
    (impl.div (impl.sub s.cycles_end.m_since_epoch s.cycles_start.m_since_epoch) 2)
  let new_offset :=
    impl.count (impl.sub s.current_system_time.time_since_epoch cycles_middle.time_since_epoch)
      time_unit.NSEC
  { st with
    ns_offset := new_offset
    offset_timestamp := impl.count cycles_middle.time_since_epoch tsc_unit }

/-- The block that runs when `lock.test_and_set` has acquired the flag: the
tries, the stores when a close pair was found, and `lock.clear`.  The result
is the state and the number of samples taken. -/
def recalibrate (impl : chrono_impl) (st : offset_state) (rd : clock_readings)
    (tsc_unit : time_unit) : offset_state × Nat :=
  let found := update_loop impl rd.samples MAX_UPDATE_TRIES 0
  let st1 : offset_state :=
    match found.1 with
    | some s => publish_offset impl st tsc_unit s
    | none => st
  ({ st1 with lock := false }, found.2)

/-- The condition under which `to_system_time` tries to acquire the flag:
`offset_ts == 0 || current_tsc_time.time_since_epoch() - duration(offset_ts,
tsc_unit) > OFFSET_TIMEOUT`. -/
def offset_is_stale (impl : chrono_impl) (st : offset_state) (rd : clock_readings) : Bool :=
  let current_tsc_time := internal_clock_now rd.current_tsc_time
  let tsc_unit := current_tsc_time.time_since_epoch.m_unit
  let offset_ts := st.offset_timestamp
  offset_ts = 0 ||
    impl.gt (impl.sub current_tsc_time.time_since_epoch ⟨offset_ts, tsc_unit⟩) OFFSET_TIMEOUT

/-- The `return` of `to_system_time`: the duration of `t` plus `ns_offset`,
converted to nanoseconds, on the system clock. -/
def system_time_with (impl : chrono_impl) (ns_offset : Int) (t : time_point) : time_point :=
  ⟨impl.convert_to time_unit.NSEC (impl.add t.time_since_epoch ⟨ns_offset, time_unit.NSEC⟩),
    clock_type.SYSTEM_CLOCK⟩

/-- What a call of `to_system_time` gives: the returned time point, the static
variables after the call, whether `lock.test_and_set` was called, and the
number of calibration samples taken. -/
structure conversion where
  result : time_point
  state : offset_state
  acquire_attempted : Bool
  samples_taken : Nat

/-- The function `to_system_time(t)`. -/
def to_system_time (impl : chrono_impl) (st : offset_state) (rd : clock_readings)
    (t : time_point) : conversion :=
  if offset_is_stale impl st rd then
    if st.lock = false then
      let r := recalibrate impl { st with lock := true } rd
        (internal_clock_now rd.current_tsc_time).time_since_epoch.m_unit
      ⟨system_time_with impl r.1.ns_offset t, r.1, true, r.2⟩
    else
      ⟨system_time_with impl st.ns_offset t, { st with lock := true }, true, 0⟩
  else
    ⟨system_time_with impl st.ns_offset t, st, false, 0⟩

/-- How a call in `time_point.cpp` ends: it returns, it throws the
`std::logic_error` of `convert_to`, or the recursion budget of the embedding
ran out. -/
inductive Outcome (α : Type) where
  | returned (a : α)
  | not_implemented
  | fuel_exhausted

/-- The function `time_point::convert_to(to_clock, t)`, with the static
variables before and after. -/
def time_point.convert_to (impl : chrono_impl) (st : offset_state) (rd : clock_readings)
    (to_clock : clock_type) (t : time_point) : Outcome (time_point × offset_state) :=
  if t.m_clock = to_clock then .returned (t, st)
  else
    if to_clock = clock_type.SYSTEM_CLOCK then
      .returned ((to_system_time impl st rd t).result, (to_system_time impl st rd t).state)
    else
      .not_implemented

/-- The comparison operators `time_point::operator==`, `!=`, `<`, `<=`, `>`,
`>=`: the six functions differ only in the operator `c` that they apply to
the durations.  `rd` is what the clock reads of the conversion find. -/
def time_point.compare_at (impl : chrono_impl) (c : comparison) (rd : clock_readings) :
    Nat → offset_state → time_point → time_point → Outcome (Bool × offset_state)
  | 0, _, _, _ => .fuel_exhausted
  | fuel + 1, st, self, t =>
    if self.m_clock = t.m_clock then
      .returned (impl.compare c self.m_since_epoch t.m_since_epoch, st)
    else
      if self.m_clock = clock_type.INTERNAL_CLOCK then
        match time_point.convert_to impl st rd clock_type.SYSTEM_CLOCK self with
        | .returned (converted, st1) => time_point.compare_at impl c rd fuel st1 converted t
        | .not_implemented => .not_implemented
        | .fuel_exhausted => .fuel_exhausted
      else
        match time_point.convert_to impl st rd clock_type.SYSTEM_CLOCK t with
        | .returned (converted, st1) => time_point.compare_at impl c rd fuel st1 self converted
        | .not_implemented => .not_implemented
        | .fuel_exhausted => .fuel_exhausted

/-- A comparison `self c t` of two time points: the operator calls itself at
most once, after the conversion. -/
def time_point.compare (impl : chrono_impl) (c : comparison) (rd : clock_readings)
    (st : offset_state) (self t : time_point) : Outcome (Bool × offset_state) :=
  time_point.compare_at impl c rd 2 st self t

/-- The operator `time_point::operator-(const time_point&)`, the difference
of two time points, with the static variables before and after.  `rd` is what
the clock reads of the conversion find. -/
def time_point.diff (impl : chrono_impl) (rd : clock_readings) (st : offset_state)
    (self t : time_point) : Outcome (duration × offset_state) :=
  if self.m_clock = t.m_clock then
    .returned (impl.sub self.m_since_epoch t.m_since_epoch, st)
  else
    if self.m_clock = clock_type.INTERNAL_CLOCK then
      match time_point.convert_to impl st rd clock_type.SYSTEM_CLOCK self with
      | .returned (converted, st1) =>
        .returned (impl.sub converted.m_since_epoch t.m_since_epoch, st1)
      | .not_implemented => .not_implemented
      | .fuel_exhausted => .fuel_exhausted
    else
      match time_point.convert_to impl st rd clock_type.SYSTEM_CLOCK t with
      | .returned (converted, st1) =>
        .returned (impl.sub self.m_since_epoch converted.m_since_epoch, st1)
      | .not_implemented => .not_implemented
      | .fuel_exhausted => .fuel_exhausted

/-! ### Durations as the specification describes them -/

/-- Modelled from the spec: the TSC frequency "established once at startup",
as `cycles` cycles in `nanoseconds` nanoseconds. -/
structure tsc_frequency where
  cycles : Nat
  nanoseconds : Nat
  deriving DecidableEq, Repr

/-- The nanoseconds in one wall-clock unit. -/
def unit_nanoseconds : time_unit → Int
  | .CYCLE => 1
  | .NSEC => 1
  | .USEC => 10 ^ 3
  | .MSEC => 10 ^ 6
  | .SEC => 10 ^ 9

/-- Modelled from the spec: a count of cycles in nanoseconds, "conversions
between cycle and wall units use a measured TSC frequency". -/
def cycles_to_nanoseconds (f : tsc_frequency) (count : Int) : Int :=
  Int.tdiv (count * f.nanoseconds) f.cycles

/-- Modelled from the spec: a count of nanoseconds in cycles. -/
def nanoseconds_to_cycles (f : tsc_frequency) (count : Int) : Int :=
  Int.tdiv (count * f.cycles) f.nanoseconds

/-- Modelled from the spec: `duration::convert_to(unit, d)`, absent from src/:
the duration `d` in the unit `unit`; a duration already in that unit is
returned as it is. -/
def spec_convert_to (f : tsc_frequency) (unit : time_unit) (d : duration) : duration :=
  if d.m_unit = unit then d
  else
    let nanoseconds :=
      if d.m_unit = time_unit.CYCLE then cycles_to_nanoseconds f d.m_rep
      else d.m_rep * unit_nanoseconds d.m_unit
    if unit = time_unit.CYCLE then ⟨nanoseconds_to_cycles f nanoseconds, unit⟩
    else ⟨Int.tdiv nanoseconds (unit_nanoseconds unit), unit⟩

/-- Modelled from the spec: the operations on durations of the absent
`chrono.hpp`.  A duration is an "integer count paired with a unit";
"arithmetic preserves the left operand's unit", the right operand being
converted to it; the division is the integer division of the count; a
comparison compares the counts in the unit of the left operand. -/
def spec_impl (f : tsc_frequency) : chrono_impl where
  sub := fun a b => ⟨a.m_rep - (spec_convert_to f a.m_unit b).m_rep, a.m_unit⟩
  add := fun a b => ⟨a.m_rep + (spec_convert_to f a.m_unit b).m_rep, a.m_unit⟩
  div := fun a n => ⟨Int.tdiv a.m_rep n, a.m_unit⟩
  eq := fun a b => a.m_rep = (spec_convert_to f a.m_unit b).m_rep
  ne := fun a b => a.m_rep ≠ (spec_convert_to f a.m_unit b).m_rep
  lt := fun a b => a.m_rep < (spec_convert_to f a.m_unit b).m_rep
  le := fun a b => a.m_rep ≤ (spec_convert_to f a.m_unit b).m_rep
  gt := fun a b => a.m_rep > (spec_convert_to f a.m_unit b).m_rep
  ge := fun a b => a.m_rep ≥ (spec_convert_to f a.m_unit b).m_rep
  count := fun a unit => (spec_convert_to f unit a).m_rep
  convert_to := spec_convert_to f

end chrono

namespace config

/-- The constant `static const char SYM_LIST_DELIM = ','`. -/
def SYM_LIST_DELIM : Char := ','

/-- The constant `static const char SYM_LIST_START`: the opening brace. -/
def SYM_LIST_START : Char := Char.ofNat 123

/-- The constant `static const char SYM_LIST_END`: the closing brace. -/
def SYM_LIST_END : Char := Char.ofNat 125

/-- The two `std::logic_error`s thrown by the expansion, with the position
that their message reports (the message also quotes the pattern). -/
inductive logic_error where
  | invalid_symbol (pos : Nat)
  | parsing_stopped (pos : Nat)
  deriving DecidableEq, Repr

/-- How a call ends: it returns a value, it throws `std::logic_error`, or the
recursion budget of the embedding ran out before the call ended. -/
inductive Outcome (α : Type) where
  | returned (a : α)
  | thrown (e : logic_error)
  | fuel_exhausted
  deriving DecidableEq, Repr

/-- The read `pattern[i]` on the NUL-terminated character array `pattern.c_str()`. -/
def char_at (pattern : List Char) (i : Nat) : Char :=
  pattern.getD i NUL

/-- The first `while (true)` loop of `expand_pattern`: starting with
`preamble_end` at the head of `rest` (the characters from `preamble_end` on),
advance until the terminator, a list start, or, when `nested`, a list end or a
list delimiter. -/
def scan_preamble (nested : Bool) : List Char → Nat → Nat
  | [], preamble_end => preamble_end
  | c :: rest, preamble_end =>
    if c = NUL then preamble_end
    else if c = SYM_LIST_START then preamble_end
    else if nested && (c = SYM_LIST_END || c = SYM_LIST_DELIM) then preamble_end
    else scan_preamble nested rest (preamble_end + 1)

/-- The two nested `for` loops building `expansion`: every
`preamble + list item + postscript item`, list items in the outer loop. -/
def concat_product (preamble : List Char) (list_expansion postscript_expansion : List (List Char)) :
    List (List Char) :=
  list_expansion.flatMap fun x => postscript_expansion.map fun y => preamble ++ x ++ y

mutual
/-- The recursive `expand_pattern(const char* pattern, size_t& pos, bool nested)`.
The result pairs the returned vector with the final value of `pos`. -/
def expand_pattern_at (pattern : List Char) : Nat → Nat → Bool →
    Outcome (List (List Char) × Nat)
  | 0, _, _ => .fuel_exhausted
  | fuel + 1, pos, nested =>
    let preamble_end := scan_preamble nested (pattern.drop pos) pos
    let preamble := (pattern.drop pos).take (preamble_end - pos)
    if char_at pattern preamble_end ≠ SYM_LIST_START then
      .returned ([preamble], preamble_end)
    else
      match expand_list pattern fuel (preamble_end + 1) [] with
      | .returned (list_expansion, list_end) =>
        match expand_pattern_at pattern fuel (list_end + 1) nested with
        | .returned (postscript_expansion, postscript_start) =>
          .returned (concat_product preamble list_expansion postscript_expansion,
            postscript_start)
        | .thrown e => .thrown e
        | .fuel_exhausted => .fuel_exhausted
      | .thrown e => .thrown e
      | .fuel_exhausted => .fuel_exhausted
/-- The second `while (true)` loop of `expand_pattern`, entered with the
current `list_end` and the `list_expansion` collected so far; it returns the
complete `list_expansion` and the position of the closing brace. -/
def expand_list (pattern : List Char) : Nat → Nat → List (List Char) →
    Outcome (List (List Char) × Nat)
  | 0, _, _ => .fuel_exhausted
  | fuel + 1, list_end, list_expansion =>
    match expand_pattern_at pattern fuel list_end true with
    | .returned (sublist_expansion, list_end) =>
      let list_expansion := list_expansion ++ sublist_expansion
      if char_at pattern list_end = SYM_LIST_DELIM then
        expand_list pattern fuel (list_end + 1) list_expansion
      else if char_at pattern list_end = SYM_LIST_END then
        .returned (list_expansion, list_end)
      else
        .thrown (.invalid_symbol list_end)
    | .thrown e => .thrown e
    | .fuel_exhausted => .fuel_exhausted
end

/-- The wrapper `expand_pattern(const std::string& pattern)`. -/
def expand_pattern (pattern : List Char) : Outcome (List (List Char)) :=
  match expand_pattern_at pattern (2 * pattern.length + 1) 0 false with
  | .returned (expansion, pos) =>
    if pos = pattern.length then .returned expansion
    else .thrown (.parsing_stopped pos)
  | .thrown e => .thrown e
  | .fuel_exhausted => .fuel_exhausted

/-! ### `select_pattern` -/

/-- The inner loop of `select_pattern`: does some string of `pattern_group`
match `name`, i.e. does `fnmatch(pattern, name, 0)` return `0` for one of them. -/
def group_matches (fnmatch : List Char → List Char → Int → Int) :
    List (List Char) → List Char → Bool
  | [], _ => false
  | pattern :: rest, name =>
    if fnmatch pattern name 0 = 0 then true else group_matches fnmatch rest name

/-- The function `select_pattern(name)` over the global `pattern_opts`, which is passed as an
argument; `none` is `nullptr`.  The library function `fnmatch` is a parameter;
`β` is the type of the option blocks that the entries point to. -/
def select_pattern {β : Type} (fnmatch : List Char → List Char → Int → Int) :
    List (List (List Char) × β) → List Char → Option β
  | [], _ => none
  | (pattern_group, pattern_cfg) :: rest, name =>
    if group_matches fnmatch pattern_group name then some pattern_cfg
    else select_pattern fnmatch rest name

/-! ### A shell glob, standing for the C library `fnmatch` -/

/-- The opening bracket of a glob set. -/
def GLOB_SET_START : Char := Char.ofNat 91

/-- The closing bracket of a glob set. -/
def GLOB_SET_END : Char := Char.ofNat 93

/-- The quoting character of a glob, the backslash. -/
def GLOB_QUOTE : Char := Char.ofNat 92

/-- Where the glob matcher stands: in plain pattern text, or inside a set
`[...]` that is being compared with the character `c`: right after the opening
bracket, among the members (`first` marks the position where a closing bracket
is still a member, `last` is the member a range may start from), or at the
upper end of a range. -/
inductive glob_mode where
  | plain
  | set_start (c : Char)
  | in_set (negated matched first : Bool) (last : Option Char) (c : Char)
  | range_end (negated matched : Bool) (lo c : Char)

/-- Does the set whose members start here have a closing bracket. -/
def set_closes : Bool → List Char → Bool
  | _, [] => false
  | first, x :: xs => if x = GLOB_SET_END && !first then true else set_closes false xs

/-- Does a set open here: `ps` is the pattern after an opening bracket. -/
def set_opens : List Char → Bool
  | [] => false
  | q :: ps => if q = '!' || q = '^' then set_closes true ps else set_closes true (q :: ps)

/-- Modelled from the spec: the "standard shell-glob (`*`, `?`, `[...]`)" with
which an expanded string is compared with a metric name; the C library
function `fnmatch` is not part of the repository.  `*` matches any string, `?`
any character, `[...]` a set of characters and ranges (negated by a leading
`!` or `^`), a backslash quotes the next character, any other character
matches itself. -/
def glob_match : List Char → glob_mode → List Char → Bool
  | [], .plain, name => name.isEmpty
  | [], _, _ => false
  | p :: ps, .plain, name =>
    if p = '*' then name.tails.any fun t => glob_match ps .plain t
    else if p = '?' then
      match name with
      | [] => false
      | _ :: t => glob_match ps .plain t
    else if p = GLOB_QUOTE then
      match ps with
      | [] => false
      | q :: ps1 =>
        match name with
        | [] => false
        | c :: t => c = q && glob_match ps1 .plain t
    else if p = GLOB_SET_START && set_opens ps then
      match name with
      | [] => false
      | c :: t => glob_match ps (.set_start c) t
    else
      match name with
      | [] => false
      | c :: t => c = p && glob_match ps .plain t
  | p :: ps, .set_start c, t =>
    if p = '!' || p = '^' then glob_match ps (.in_set true false true none c) t
    else glob_match ps (.in_set false (c = p) false (some p) c) t
  | p :: ps, .in_set negated matched first last c, t =>
    if p = GLOB_SET_END && !first then
      if matched != negated then glob_match ps .plain t else false
    else
      match last with
      | some lo =>
        if p = '-' && !ps.isEmpty && ps.head? != some GLOB_SET_END then
          glob_match ps (.range_end negated matched lo c) t
        else glob_match ps (.in_set negated (matched || c = p) false (some p) c) t
      | none => glob_match ps (.in_set negated (matched || c = p) false (some p) c) t
  | p :: ps, .range_end negated matched lo c, t =>
    glob_match ps (.in_set negated (matched || (lo ≤ c && c ≤ p)) false none c) t

/-- Modelled from the spec: `fnmatch(pattern, name, flags)` as the shell glob
above; it returns `0` on a match and a non-zero value (`FNM_NOMATCH`)
otherwise.  Only `flags = 0` is used by the program. -/
def glob_fnmatch (pattern name : List Char) (_flags : Int) : Int :=
  if glob_match pattern .plain name then 0 else 1

/-- The glob metacharacters: `*`, `?`, the opening bracket and the backslash. -/
def is_glob_meta (c : Char) : Bool :=
  c = '*' || c = '?' || c = GLOB_SET_START || c = GLOB_QUOTE

/-! ### The configuration document and `config_json` -/

/-- A parsed JSON value (`rapidjson::Value`).  Member names are the C strings
that `GetString()` returns; `real` is a number that is not an integer. -/
inductive Json where
  | null
  | bool (b : Bool)
  | int (z : Int)
  | real
  | string (s : List Char)
  | array (items : List Json)
  | object (members : List (List Char × Json))

namespace Json

/-- The test `IsObject()`. -/
def IsObject : Json → Bool
  | object _ => true
  | _ => false

/-- The range `MemberBegin() .. MemberEnd()`: the members in declaration order. -/
def members : Json → List (List Char × Json)
  | object ms => ms
  | _ => []

/-- The test `HasMember(name)`; a value that is not an object has no member. -/
def HasMember (v : Json) (name : List Char) : Bool :=
  v.members.any fun m => m.1 = name

/-- The access `operator[](name)`: the value of the first member called `name`. -/
def get (v : Json) (name : List Char) : Json :=
  match v.members.find? fun m => m.1 = name with
  | some m => m.2
  | none => null

/-- The test `IsUint64()`. -/
def IsUint64 : Json → Bool
  | int z => 0 ≤ z && z < 2 ^ 64
  | _ => false

/-- The accessor `GetUint64()`. -/
def GetUint64 : Json → Nat
  | int z => z.toNat
  | _ => 0

/-- The test `IsBool()`. -/
def IsBool : Json → Bool
  | bool _ => true
  | _ => false

/-- The accessor `GetBool()`. -/
def GetBool : Json → Bool
  | bool b => b
  | _ => false

end Json

namespace metrics

/-- Modelled from the spec: the gauge options `config::metrics::gauge`, of which
`config.cpp` uses the member `values`; `S` is `config::statistics`. -/
structure gauge (S : Type) where
  values : S

/-- Modelled from the spec: the counter options `config::metrics::counter`. -/
structure counter (S : Type) where
  values : S

/-- Modelled from the spec: the timer options `config::metrics::timer`, with
the idle timeout of the timer instances. -/
structure timer (S : Type) where
  idle_timeout : chrono.duration
  values : S

end metrics

/-- The options `config::metrics_dump`: the dump interval. -/
structure metrics_dump where
  interval : chrono.duration

/-- The options `config::core`: the enable flag. -/
structure core where
  enable : Bool

/-- The functions declared in the absent `config_impl.hpp` and option headers
that `config_json` calls; each takes the option object it updates and the JSON
value, and gives the updated object. -/
structure config_impl (S : Type) where
  configure_statistics : S → Json → S
  configure_gauge : metrics.gauge S → Json → metrics.gauge S
  configure_counter : metrics.counter S → Json → metrics.counter S
  configure_timer : metrics.timer S → Json → metrics.timer S
  configure_metrics_dump : metrics_dump → Json → metrics_dump
  configure_core : core → Json → core

/-- The global state that `config_json` reads and writes: `is_enabled()`, the
source document (`none` when it holds a parse error), the option objects and
`pattern_opts`.  An entry of `pattern_opts` holds the option block that its
pointer refers to. -/
structure config_state (S : Type) where
  is_enabled : Bool
  source : Option Json
  statistics_opts : S
  gauge_opts : metrics.gauge S
  counter_opts : metrics.counter S
  timer_opts : metrics.timer S
  metrics_dump_opts : metrics_dump
  core_opts : core
  pattern_opts : List (List (List Char) × Json)

/-- The four `configure` calls made for the `statistics` and the `defaults`
section. -/
def configure_all_statistics {S : Type} (impl : config_impl S) (st : config_state S)
    (statistics_config : Json) : config_state S :=
  let st := { st with statistics_opts := impl.configure_statistics st.statistics_opts statistics_config }
  let st := { st with gauge_opts :=
    { st.gauge_opts with values := impl.configure_statistics st.gauge_opts.values statistics_config } }
  let st := { st with counter_opts :=
    { st.counter_opts with values := impl.configure_statistics st.counter_opts.values statistics_config } }
  { st with timer_opts :=
    { st.timer_opts with values := impl.configure_statistics st.timer_opts.values statistics_config } }

/-- The block `if (cfg.HasMember("statistics")) { ... }`. -/
def configure_section_statistics {S : Type} (impl : config_impl S) (cfg : Json)
    (st : config_state S) : config_state S :=
  if cfg.HasMember "statistics".toList then
    configure_all_statistics impl st (cfg.get "statistics".toList)
  else st

/-- The block `if (cfg.HasMember("metrics")) { ... }` with its three inner sections. -/
def configure_section_metrics {S : Type} (impl : config_impl S) (cfg : Json)
    (st : config_state S) : config_state S :=
  if cfg.HasMember "metrics".toList then
    let metrics_config := cfg.get "metrics".toList
    let st1 : config_state S :=
      if metrics_config.HasMember "gauge".toList then
        { st with gauge_opts := impl.configure_gauge st.gauge_opts (metrics_config.get "gauge".toList) }
      else st
    let st2 : config_state S :=
      if metrics_config.HasMember "counter".toList then
        { st1 with
          counter_opts := impl.configure_counter st1.counter_opts (metrics_config.get "counter".toList) }
      else st1
    if metrics_config.HasMember "timer".toList then
      { st2 with timer_opts := impl.configure_timer st2.timer_opts (metrics_config.get "timer".toList) }
    else st2
  else st

/-- The block `if (cfg.HasMember("metrics-dump")) { ... }`. -/
def configure_section_metrics_dump {S : Type} (impl : config_impl S) (cfg : Json)
    (st : config_state S) : config_state S :=
  if cfg.HasMember "metrics-dump".toList then
    { st with metrics_dump_opts :=
      impl.configure_metrics_dump st.metrics_dump_opts (cfg.get "metrics-dump".toList) }
  else st

/-- The block `if (cfg.HasMember("core")) { ... }`. -/
def configure_section_core {S : Type} (impl : config_impl S) (cfg : Json)
    (st : config_state S) : config_state S :=
  if cfg.HasMember "core".toList then
    { st with core_opts := impl.configure_core st.core_opts (cfg.get "core".toList) }
  else st

/-- The old configuration format: `statistics`, `metrics`, `metrics-dump`,
`core`, in this order. -/
def configure_old_format {S : Type} (impl : config_impl S) (st : config_state S) (cfg : Json) :
    config_state S :=
  let st := configure_section_statistics impl cfg st
  let st := configure_section_metrics impl cfg st
  let st := configure_section_metrics_dump impl cfg st
  configure_section_core impl cfg st

/-- The block `if (cfg.HasMember("defaults")) { ... }`. -/
def configure_section_defaults {S : Type} (impl : config_impl S) (cfg : Json)
    (st : config_state S) : config_state S :=
  if cfg.HasMember "defaults".toList then
    configure_all_statistics impl st (cfg.get "defaults".toList)
  else st

/-- The block `if (cfg.HasMember("gauge")) { ... }`. -/
def configure_section_gauge {S : Type} (impl : config_impl S) (cfg : Json)
    (st : config_state S) : config_state S :=
  if cfg.HasMember "gauge".toList then
    { st with gauge_opts := impl.configure_gauge st.gauge_opts (cfg.get "gauge".toList) }
  else st

/-- The block `if (cfg.HasMember("counter")) { ... }`. -/
def configure_section_counter {S : Type} (impl : config_impl S) (cfg : Json)
    (st : config_state S) : config_state S :=
  if cfg.HasMember "counter".toList then
    { st with counter_opts := impl.configure_counter st.counter_opts (cfg.get "counter".toList) }
  else st

/-- The block `if (cfg.HasMember("timer")) { ... }`. -/
def configure_section_timer {S : Type} (impl : config_impl S) (cfg : Json)
    (st : config_state S) : config_state S :=
  if cfg.HasMember "timer".toList then
    { st with timer_opts := impl.configure_timer st.timer_opts (cfg.get "timer".toList) }
  else st

/-- The block `if (cfg.HasMember("dump-interval")) { ... }`. -/
def configure_dump_interval {S : Type} (cfg : Json) (st : config_state S) : config_state S :=
  if cfg.HasMember "dump-interval".toList then
    let dump_interval := cfg.get "dump-interval".toList
    if dump_interval.IsUint64 then
      { st with metrics_dump_opts :=
        { st.metrics_dump_opts with
          interval := ⟨chrono.to_int64 dump_interval.GetUint64, chrono.time_unit.MSEC⟩ } }
    else st
  else st

/-- The block `if (cfg.HasMember("enable")) { ... }`. -/
def configure_enable {S : Type} (cfg : Json) (st : config_state S) : config_state S :=
  if cfg.HasMember "enable".toList then
    let core_enable := cfg.get "enable".toList
    if core_enable.IsBool then
      { st with core_opts := { st.core_opts with enable := core_enable.GetBool } }
    else st
  else st

/-- The new configuration format: `defaults`, `gauge`, `counter`, `timer`,
`dump-interval`, `enable`, in this order. -/
def configure_new_format {S : Type} (impl : config_impl S) (st : config_state S) (cfg : Json) :
    config_state S :=
  let st := configure_section_defaults impl cfg st
  let st := configure_section_gauge impl cfg st
  let st := configure_section_counter impl cfg st
  let st := configure_section_timer impl cfg st
  let st := configure_dump_interval cfg st
  configure_enable cfg st

/-- The test that skips the reserved sections in the member loop: the ten
`strcmp(member_name.GetString(), ...) == 0` comparisons. -/
def is_reserved (member_name : List Char) : Bool :=
  member_name = "statistics".toList
  || member_name = "metrics".toList
  || member_name = "metrics-dump".toList
  || member_name = "core".toList
  || member_name = "defaults".toList
  || member_name = "gauge".toList
  || member_name = "counter".toList
  || member_name = "timer".toList
  || member_name = "dump-interval".toList
  || member_name = "enable".toList

/-- The member loop of `config_json`, run over the members that are left, with
the current `pattern_opts`.  It gives the value that `config_json` returns
(`none` if the recursion budget of an expansion ran out) and the final
`pattern_opts`. -/
def configure_patterns :
    List (List Char × Json) → List (List (List Char) × Json) →
      Option Bool × List (List (List Char) × Json)
  | [], pattern_opts => (some true, pattern_opts)
  | (member_name, member_value) :: rest, pattern_opts =>
    if is_reserved member_name then configure_patterns rest pattern_opts
    else
      match expand_pattern member_name with
      | .returned expansion =>
        configure_patterns rest (pattern_opts ++ [(expansion, member_value)])
      | .thrown _ => (some false, pattern_opts)
      | .fuel_exhausted => (none, pattern_opts)

/-- The function `config_json(config_data)`.  `parsed` is what `cfg.Parse<0>(config_data)`
leaves in the source document: `none` when `HasParseError()`.  The result is
the returned `bool` and the state after the call. -/
def config_json {S : Type} (impl : config_impl S) (st : config_state S) (parsed : Option Json) :
    Option Bool × config_state S :=
  if st.is_enabled then (some true, st)
  else
    let st := { st with source := parsed }
    match parsed with
    | none => (some false, st)
    | some cfg =>
      if !cfg.IsObject then (some false, st)
      else
        let st := configure_old_format impl st cfg
        let st := configure_new_format impl st cfg
        let r := configure_patterns cfg.members st.pattern_opts
        (r.1, { st with pattern_opts := r.2 })

end config

/-! ### The gauge metric -/

namespace statistics

/-- Modelled from the spec: the statistics accumulator of a metric, absent from
src/; it is given by the samples pushed into it, oldest first. -/
structure accumulator (V : Type) where
  samples : List (V × chrono.time_point)

/-- Modelled from the spec: a freshly constructed accumulator has no sample. -/
def accumulator.init {V : Type} : accumulator V := ⟨[]⟩

/-- Modelled from the spec: `values(value, timestamp)`, the push of one sample. -/
def accumulator.push {V : Type} (a : accumulator V) (value : V) (timestamp : chrono.time_point) :
    accumulator V :=
  ⟨a.samples ++ [(value, timestamp)]⟩

/-- Modelled from the spec: the `COUNT` tag, the number of samples pushed. -/
def accumulator.count {V : Type} (a : accumulator V) : Nat := a.samples.length

end statistics

namespace metrics

/-- A gauge: the last value, its timestamp and the accumulator `values`. -/
structure gauge (V : Type) where
  value : V
  timestamp : chrono.time_point
  values : statistics.accumulator V

/-- The constructor `gauge::gauge()`: `value_type()` is the zero of the value type. -/
def gauge.init {V : Type} [Zero V] (unit : chrono.time_unit) : gauge V :=
  { value := 0, timestamp := chrono.time_point.init unit, values := statistics.accumulator.init }

/-- The method `gauge::set(value, timestamp)`. -/
def gauge.set {V : Type} (self : gauge V) (value : V) (timestamp : chrono.time_point) : gauge V :=
  let self := { self with value := value }
  let self := { self with timestamp := timestamp }
  { self with values := self.values.push self.value self.timestamp }

/-- A sequence of `set` calls on a gauge, in order. -/
def gauge.set_all {V : Type} (self : gauge V) (sets : List (V × chrono.time_point)) : gauge V :=
  sets.foldl (fun g s => g.set s.1 s.2) self

end metrics

/-! ### Notions used to state the properties -/

namespace config

/-- The characters of `pattern` from index `a` up to, not including, index `b`. -/
def segment (pattern : List Char) (a b : Nat) : List Char :=
  (pattern.drop a).take (b - a)

/-- The characters at which the preamble scan stops. -/
def is_stop (nested : Bool) (c : Char) : Prop :=
  c = NUL ∨ c = SYM_LIST_START ∨ (nested = true ∧ (c = SYM_LIST_END ∨ c = SYM_LIST_DELIM))

/-- The number of brace lists that are open after reading `s`, starting with
`depth` open lists; a list end met while no list is open closes nothing. -/
def brace_depth : Nat → List Char → Nat
  | depth, [] => depth
  | depth, c :: s =>
    if c = SYM_LIST_START then brace_depth (depth + 1) s
    else if c = SYM_LIST_END then brace_depth (depth - 1) s
    else brace_depth depth s

/-- The characters at which a call of the recursive expansion returns. -/
def is_return_stop (nested : Bool) (c : Char) : Prop :=
  c = NUL ∨ (nested = true ∧ (c = SYM_LIST_END ∨ c = SYM_LIST_DELIM))

/-- A word of the pattern grammar: a C string without a list start, a list
end or a list delimiter (and, being a C string, without NUL). -/
def is_word (w : List Char) : Bool :=
  w.all fun c => c != NUL && c != SYM_LIST_START && c != SYM_LIST_END && c != SYM_LIST_DELIM

mutual
/-- A pattern of the grammar of the specification,
`pattern := word ( "{" list "}" pattern )?`: a word, or a word, a brace list
and a postscript pattern. -/
inductive pattern_tree where
  | word (w : List Char)
  | braces (w : List Char) (list : pattern_list) (postscript : pattern_tree)
/-- A list of the grammar of the specification, `list := pattern ( "," pattern )*`. -/
inductive pattern_list where
  | single (p : pattern_tree)
  | cons (p : pattern_tree) (rest : pattern_list)
end

/-- The alternatives of a brace list, in order. -/
def pattern_list.to_list : pattern_list → List pattern_tree
  | .single p => [p]
  | .cons p rest => p :: rest.to_list

mutual
/-- The pattern string that a grammar pattern stands for. -/
def pattern_tree.text : pattern_tree → List Char
  | .word w => w
  | .braces w list postscript =>
    w ++ SYM_LIST_START :: (list.text ++ SYM_LIST_END :: postscript.text)
/-- The text of a brace list, without its braces. -/
def pattern_list.text : pattern_list → List Char
  | .single p => p.text
  | .cons p rest => p.text ++ SYM_LIST_DELIM :: rest.text
end

mutual
/-- Every word of the pattern is a word of the grammar. -/
def pattern_tree.well_formed : pattern_tree → Bool
  | .word w => is_word w
  | .braces w list postscript => is_word w && list.well_formed && postscript.well_formed
/-- Every word of the list is a word of the grammar. -/
def pattern_list.well_formed : pattern_list → Bool
  | .single p => p.well_formed
  | .cons p rest => p.well_formed && rest.well_formed
end

mutual
/-- The cartesian-concat unfolding of a pattern, as the specification words
it: order preserved left to right. -/
def pattern_tree.unfold : pattern_tree → List (List Char)
  | .word w => [w]
  | .braces w list postscript =>
    list.unfold.flatMap fun x => postscript.unfold.map fun y => w ++ x ++ y
/-- The unfoldings of the alternatives of a list, one after the other. -/
def pattern_list.unfold : pattern_list → List (List Char)
  | .single p => p.unfold
  | .cons p rest => p.unfold ++ rest.unfold
end

/-- An instance of the absent `configure` functions, for running `config_json`
on concrete documents: `config::statistics` carries no data and every
`configure` function leaves its option object as it is. -/
def plain_impl : config_impl Unit where
  configure_statistics := fun s _ => s
  configure_gauge := fun g _ => g
  configure_counter := fun c _ => c
  configure_timer := fun t _ => t
  configure_metrics_dump := fun d _ => d
  configure_core := fun c _ => c

/-- A disabled runtime with an empty pattern list and a null source document. -/
def plain_state : config_state Unit where
  is_enabled := false
  source := some Json.null
  statistics_opts := ()
  gauge_opts := ⟨()⟩
  counter_opts := ⟨()⟩
  timer_opts := ⟨⟨0, chrono.time_unit.MSEC⟩, ()⟩
  metrics_dump_opts := ⟨⟨0, chrono.time_unit.MSEC⟩⟩
  core_opts := ⟨false⟩
  pattern_opts := []

/-- The configuration of scenario S2:
`{"enable":true,"req.{a,b}":{"values":{"tags":["count","avg"]}}}`. -/
def scenario_s2 : Json :=
  .object [("enable".toList, .bool true),
    ("req.\x7ba,b\x7d".toList,
      .object [("values".toList,
        .object [("tags".toList, .array [.string "count".toList, .string "avg".toList])])])]

/-- The option block of the pattern key of scenario S2. -/
def scenario_s2_block : Json :=
  .object [("values".toList,
    .object [("tags".toList, .array [.string "count".toList, .string "avg".toList])])]

/-- The entries that the member loop appends for `members`: one for every
member whose name is not reserved and whose expansion returns, in order. -/
def pattern_entries (members : List (List Char × Json)) : List (List (List Char) × Json) :=
  members.filterMap fun m =>
    if is_reserved m.1 then none
    else
      match expand_pattern m.1 with
      | .returned expansion => some (expansion, m.2)
      | _ => none

/-- The state after the two configuration formats have been applied to the
members of the object `cfg`, the document being stored as the source. -/
def configure_sections {S : Type} (impl : config_impl S) (st : config_state S) (cfg : Json) :
    config_state S :=
  configure_new_format impl (configure_old_format impl { st with source := some cfg } cfg) cfg

/-- What no section of either configuration format touches. -/
def same_frame {S : Type} (st1 st2 : config_state S) : Prop :=
  st1.pattern_opts = st2.pattern_opts ∧ st1.is_enabled = st2.is_enabled ∧ st1.source = st2.source

/-- The configuration of scenario S4, `{"req.{a,b":{}}`: the brace list of
its key is never closed. -/
def scenario_s4 : Json :=
  .object [("req.\x7ba,b".toList, .object [])]

/-- The default configuration of the queue benchmark:
`{"enable": true, "events": {"tags": ["count"]}}`. -/
def benchmark_config : Json :=
  .object [("enable".toList, .bool true),
    ("events".toList, .object [("tags".toList, .array [.string "count".toList])])]

/-- A configuration with two pattern keys that overlap: `a` and `{a,b}`. -/
def overlapping_config : Json :=
  .object [("a".toList, .int 1), ("\x7ba,b\x7d".toList, .int 2)]

/-- A configuration whose keys have a list end without a list start and a
delimiter outside any list: `{"a,b":{}, "a}":{}}`. -/
def stray_config : Json :=
  .object [("a,b".toList, .object []), ("a\x7d".toList, .object [])]

/-- A configuration with a section, a pattern key that expands, and a pattern
key that does not: `{"enable":true, "a":{}, "b{":{}}`. -/
def half_valid_config : Json :=
  .object [("enable".toList, .bool true), ("a".toList, .object []),
    ("b\x7b".toList, .object [])]

end config

namespace chrono

/-- The test of the calibration loop on one sample: the two counter reads are
closer than `CLOSE_DISTANCE`. -/
def is_close (impl : chrono_impl) (s : clock_sample) : Bool :=
  impl.lt (impl.sub (internal_clock_now s.cycles_end).m_since_epoch
    (internal_clock_now s.cycles_start).m_since_epoch) CLOSE_DISTANCE

/-- The three time points that the reads of a sample give. -/
def sample_points (s : clock_sample) : calibration_sample :=
  ⟨internal_clock_now s.cycles_start, system_clock_now s.current_system_time,
    internal_clock_now s.cycles_end⟩

/-- Clock reads for one call: the counter at entry is `now`, and every
calibration try finds the same sample `s`. -/
def steady_readings (now : Int) (s : clock_sample) : clock_readings :=
  ⟨now, fun _ => s⟩

/-- Clock reads for one call: the counter at entry is `now`, the tries before
try `k` find the sample `far` and the tries from `k` on the sample `near`. -/
def readings_close_at (now : Int) (k : Nat) (far near : clock_sample) : clock_readings :=
  ⟨now, fun i => if i < k then far else near⟩

/-- A sample whose two counter reads are a million cycles apart. -/
def far_sample : clock_sample := ⟨0, ⟨0, time_unit.NSEC⟩, 10 ^ 6⟩

/-- A sample whose two counter reads are eleven cycles apart, the wall clock
reading five thousand nanoseconds. -/
def near_sample : clock_sample := ⟨100, ⟨5000, time_unit.NSEC⟩, 111⟩

/-- A counter of two cycles per nanosecond. -/
def two_ghz : tsc_frequency := ⟨2, 1⟩

/-- One call of `to_system_time` in a run: what its clock reads find, and its
argument. -/
structure system_time_call where
  readings : clock_readings
  argument : time_point

/-- One call of a sequential run, as it happened: the static variables that
the call found, the call, and what it gave. -/
structure call_record where
  before : offset_state
  call : system_time_call
  outcome : conversion

/-- A sequential run of calls of `to_system_time`: every call starts from the
static variables that the call before it left. -/
def run_to_system_time (impl : chrono_impl) :
    offset_state → List system_time_call → List call_record
  | _, [] => []
  | st, call :: calls =>
    ⟨st, call, to_system_time impl st call.readings call.argument⟩ ::
      run_to_system_time impl (to_system_time impl st call.readings call.argument).state calls

/-- A run of four calls on one time point: the first finds the offset never
calibrated and no close pair, the second finds a close pair at its fourth
try, the third comes 20 cycles later and finds the offset fresh, the fourth
comes more than 15 s later and finds it stale. -/
def four_calls : List system_time_call :=
  [⟨steady_readings 1000 far_sample, ⟨⟨1000, time_unit.CYCLE⟩, clock_type.INTERNAL_CLOCK⟩⟩,
   ⟨readings_close_at 1000 3 far_sample near_sample,
     ⟨⟨1000, time_unit.CYCLE⟩, clock_type.INTERNAL_CLOCK⟩⟩,
   ⟨steady_readings 1020 far_sample, ⟨⟨1000, time_unit.CYCLE⟩, clock_type.INTERNAL_CLOCK⟩⟩,
   ⟨steady_readings (40 * 10 ^ 9) near_sample,
     ⟨⟨1000, time_unit.CYCLE⟩, clock_type.INTERNAL_CLOCK⟩⟩]

end chrono

namespace config

/-- The string that the conversion from `const char*` to `std::string`
builds: the characters before the first NUL.  Every pattern that
`config_json` passes to `expand_pattern` is built in this way. -/
def c_string (chars : List Char) : List Char :=
  chars.takeWhile fun c => c ≠ NUL

/-- What one invocation of the recursive `expand_pattern` does itself: it
reads the character `pattern[i]`, or it calls `expand_pattern` at the
position `pos` with the flag `nested`. -/
inductive expand_event where
  | read (i : Nat)
  | call (pos : Nat) (nested : Bool)
  deriving DecidableEq, Repr

/-- The reads and recursive calls of the second `while (true)` loop, entered
with `list_end`: every turn calls `expand_pattern` at `list_end` and, when
the call returns, reads the character at the new `list_end`. -/
def list_events (pattern : List Char) : Nat → Nat → List expand_event
  | 0, _ => []
  | fuel + 1, list_end =>
    .call list_end true ::
      match expand_pattern_at pattern fuel list_end true with
      | .returned (_, list_end) =>
        .read list_end ::
          if char_at pattern list_end = SYM_LIST_DELIM then
            list_events pattern fuel (list_end + 1)
          else []
      | _ => []

/-- The reads and recursive calls of one invocation of the recursive
`expand_pattern` at `pos`: the reads of the preamble scan, from `pos` to
`preamble_end`, then those of the list loop and, when the loop ends at a
list end, the call for the postscript. -/
def pattern_events (pattern : List Char) : Nat → Nat → Bool → List expand_event
  | 0, _, _ => []
  | fuel + 1, pos, nested =>
    let preamble_end := scan_preamble nested (pattern.drop pos) pos
    (List.range' pos (preamble_end - pos + 1)).map .read ++
      if char_at pattern preamble_end ≠ SYM_LIST_START then []
      else
        list_events pattern fuel (preamble_end + 1) ++
          match expand_list pattern fuel (preamble_end + 1) [] with
          | .returned (_, list_end) => [.call (list_end + 1) nested]
          | _ => []

/-- A read is in bounds when it is not beyond the terminator, at index
`length`; a recursive call is in bounds when it starts after the start `pos`
of its caller and not beyond the terminator. -/
def event_in_bounds (length pos : Nat) : expand_event → Prop
  | .read i => i ≤ length
  | .call start _ => pos < start ∧ start ≤ length

end config

/-! ## Properties -/

namespace config

/-! ### Characters and segments of a pattern -/

theorem char_at_of_length_le {p : List Char} {i : Nat} (h : p.length ≤ i) : char_at p i = NUL := by
  simp [char_at, List.getD_eq_getElem?_getD, List.getElem?_eq_none h]

theorem lt_length_of_char_at_ne_nul {p : List Char} {i : Nat} (h : char_at p i ≠ NUL) :
    i < p.length := by
  by_contra hlt
  exact h (char_at_of_length_le (Nat.le_of_not_lt hlt))

theorem char_at_drop (p : List Char) (a k : Nat) : (p.drop a).getD k NUL = char_at p (a + k) := by
  simp [char_at, List.getD_eq_getElem?_getD, List.getElem?_drop]

theorem segment_self (p : List Char) (a : Nat) : segment p a a = [] := by
  simp [segment]

theorem segment_append (p : List Char) {a b c : Nat} (hab : a ≤ b) (hbc : b ≤ c) :
    segment p a c = segment p a b ++ segment p b c := by
  unfold segment
  have h1 : c - a = (b - a) + (c - b) := by omega
  rw [h1, List.take_add, List.drop_drop]
  have h2 : a + (b - a) = b := by omega
  rw [h2]

theorem segment_one (p : List Char) {i : Nat} (h : i < p.length) :
    segment p i (i + 1) = [char_at p i] := by
  unfold segment char_at
  have h1 : i + 1 - i = 1 := by omega
  rw [h1, List.getD_eq_getElem?_getD, List.getElem?_eq_getElem h,
    List.take_one_drop_eq_of_lt_length h]
  simp

theorem segment_zero_length (p : List Char) : segment p 0 p.length = p := by
  simp [segment]

theorem segment_to_end (p : List Char) (a : Nat) : segment p a p.length = p.drop a := by
  unfold segment
  apply List.take_of_length_le
  simp

theorem scan_preamble_spec (nested : Bool) (l : List Char) (b : Nat) :
    ∃ k, scan_preamble nested l b = b + k ∧ k ≤ l.length ∧
      (∀ c ∈ l.take k, ¬ is_stop nested c) ∧ is_stop nested (l.getD k NUL) := by
  induction l generalizing b with
  | nil => exact ⟨0, by simp [scan_preamble], by simp, by simp, by simp [is_stop]⟩
  | cons c rest ih =>
    by_cases hstop : is_stop nested c
    · refine ⟨0, ?_, by simp, by simp, by simpa using hstop⟩
      unfold scan_preamble
      rcases hstop with h | h | ⟨hn, h | h⟩
      · simp [h]
      · simp [h]
      · simp [h, hn]
      · simp [h, hn]
    · obtain ⟨k, hk, hlen, hseg, hend⟩ := ih (b + 1)
      refine ⟨k + 1, ?_, by simpa using hlen, ?_, by simpa using hend⟩
      · have h1 : c ≠ NUL := fun h => hstop (Or.inl h)
        have h2 : c ≠ SYM_LIST_START := fun h => hstop (Or.inr (Or.inl h))
        have h3 : ¬ (nested = true ∧ (c = SYM_LIST_END ∨ c = SYM_LIST_DELIM)) :=
          fun h => hstop (Or.inr (Or.inr h))
        unfold scan_preamble
        simp only [h1, h2, if_false]
        rw [if_neg (by simpa using h3), hk]
        omega
      · intro x hx
        simp only [List.take_succ_cons, List.mem_cons] at hx
        rcases hx with rfl | hx
        · exact hstop
        · exact hseg x hx

/-- The preamble scan from `pos`: it ends at a stopping character, at or after
`pos` and not after the terminator, and passes over none. -/
theorem scan_preamble_at (p : List Char) (pos : Nat) (nested : Bool) (h : pos ≤ p.length) :
    pos ≤ scan_preamble nested (p.drop pos) pos ∧
    scan_preamble nested (p.drop pos) pos ≤ p.length ∧
    (∀ c ∈ segment p pos (scan_preamble nested (p.drop pos) pos), ¬ is_stop nested c) ∧
    is_stop nested (char_at p (scan_preamble nested (p.drop pos) pos)) := by
  obtain ⟨k, hk, hlen, hseg, hend⟩ := scan_preamble_spec nested (p.drop pos) pos
  rw [hk]
  simp only [List.length_drop] at hlen
  refine ⟨by omega, by omega, ?_, ?_⟩
  · simpa [segment] using hseg
  · rw [← char_at_drop]; exact hend

/-! ### One step of the expansion -/

theorem expand_pattern_at_returned {p : List Char} {fuel pos : Nat} {nested : Bool}
    {e : List (List Char)} {q : Nat}
    (h : expand_pattern_at p (fuel + 1) pos nested = .returned (e, q)) :
    (char_at p (scan_preamble nested (p.drop pos) pos) ≠ SYM_LIST_START ∧
      e = [segment p pos (scan_preamble nested (p.drop pos) pos)] ∧
      q = scan_preamble nested (p.drop pos) pos) ∨
    (char_at p (scan_preamble nested (p.drop pos) pos) = SYM_LIST_START ∧
      ∃ lexp q1 pexp,
        expand_list p fuel (scan_preamble nested (p.drop pos) pos + 1) [] = .returned (lexp, q1) ∧
        expand_pattern_at p fuel (q1 + 1) nested = .returned (pexp, q) ∧
        e = concat_product (segment p pos (scan_preamble nested (p.drop pos) pos)) lexp pexp) := by
  rw [expand_pattern_at] at h
  by_cases hc : char_at p (scan_preamble nested (p.drop pos) pos) = SYM_LIST_START
  · right
    refine ⟨hc, ?_⟩
    simp only [hc, ne_eq, not_true_eq_false, if_false] at h
    cases hl : expand_list p fuel (scan_preamble nested (p.drop pos) pos + 1) [] with
    | returned r =>
      obtain ⟨lexp, q1⟩ := r
      simp only [hl] at h
      cases hp : expand_pattern_at p fuel (q1 + 1) nested with
      | returned r2 =>
        obtain ⟨pexp, q2⟩ := r2
        simp only [hp, Outcome.returned.injEq, Prod.mk.injEq] at h
        exact ⟨lexp, q1, pexp, rfl, by rw [hp, h.2], by rw [← h.1]; rfl⟩
      | thrown e2 => simp [hp] at h
      | fuel_exhausted => simp [hp] at h
    | thrown e2 => simp [hl] at h
    | fuel_exhausted => simp [hl] at h
  · left
    simp only [ne_eq, hc, not_false_eq_true, if_true, Outcome.returned.injEq, Prod.mk.injEq] at h
    exact ⟨hc, by rw [← h.1]; rfl, h.2.symm⟩

theorem expand_list_returned {p : List Char} {fuel le : Nat} {acc e : List (List Char)} {q : Nat}
    (h : expand_list p (fuel + 1) le acc = .returned (e, q)) :
    ∃ sub q1, expand_pattern_at p fuel le true = .returned (sub, q1) ∧
      ((char_at p q1 = SYM_LIST_DELIM ∧
          expand_list p fuel (q1 + 1) (acc ++ sub) = .returned (e, q)) ∨
       (char_at p q1 ≠ SYM_LIST_DELIM ∧ char_at p q1 = SYM_LIST_END ∧
          e = acc ++ sub ∧ q = q1)) := by
  rw [expand_list] at h
  cases hp : expand_pattern_at p fuel le true with
  | returned r =>
    obtain ⟨sub, q1⟩ := r
    refine ⟨sub, q1, rfl, ?_⟩
    simp only [hp] at h
    by_cases hd : char_at p q1 = SYM_LIST_DELIM
    · left
      simp only [hd, if_true] at h
      exact ⟨hd, h⟩
    · right
      simp only [hd, if_false] at h
      by_cases he : char_at p q1 = SYM_LIST_END
      · simp only [he, if_true, Outcome.returned.injEq, Prod.mk.injEq] at h
        exact ⟨hd, he, h.1.symm, h.2.symm⟩
      · simp [he] at h
  | thrown e2 => simp [hp] at h
  | fuel_exhausted => simp [hp] at h

theorem syms_ne : SYM_LIST_START ≠ NUL ∧ SYM_LIST_END ≠ NUL ∧ SYM_LIST_DELIM ≠ NUL ∧
    SYM_LIST_START ≠ SYM_LIST_END ∧ SYM_LIST_START ≠ SYM_LIST_DELIM ∧
    SYM_LIST_END ≠ SYM_LIST_DELIM := by
  decide

/-- Where the calls return: a pattern call started inside the string returns
at or after its start, not after the terminator, on the terminator or, when
nested, on a list end or delimiter; the list loop returns on a list end. -/
theorem expand_bounds (p : List Char) : ∀ fuel,
    (∀ pos nested e q, pos ≤ p.length →
      expand_pattern_at p fuel pos nested = .returned (e, q) →
      pos ≤ q ∧ q ≤ p.length ∧ is_return_stop nested (char_at p q)) ∧
    (∀ le acc e q, le ≤ p.length →
      expand_list p fuel le acc = .returned (e, q) →
      le ≤ q ∧ q < p.length ∧ char_at p q = SYM_LIST_END) := by
  intro fuel
  induction fuel with
  | zero =>
    constructor
    · intro pos nested e q _ h; simp [expand_pattern_at] at h
    · intro le acc e q _ h; simp [expand_list] at h
  | succ fuel ih =>
    obtain ⟨ihp, ihl⟩ := ih
    constructor
    · intro pos nested e q hpos h
      obtain ⟨h1, h2, _, h4⟩ := scan_preamble_at p pos nested hpos
      rcases expand_pattern_at_returned h with ⟨hc, _, rfl⟩ | ⟨hc, lexp, q1, pexp, hl, hp, _⟩
      · refine ⟨h1, h2, ?_⟩
        rcases h4 with h | h | h
        · exact Or.inl h
        · exact absurd h hc
        · exact Or.inr h
      · have hlt : scan_preamble nested (p.drop pos) pos < p.length :=
          lt_length_of_char_at_ne_nul (by rw [hc]; exact syms_ne.1)
        obtain ⟨hq1, hq1', _⟩ := ihl _ _ _ _ hlt hl
        obtain ⟨hq, hq', hst⟩ := ihp _ _ _ _ hq1' hp
        exact ⟨by omega, hq', hst⟩
    · intro le acc e q hle h
      obtain ⟨sub, q1, hp, hcase⟩ := expand_list_returned h
      obtain ⟨hq1, hq1', _⟩ := ihp _ _ _ _ hle hp
      rcases hcase with ⟨hd, hl⟩ | ⟨_, he, _, rfl⟩
      · have hlt : q1 < p.length :=
          lt_length_of_char_at_ne_nul (by rw [hd]; exact syms_ne.2.2.1)
        obtain ⟨hq, hq', hend⟩ := ihl _ _ _ _ hlt hl
        exact ⟨by omega, hq', hend⟩
      · exact ⟨hq1, lt_length_of_char_at_ne_nul (by rw [he]; exact syms_ne.2.1), he⟩

/-! ### The recursion budget -/

/-- A larger budget does not change an outcome that was reached. -/
theorem expand_fuel_mono (p : List Char) : ∀ fuel,
    (∀ pos nested, expand_pattern_at p fuel pos nested ≠ .fuel_exhausted →
      ∀ fuel2, fuel ≤ fuel2 →
        expand_pattern_at p fuel2 pos nested = expand_pattern_at p fuel pos nested) ∧
    (∀ le acc, expand_list p fuel le acc ≠ .fuel_exhausted →
      ∀ fuel2, fuel ≤ fuel2 → expand_list p fuel2 le acc = expand_list p fuel le acc) := by
  intro fuel
  induction fuel with
  | zero =>
    constructor
    · intro pos nested h; simp [expand_pattern_at] at h
    · intro le acc h; simp [expand_list] at h
  | succ fuel ih =>
    obtain ⟨ihp, ihl⟩ := ih
    constructor
    · intro pos nested h fuel2 hle
      obtain ⟨f2, rfl⟩ : ∃ f2, fuel2 = f2 + 1 := ⟨fuel2 - 1, by omega⟩
      have hf : fuel ≤ f2 := by omega
      rw [expand_pattern_at] at h ⊢
      rw [expand_pattern_at]
      by_cases hc : char_at p (scan_preamble nested (p.drop pos) pos) = SYM_LIST_START
      · simp only [hc, ne_eq, not_true_eq_false, if_false] at h ⊢
        cases hl : expand_list p fuel (scan_preamble nested (p.drop pos) pos + 1) [] with
        | returned r =>
          obtain ⟨lexp, q1⟩ := r
          rw [ihl _ _ (by rw [hl]; simp) f2 hf, hl]
          simp only [hl] at h
          simp only
          cases hp : expand_pattern_at p fuel (q1 + 1) nested with
          | returned r2 => rw [ihp _ _ (by rw [hp]; simp) f2 hf, hp]
          | thrown e2 => rw [ihp _ _ (by rw [hp]; simp) f2 hf, hp]
          | fuel_exhausted => simp [hp] at h
        | thrown e2 => rw [ihl _ _ (by rw [hl]; simp) f2 hf, hl]
        | fuel_exhausted => simp [hl] at h
      · simp only [ne_eq, hc, not_false_eq_true, if_true]
    · intro le acc h fuel2 hle
      obtain ⟨f2, rfl⟩ : ∃ f2, fuel2 = f2 + 1 := ⟨fuel2 - 1, by omega⟩
      have hf : fuel ≤ f2 := by omega
      rw [expand_list] at h ⊢
      rw [expand_list]
      cases hp : expand_pattern_at p fuel le true with
      | returned r =>
        obtain ⟨sub, q1⟩ := r
        rw [ihp _ _ (by rw [hp]; simp) f2 hf, hp]
        simp only [hp] at h
        simp only
        by_cases hd : char_at p q1 = SYM_LIST_DELIM
        · simp only [hd, if_true] at h ⊢
          exact ihl _ _ h f2 hf
        · simp only [hd, if_false]
      | thrown e2 => rw [ihp _ _ (by rw [hp]; simp) f2 hf, hp]
      | fuel_exhausted => simp [hp] at h

/-- The budget `2 * (length - pos) + 1` is enough for a pattern call at `pos`,
and `2 * (length - list_end) + 2` for the list loop at `list_end`. -/
theorem expand_fuel_suffices (p : List Char) : ∀ fuel,
    (∀ pos nested, pos ≤ p.length → 2 * (p.length - pos) + 1 ≤ fuel →
      expand_pattern_at p fuel pos nested ≠ .fuel_exhausted) ∧
    (∀ le acc, le ≤ p.length → 2 * (p.length - le) + 2 ≤ fuel →
      expand_list p fuel le acc ≠ .fuel_exhausted) := by
  intro fuel
  induction fuel with
  | zero =>
    constructor
    · intro pos nested _ h; omega
    · intro le acc _ h; omega
  | succ fuel ih =>
    obtain ⟨ihp, ihl⟩ := ih
    constructor
    · intro pos nested hpos hfuel
      obtain ⟨h1, h2, _, _⟩ := scan_preamble_at p pos nested hpos
      rw [expand_pattern_at]
      by_cases hc : char_at p (scan_preamble nested (p.drop pos) pos) = SYM_LIST_START
      · have hlt : scan_preamble nested (p.drop pos) pos < p.length :=
          lt_length_of_char_at_ne_nul (by rw [hc]; exact syms_ne.1)
        simp only [hc, ne_eq, not_true_eq_false, if_false]
        cases hl : expand_list p fuel (scan_preamble nested (p.drop pos) pos + 1) [] with
        | returned r =>
          obtain ⟨lexp, q1⟩ := r
          obtain ⟨hq1, hq1', _⟩ := (expand_bounds p fuel).2 _ _ _ _ hlt hl
          simp only
          cases hp : expand_pattern_at p fuel (q1 + 1) nested with
          | returned r2 => simp
          | thrown e2 => simp
          | fuel_exhausted => exact absurd hp (ihp _ _ hq1' (by omega))
        | thrown e2 => simp
        | fuel_exhausted => exact absurd hl (ihl _ _ hlt (by omega))
      · simp [hc]
    · intro le acc hle hfuel
      rw [expand_list]
      cases hp : expand_pattern_at p fuel le true with
      | returned r =>
        obtain ⟨sub, q1⟩ := r
        obtain ⟨hq1, hq1', _⟩ := (expand_bounds p fuel).1 _ _ _ _ hle hp
        simp only
        by_cases hd : char_at p q1 = SYM_LIST_DELIM
        · have hlt : q1 < p.length :=
            lt_length_of_char_at_ne_nul (by rw [hd]; exact syms_ne.2.2.1)
          simp only [hd, if_true]
          exact ihl _ _ hlt (by omega)
        · simp only [hd, if_false]
          by_cases he : char_at p q1 = SYM_LIST_END
          · simp [he]
          · simp [he]
      | thrown e2 => simp
      | fuel_exhausted => exact absurd hp (ihp _ _ hle (by omega))

/-- The budget that `expand_pattern` gives to the recursive expansion is enough. -/
theorem expand_pattern_at_top_ne_fuel_exhausted (p : List Char) (nested : Bool) :
    expand_pattern_at p (2 * p.length + 1) 0 nested ≠ .fuel_exhausted :=
  (expand_fuel_suffices p _).1 0 nested (Nat.zero_le _) (by omega)

/-- The expansion of a pattern always ends: it returns or it throws. -/
theorem expand_pattern_ne_fuel_exhausted (p : List Char) :
    expand_pattern p ≠ .fuel_exhausted := by
  unfold expand_pattern
  have h := expand_pattern_at_top_ne_fuel_exhausted p false
  cases hr : expand_pattern_at p (2 * p.length + 1) 0 false with
  | returned r =>
    obtain ⟨e, q⟩ := r
    simp only
    split <;> simp
  | thrown e => simp
  | fuel_exhausted => exact absurd hr h

/-! ### Open brace lists -/

theorem brace_depth_append (d : Nat) (a b : List Char) :
    brace_depth d (a ++ b) = brace_depth (brace_depth d a) b := by
  induction a generalizing d with
  | nil => rfl
  | cons c a ih =>
    simp only [List.cons_append, brace_depth]
    split
    · exact ih _
    · split
      · exact ih _
      · exact ih _

theorem brace_depth_start (d : Nat) : brace_depth d [SYM_LIST_START] = d + 1 := by
  simp [brace_depth]

theorem brace_depth_end (d : Nat) : brace_depth d [SYM_LIST_END] = d - 1 := by
  simp [brace_depth, syms_ne.2.2.2.1.symm]

theorem brace_depth_delim (d : Nat) : brace_depth d [SYM_LIST_DELIM] = d := by
  simp [brace_depth, syms_ne.2.2.2.2.1.symm, syms_ne.2.2.2.2.2.symm]

/-- A word without braces leaves the number of open lists as it is. -/
theorem brace_depth_of_no_brace (d : Nat) (w : List Char)
    (h : ∀ c ∈ w, c ≠ SYM_LIST_START ∧ c ≠ SYM_LIST_END) : brace_depth d w = d := by
  induction w with
  | nil => rfl
  | cons c w ih =>
    have hc := h c (List.mem_cons_self _ _)
    simp only [brace_depth, hc.1, hc.2, if_false]
    exact ih fun x hx => h x (List.mem_cons_of_mem _ hx)

/-- While no list is open, a word without a list start opens none. -/
theorem brace_depth_zero_of_no_start (w : List Char) (h : ∀ c ∈ w, c ≠ SYM_LIST_START) :
    brace_depth 0 w = 0 := by
  induction w with
  | nil => rfl
  | cons c w ih =>
    have hc := h c (List.mem_cons_self _ _)
    simp only [brace_depth, hc, if_false]
    split
    · exact ih fun x hx => h x (List.mem_cons_of_mem _ hx)
    · exact ih fun x hx => h x (List.mem_cons_of_mem _ hx)

theorem brace_depth_mono (s : List Char) : ∀ d1 d2, d1 ≤ d2 → brace_depth d1 s ≤ brace_depth d2 s := by
  induction s with
  | nil => intro d1 d2 h; exact h
  | cons c s ih =>
    intro d1 d2 h
    simp only [brace_depth]
    split
    · exact ih _ _ (by omega)
    · split
      · exact ih _ _ (by omega)
      · exact ih _ _ h

/-- The segment that a returning call has read is balanced: read inside a
list it leaves the number of open lists unchanged, and read at top level it
leaves no list open. -/
theorem expand_balanced (p : List Char) : ∀ fuel,
    (∀ pos nested e q, pos ≤ p.length →
      expand_pattern_at p fuel pos nested = .returned (e, q) →
      (nested = true → ∀ d, brace_depth d (segment p pos q) = d) ∧
      brace_depth 0 (segment p pos q) = 0) ∧
    (∀ le acc e q, le ≤ p.length →
      expand_list p fuel le acc = .returned (e, q) →
      ∀ d, brace_depth d (segment p le q) = d) := by
  intro fuel
  induction fuel with
  | zero =>
    constructor
    · intro pos nested e q _ h; simp [expand_pattern_at] at h
    · intro le acc e q _ h; simp [expand_list] at h
  | succ fuel ih =>
    obtain ⟨ihp, ihl⟩ := ih
    constructor
    · intro pos nested e q hpos h
      obtain ⟨h1, h2, h3, _⟩ := scan_preamble_at p pos nested hpos
      have hword_n : nested = true → ∀ d,
          brace_depth d (segment p pos (scan_preamble nested (p.drop pos) pos)) = d := by
        intro hn d
        apply brace_depth_of_no_brace
        intro c hc
        have := h3 c hc
        exact ⟨fun hs => this (Or.inr (Or.inl hs)), fun hs => this (Or.inr (Or.inr ⟨hn, Or.inl hs⟩))⟩
      have hword_0 : brace_depth 0 (segment p pos (scan_preamble nested (p.drop pos) pos)) = 0 := by
        apply brace_depth_zero_of_no_start
        intro c hc hs
        exact h3 c hc (Or.inr (Or.inl hs))
      rcases expand_pattern_at_returned h with ⟨_, _, rfl⟩ | ⟨hc, lexp, q1, pexp, hl, hp, _⟩
      · exact ⟨hword_n, hword_0⟩
      · have hlt : scan_preamble nested (p.drop pos) pos < p.length :=
          lt_length_of_char_at_ne_nul (by rw [hc]; exact syms_ne.1)
        obtain ⟨hq1, hq1', hend⟩ := (expand_bounds p fuel).2 _ _ _ _ hlt hl
        obtain ⟨hq, hq', _⟩ := (expand_bounds p fuel).1 _ _ _ _ hq1' hp
        have hlist := ihl _ _ _ _ hlt hl
        obtain ⟨hpost_n, hpost_0⟩ := ihp _ _ _ _ hq1' hp
        have hsplit : segment p pos q =
            segment p pos (scan_preamble nested (p.drop pos) pos) ++ ([SYM_LIST_START] ++
              (segment p (scan_preamble nested (p.drop pos) pos + 1) q1 ++ ([SYM_LIST_END] ++
                segment p (q1 + 1) q))) := by
          rw [segment_append p (show pos ≤ scan_preamble nested (p.drop pos) pos from h1)
              (show scan_preamble nested (p.drop pos) pos ≤ q by omega),
            segment_append p (Nat.le_succ (scan_preamble nested (p.drop pos) pos))
              (show scan_preamble nested (p.drop pos) pos + 1 ≤ q by omega),
            segment_one p hlt, hc,
            segment_append p hq1 (show q1 ≤ q by omega),
            segment_append p (Nat.le_succ q1) hq,
            segment_one p hq1', hend]
        rw [hsplit]
        constructor
        · intro hn d
          rw [brace_depth_append, hword_n hn, brace_depth_append, brace_depth_start,
            brace_depth_append, hlist, brace_depth_append, brace_depth_end]
          exact hpost_n hn d
        · rw [brace_depth_append, hword_0, brace_depth_append, brace_depth_start,
            brace_depth_append, hlist, brace_depth_append, brace_depth_end]
          exact hpost_0
    · intro le acc e q hle h d
      obtain ⟨sub, q1, hp, hcase⟩ := expand_list_returned h
      obtain ⟨hq1, hq1', _⟩ := (expand_bounds p fuel).1 _ _ _ _ hle hp
      obtain ⟨hsub, _⟩ := ihp _ _ _ _ hle hp
      rcases hcase with ⟨hd, hl⟩ | ⟨_, _, _, rfl⟩
      · have hlt : q1 < p.length :=
          lt_length_of_char_at_ne_nul (by rw [hd]; exact syms_ne.2.2.1)
        obtain ⟨hq, _, _⟩ := (expand_bounds p fuel).2 _ _ _ _ hlt hl
        rw [segment_append p hq1 (show q1 ≤ q by omega),
          segment_append p (Nat.le_succ q1) hq, segment_one p hlt, hd,
          brace_depth_append, hsub rfl, brace_depth_append, brace_depth_delim]
        exact ihl _ _ _ _ hlt hl d
      · exact hsub rfl d

/-- A pattern that leaves a brace list open is rejected: the expansion throws. -/
theorem expand_pattern_thrown_of_open (p : List Char) (h : brace_depth 0 p ≠ 0) :
    ∃ e, expand_pattern p = .thrown e := by
  unfold expand_pattern
  cases hr : expand_pattern_at p (2 * p.length + 1) 0 false with
  | returned r =>
    obtain ⟨e, q⟩ := r
    simp only
    by_cases hq : q = p.length
    · subst hq
      have := ((expand_balanced p _).1 _ _ _ _ (Nat.zero_le _) hr).2
      rw [segment_zero_length] at this
      exact absurd this h
    · exact ⟨.parsing_stopped q, by simp [hq]⟩
  | thrown e => exact ⟨e, rfl⟩
  | fuel_exhausted => exact absurd hr (expand_pattern_at_top_ne_fuel_exhausted p false)

/-! ### When the expansion throws -/

theorem expand_pattern_at_thrown {p : List Char} {fuel pos : Nat} {nested : Bool}
    {err : logic_error} (h : expand_pattern_at p (fuel + 1) pos nested = .thrown err) :
    char_at p (scan_preamble nested (p.drop pos) pos) = SYM_LIST_START ∧
    (expand_list p fuel (scan_preamble nested (p.drop pos) pos + 1) [] = .thrown err ∨
      ∃ lexp q1,
        expand_list p fuel (scan_preamble nested (p.drop pos) pos + 1) [] = .returned (lexp, q1) ∧
        expand_pattern_at p fuel (q1 + 1) nested = .thrown err) := by
  rw [expand_pattern_at] at h
  by_cases hc : char_at p (scan_preamble nested (p.drop pos) pos) = SYM_LIST_START
  · refine ⟨hc, ?_⟩
    simp only [hc, ne_eq, not_true_eq_false, if_false] at h
    cases hl : expand_list p fuel (scan_preamble nested (p.drop pos) pos + 1) [] with
    | returned r =>
      obtain ⟨lexp, q1⟩ := r
      simp only [hl] at h
      right
      refine ⟨lexp, q1, rfl, ?_⟩
      cases hp : expand_pattern_at p fuel (q1 + 1) nested with
      | returned r2 => simp [hp] at h
      | thrown e2 => simpa [hp] using h
      | fuel_exhausted => simp [hp] at h
    | thrown e2 => left; simpa [hl] using h
    | fuel_exhausted => simp [hl] at h
  · simp [hc] at h

theorem expand_list_thrown {p : List Char} {fuel le : Nat} {acc : List (List Char)}
    {err : logic_error} (h : expand_list p (fuel + 1) le acc = .thrown err) :
    expand_pattern_at p fuel le true = .thrown err ∨
    ∃ sub q1, expand_pattern_at p fuel le true = .returned (sub, q1) ∧
      ((char_at p q1 = SYM_LIST_DELIM ∧
          expand_list p fuel (q1 + 1) (acc ++ sub) = .thrown err) ∨
       (char_at p q1 ≠ SYM_LIST_DELIM ∧ char_at p q1 ≠ SYM_LIST_END ∧
          err = .invalid_symbol q1)) := by
  rw [expand_list] at h
  cases hp : expand_pattern_at p fuel le true with
  | returned r =>
    obtain ⟨sub, q1⟩ := r
    right
    refine ⟨sub, q1, rfl, ?_⟩
    simp only [hp] at h
    by_cases hd : char_at p q1 = SYM_LIST_DELIM
    · left
      simp only [hd, if_true] at h
      exact ⟨hd, h⟩
    · right
      simp only [hd, if_false] at h
      by_cases he : char_at p q1 = SYM_LIST_END
      · simp [he] at h
      · simp only [he, if_false, Outcome.thrown.injEq] at h
        exact ⟨hd, he, h.symm⟩
  | thrown e2 => left; simpa [hp] using h
  | fuel_exhausted => simp [hp] at h

theorem length_le_of_char_at_nul {p : List Char} (hnul : ∀ c ∈ p, c ≠ NUL) {i : Nat}
    (h : char_at p i = NUL) : p.length ≤ i := by
  by_contra hlt
  have hi : i < p.length := Nat.lt_of_not_le hlt
  apply hnul (p.get ⟨i, hi⟩) (List.get_mem p i hi)
  rw [← h]
  simp [char_at, List.getD_eq_getElem?_getD, List.getElem?_eq_getElem hi]

/-- Every error of the recursive expansion is the character after a list item
being neither a delimiter nor a list end. -/
theorem expand_thrown_invalid_symbol (p : List Char) : ∀ fuel,
    (∀ pos nested err, expand_pattern_at p fuel pos nested = .thrown err →
      ∃ i, err = .invalid_symbol i) ∧
    (∀ le acc err, expand_list p fuel le acc = .thrown err → ∃ i, err = .invalid_symbol i) := by
  intro fuel
  induction fuel with
  | zero =>
    constructor
    · intro pos nested err h; simp [expand_pattern_at] at h
    · intro le acc err h; simp [expand_list] at h
  | succ fuel ih =>
    obtain ⟨ihp, ihl⟩ := ih
    constructor
    · intro pos nested err h
      rcases expand_pattern_at_thrown h with ⟨_, hl | ⟨_, _, _, hp⟩⟩
      · exact ihl _ _ _ hl
      · exact ihp _ _ _ hp
    · intro le acc err h
      rcases expand_list_thrown h with hp | ⟨_, q1, _, ⟨_, hl⟩ | ⟨_, _, he⟩⟩
      · exact ihp _ _ _ hp
      · exact ihl _ _ _ hl
      · exact ⟨q1, he⟩

/-- In a string without NUL, a call that throws has read to the end of the
string with a brace list still open. -/
theorem expand_thrown_open (p : List Char) (hnul : ∀ c ∈ p, c ≠ NUL) : ∀ fuel,
    (∀ pos nested err, pos ≤ p.length →
      expand_pattern_at p fuel pos nested = .thrown err →
      (nested = true → ∀ d, d < brace_depth d (p.drop pos)) ∧
      0 < brace_depth 0 (p.drop pos)) ∧
    (∀ le acc err, le ≤ p.length →
      expand_list p fuel le acc = .thrown err →
      ∀ d, d ≤ brace_depth d (p.drop le)) := by
  intro fuel
  induction fuel with
  | zero =>
    constructor
    · intro pos nested err _ h; simp [expand_pattern_at] at h
    · intro le acc err _ h; simp [expand_list] at h
  | succ fuel ih =>
    obtain ⟨ihp, ihl⟩ := ih
    constructor
    · intro pos nested err hpos h
      obtain ⟨h1, h2, h3, _⟩ := scan_preamble_at p pos nested hpos
      have hword_n : nested = true → ∀ d,
          brace_depth d (segment p pos (scan_preamble nested (p.drop pos) pos)) = d := by
        intro hn d
        apply brace_depth_of_no_brace
        intro c hc
        have := h3 c hc
        exact ⟨fun hs => this (Or.inr (Or.inl hs)), fun hs => this (Or.inr (Or.inr ⟨hn, Or.inl hs⟩))⟩
      have hword_0 : brace_depth 0 (segment p pos (scan_preamble nested (p.drop pos) pos)) = 0 := by
        apply brace_depth_zero_of_no_start
        intro c hc hs
        exact h3 c hc (Or.inr (Or.inl hs))
      obtain ⟨hc, hcase⟩ := expand_pattern_at_thrown h
      have hlt : scan_preamble nested (p.drop pos) pos < p.length :=
        lt_length_of_char_at_ne_nul (by rw [hc]; exact syms_ne.1)
      generalize scan_preamble nested (p.drop pos) pos = pe at *
      rcases hcase with hl | ⟨lexp, q1, hl, hp⟩
      · have hlist := ihl _ _ _ hlt hl
        have hsplit : p.drop pos =
            segment p pos (pe) ++ ([SYM_LIST_START] ++
              p.drop (pe + 1)) := by
          rw [← segment_to_end p pos,
            segment_append p h1 h2,
            segment_append p (Nat.le_succ (pe)) hlt,
            segment_one p hlt, hc, segment_to_end]
        rw [hsplit]
        constructor
        · intro hn d
          rw [brace_depth_append, hword_n hn, brace_depth_append, brace_depth_start]
          exact hlist (d + 1)
        · rw [brace_depth_append, hword_0, brace_depth_append, brace_depth_start]
          exact hlist 1
      · obtain ⟨hq1, hq1', hend⟩ := (expand_bounds p fuel).2 _ _ _ _ hlt hl
        have hlist := (expand_balanced p fuel).2 _ _ _ _ hlt hl
        obtain ⟨hpost_n, hpost_0⟩ := ihp _ _ _ hq1' hp
        have hsplit : p.drop pos =
            segment p pos (pe) ++ ([SYM_LIST_START] ++
              (segment p (pe + 1) q1 ++ ([SYM_LIST_END] ++
                p.drop (q1 + 1)))) := by
          rw [← segment_to_end p pos,
            segment_append p h1 h2,
            segment_append p (Nat.le_succ (pe)) hlt,
            segment_one p hlt, hc,
            segment_append p hq1 (show q1 ≤ p.length by omega),
            segment_append p (Nat.le_succ q1) hq1',
            segment_one p hq1', hend, segment_to_end]
        rw [hsplit]
        constructor
        · intro hn d
          rw [brace_depth_append, hword_n hn, brace_depth_append, brace_depth_start,
            brace_depth_append, hlist, brace_depth_append, brace_depth_end]
          exact hpost_n hn d
        · rw [brace_depth_append, hword_0, brace_depth_append, brace_depth_start,
            brace_depth_append, hlist, brace_depth_append, brace_depth_end]
          exact hpost_0
    · intro le acc err hle h d
      rcases expand_list_thrown h with hp | ⟨sub, q1, hp, hcase⟩
      · exact Nat.le_of_lt ((ihp _ _ _ hle hp).1 rfl d)
      · obtain ⟨hq1, hq1', hstop⟩ := (expand_bounds p fuel).1 _ _ _ _ hle hp
        obtain ⟨hsub, _⟩ := (expand_balanced p fuel).1 _ _ _ _ hle hp
        rcases hcase with ⟨hd, hl⟩ | ⟨hd, he, _⟩
        · have hlt : q1 < p.length :=
            lt_length_of_char_at_ne_nul (by rw [hd]; exact syms_ne.2.2.1)
          rw [← segment_to_end p le, segment_append p hq1 hq1',
            segment_append p (Nat.le_succ q1) hlt, segment_one p hlt, hd, segment_to_end,
            brace_depth_append, hsub rfl, brace_depth_append, brace_depth_delim]
          exact ihl _ _ _ hlt hl d
        · have hq : q1 = p.length := by
            rcases hstop with h0 | ⟨_, h0 | h0⟩
            · exact Nat.le_antisymm hq1' (length_le_of_char_at_nul hnul h0)
            · exact absurd h0 he
            · exact absurd h0 hd
          subst hq
          rw [← segment_to_end p le, hsub rfl]

/-- On a pattern without NUL, the expansion returns exactly when every brace
list that the pattern opens is closed, and throws otherwise. -/
theorem expand_pattern_returned_iff (p : List Char) (hnul : ∀ c ∈ p, c ≠ NUL) :
    (∃ e, expand_pattern p = .returned e) ↔ brace_depth 0 p = 0 := by
  constructor
  · rintro ⟨e, he⟩
    by_contra hd
    obtain ⟨err, herr⟩ := expand_pattern_thrown_of_open p hd
    rw [herr] at he
    cases he
  · intro hd
    unfold expand_pattern
    cases hr : expand_pattern_at p (2 * p.length + 1) 0 false with
    | returned r =>
      obtain ⟨e, q⟩ := r
      obtain ⟨_, hq, hstop⟩ := (expand_bounds p _).1 _ _ _ _ (Nat.zero_le _) hr
      have hq2 : q = p.length := by
        rcases hstop with h0 | ⟨hn, _⟩
        · exact Nat.le_antisymm hq (length_le_of_char_at_nul hnul h0)
        · cases hn
      exact ⟨e, by simp [hq2]⟩
    | thrown err =>
      have := ((expand_thrown_open p hnul _).1 _ _ _ (Nat.zero_le _) hr).2
      simp only [List.drop_zero] at this
      omega
    | fuel_exhausted => exact absurd hr (expand_pattern_at_top_ne_fuel_exhausted p false)

/-! ### The expansion of a grammar pattern -/

theorem is_word_not_stop {w : List Char} (hw : is_word w = true) (nested : Bool) :
    ∀ c ∈ w, ¬ is_stop nested c := by
  intro c hc hs
  have := List.all_eq_true.mp hw c hc
  simp only [Bool.and_eq_true, bne_iff_ne, ne_eq] at this
  obtain ⟨⟨⟨h1, h2⟩, h3⟩, h4⟩ := this
  rcases hs with h | h | ⟨_, h | h⟩
  · exact h1 h
  · exact h2 h
  · exact h3 h
  · exact h4 h

/-- The preamble scan passes over a word and stops at the stopping character
after it. -/
theorem scan_preamble_word (nested : Bool) (w rest : List Char) (b : Nat)
    (hw : ∀ c ∈ w, ¬ is_stop nested c) (hrest : is_stop nested (rest.getD 0 NUL)) :
    scan_preamble nested (w ++ rest) b = b + w.length := by
  induction w generalizing b with
  | nil =>
    cases rest with
    | nil => simp [scan_preamble]
    | cons c rest =>
      simp only [List.getD_cons_zero] at hrest
      simp only [List.nil_append, List.length_nil, Nat.add_zero]
      unfold scan_preamble
      rcases hrest with h | h | ⟨hn, h | h⟩
      · simp [h]
      · simp [h]
      · simp [h, hn]
      · simp [h, hn]
  | cons c w ih =>
    have hc := hw c (List.mem_cons_self _ _)
    have h1 : c ≠ NUL := fun h => hc (Or.inl h)
    have h2 : c ≠ SYM_LIST_START := fun h => hc (Or.inr (Or.inl h))
    have h3 : ¬ (nested = true ∧ (c = SYM_LIST_END ∨ c = SYM_LIST_DELIM)) :=
      fun h => hc (Or.inr (Or.inr h))
    simp only [List.cons_append, List.length_cons]
    unfold scan_preamble
    simp only [h1, h2, if_false]
    rw [if_neg (by simpa using h3), ih (b + 1) fun x hx => hw x (List.mem_cons_of_mem _ hx)]
    omega

theorem char_at_append_length (pre rest : List Char) :
    char_at (pre ++ rest) pre.length = rest.getD 0 NUL := by
  simp [char_at, List.getD_eq_getElem?_getD, List.getElem?_append_right]

theorem segment_append_left (pre w rest : List Char) :
    segment (pre ++ (w ++ rest)) pre.length (pre.length + w.length) = w := by
  simp [segment]

theorem char_at_append_add (pre w rest : List Char) :
    char_at (pre ++ (w ++ rest)) (pre.length + w.length) = rest.getD 0 NUL := by
  rw [← List.append_assoc, ← List.length_append]
  exact char_at_append_length _ _

/-- With two budgets that both reach an outcome, the outcomes agree. -/
theorem expand_pattern_at_fuel_indep (p : List Char) (pos : Nat) (nested : Bool) {f1 f2 : Nat}
    {r : List (List Char) × Nat}
    (h1 : expand_pattern_at p f1 pos nested = .returned r)
    (h2 : expand_pattern_at p f2 pos nested ≠ .fuel_exhausted) :
    expand_pattern_at p f2 pos nested = .returned r := by
  have e1 := (expand_fuel_mono p f1).1 pos nested (by rw [h1]; simp) (max f1 f2) (le_max_left _ _)
  have e2 := (expand_fuel_mono p f2).1 pos nested h2 (max f1 f2) (le_max_right _ _)
  rw [← e2, e1, h1]

mutual
/-- The recursive expansion, started at a well-formed grammar pattern that is
followed by a character at which the call returns, gives the unfolding of the
pattern and ends right after it. -/
theorem expand_pattern_at_tree (t : pattern_tree) (ht : t.well_formed = true)
    (full pre rest : List Char) (nested : Bool)
    (hfull : full = pre ++ (t.text ++ rest))
    (hrest : is_return_stop nested (rest.getD 0 NUL)) :
    ∃ fuel, expand_pattern_at full fuel pre.length nested =
      .returned (t.unfold, pre.length + t.text.length) := by
  match t, ht with
  | .word w, ht =>
    refine ⟨1, ?_⟩
    simp only [pattern_tree.well_formed] at ht
    simp only [pattern_tree.text, pattern_tree.unfold] at hfull ⊢
    have hstop : is_stop nested (rest.getD 0 NUL) := by
      rcases hrest with h | h
      · exact Or.inl h
      · exact Or.inr (Or.inr h)
    have hscan : scan_preamble nested (full.drop pre.length) pre.length = pre.length + w.length := by
      rw [hfull, List.drop_left]
      exact scan_preamble_word nested w rest _ (is_word_not_stop ht nested) hstop
    have hchar : char_at full (pre.length + w.length) ≠ SYM_LIST_START := by
      rw [hfull, char_at_append_add]
      rcases hrest with h | ⟨_, h | h⟩
      · rw [h]; exact syms_ne.1.symm
      · rw [h]; exact syms_ne.2.2.2.1.symm
      · rw [h]; exact syms_ne.2.2.2.2.1.symm
    rw [expand_pattern_at, hscan, if_pos hchar]
    have hseg := segment_append_left pre w rest
    unfold segment at hseg
    rw [hfull, hseg]
  | .braces w list post, ht =>
    simp only [pattern_tree.well_formed, Bool.and_eq_true] at ht
    obtain ⟨⟨hw, hl⟩, hp⟩ := ht
    simp only [pattern_tree.text, pattern_tree.unfold] at hfull ⊢
    have hscan : scan_preamble nested (full.drop pre.length) pre.length = pre.length + w.length := by
      rw [hfull, List.drop_left, List.append_assoc]
      exact scan_preamble_word nested w _ _ (is_word_not_stop hw nested)
        (by simp [is_stop])
    have hchar : char_at full (pre.length + w.length) = SYM_LIST_START := by
      rw [hfull, List.append_assoc, char_at_append_add]
      simp
    obtain ⟨f1, h1⟩ := expand_list_tree list hl full (pre ++ w ++ [SYM_LIST_START])
      (post.text ++ rest) [] (by rw [hfull]; simp)
    obtain ⟨f2, h2⟩ := expand_pattern_at_tree post hp full
      (pre ++ w ++ [SYM_LIST_START] ++ list.text ++ [SYM_LIST_END]) rest nested
      (by rw [hfull]; simp) hrest
    refine ⟨max f1 f2 + 1, ?_⟩
    have h1' := (expand_fuel_mono full f1).2 _ _ (by rw [h1]; simp) (max f1 f2) (le_max_left _ _)
    have h2' := (expand_fuel_mono full f2).1 _ _ (by rw [h2]; simp) (max f1 f2) (le_max_right _ _)
    rw [h1] at h1'
    rw [h2] at h2'
    have hlen1 : (pre ++ w ++ [SYM_LIST_START]).length = pre.length + w.length + 1 := by
      simp only [List.length_append, List.length_cons, List.length_nil]
    have hlen2 : (pre ++ w ++ [SYM_LIST_START] ++ list.text ++ [SYM_LIST_END]).length =
        pre.length + w.length + 1 + list.text.length + 1 := by
      simp only [List.length_append, List.length_cons, List.length_nil]
    rw [hlen1] at h1'
    rw [hlen2] at h2'
    rw [expand_pattern_at, hscan, if_neg (by simpa using hchar), h1']
    simp only
    rw [h2']
    simp only [List.nil_append]
    have hseg := segment_append_left pre w
      (SYM_LIST_START :: (list.text ++ SYM_LIST_END :: post.text) ++ rest)
    unfold segment at hseg
    have hfull2 : full = pre ++
        (w ++ (SYM_LIST_START :: (list.text ++ SYM_LIST_END :: post.text) ++ rest)) := by
      rw [hfull]; simp
    rw [hfull2, hseg]
    simp only [concat_product, List.length_append, List.length_cons, Outcome.returned.injEq,
      Prod.mk.injEq, true_and]
    omega
/-- The list loop, started at a well-formed grammar list that is followed by
a list end, collects the unfoldings of the alternatives and returns at the
list end. -/
theorem expand_list_tree (l : pattern_list) (hl : l.well_formed = true)
    (full pre rest : List Char) (acc : List (List Char))
    (hfull : full = pre ++ (l.text ++ SYM_LIST_END :: rest)) :
    ∃ fuel, expand_list full fuel pre.length acc =
      .returned (acc ++ l.unfold, pre.length + l.text.length) := by
  match l, hl with
  | .single p, hl =>
    simp only [pattern_list.well_formed] at hl
    simp only [pattern_list.text, pattern_list.unfold] at hfull ⊢
    obtain ⟨f, h⟩ := expand_pattern_at_tree p hl full pre (SYM_LIST_END :: rest) true hfull
      (Or.inr ⟨rfl, Or.inl (by simp)⟩)
    refine ⟨f + 1, ?_⟩
    have hchar : char_at full (pre.length + p.text.length) = SYM_LIST_END := by
      rw [hfull, char_at_append_add]; simp
    rw [expand_list, h]
    simp only
    rw [hchar, if_neg syms_ne.2.2.2.2.2, if_pos rfl]
  | .cons p rest_l, hl =>
    simp only [pattern_list.well_formed, Bool.and_eq_true] at hl
    simp only [pattern_list.text, pattern_list.unfold] at hfull ⊢
    obtain ⟨f1, h1⟩ := expand_pattern_at_tree p hl.1 full pre
      (SYM_LIST_DELIM :: (rest_l.text ++ SYM_LIST_END :: rest)) true (by rw [hfull]; simp)
      (Or.inr ⟨rfl, Or.inr (by simp)⟩)
    obtain ⟨f2, h2⟩ := expand_list_tree rest_l hl.2 full (pre ++ p.text ++ [SYM_LIST_DELIM]) rest
      (acc ++ p.unfold) (by rw [hfull]; simp)
    refine ⟨max f1 f2 + 1, ?_⟩
    have h1' := (expand_fuel_mono full f1).1 _ _ (by rw [h1]; simp) (max f1 f2) (le_max_left _ _)
    have h2' := (expand_fuel_mono full f2).2 _ _ (by rw [h2]; simp) (max f1 f2) (le_max_right _ _)
    rw [h1] at h1'
    rw [h2] at h2'
    have hlen : (pre ++ p.text ++ [SYM_LIST_DELIM]).length = pre.length + p.text.length + 1 := by
      simp only [List.length_append, List.length_cons, List.length_nil]
    rw [hlen] at h2'
    have hchar : char_at full (pre.length + p.text.length) = SYM_LIST_DELIM := by
      rw [hfull, List.append_assoc, char_at_append_add]; simp
    rw [expand_list, h1']
    simp only
    rw [hchar, if_pos rfl, h2']
    simp only [List.append_assoc, List.length_append, List.length_cons, Outcome.returned.injEq,
      Prod.mk.injEq, true_and]
    omega
end

/-- The expansion of a well-formed grammar pattern is its unfolding. -/
theorem expand_pattern_tree (t : pattern_tree) (ht : t.well_formed = true) :
    expand_pattern t.text = .returned t.unfold := by
  obtain ⟨f, h⟩ := expand_pattern_at_tree t ht t.text [] [] false (by simp) (Or.inl (by simp))
  simp only [List.length_nil, Nat.zero_add] at h
  have h2 := expand_pattern_at_fuel_indep t.text 0 false h
    (expand_pattern_at_top_ne_fuel_exhausted t.text false)
  unfold expand_pattern
  rw [h2]
  simp

theorem pattern_list_well_formed_mem : ∀ (l : pattern_list), l.well_formed = true →
    ∀ L ∈ l.to_list, L.well_formed = true
  | .single p, hl, L, hL => by
    simp only [pattern_list.to_list, List.mem_singleton] at hL
    simp only [pattern_list.well_formed] at hl
    rw [hL]; exact hl
  | .cons p rest, hl, L, hL => by
    simp only [pattern_list.well_formed, Bool.and_eq_true] at hl
    simp only [pattern_list.to_list, List.mem_cons] at hL
    rcases hL with rfl | hL
    · exact hl.1
    · exact pattern_list_well_formed_mem rest hl.2 L hL

theorem pattern_list_unfold_eq : ∀ (l : pattern_list),
    l.unfold = (l.to_list.map pattern_tree.unfold).flatten
  | .single p => by simp [pattern_list.unfold, pattern_list.to_list]
  | .cons p rest => by
    simp [pattern_list.unfold, pattern_list.to_list, pattern_list_unfold_eq rest]

/-- C1: for every well-formed pattern `P{L1,...,Lk}S` (`P` a word, the `Li` and
`S` patterns of the grammar), `expand_pattern` returns the cartesian
concatenation in left-to-right order: the strings `P ++ x ++ y`, where `x`
ranges, as the outer loop, over `expand(L1) ++ ... ++ expand(Lk)` and `y`, as
the inner loop, over `expand(S)`. -/
theorem expand_pattern_cartesian (P : List Char) (list : pattern_list) (S : pattern_tree)
    (hP : is_word P = true) (hlist : list.well_formed = true) (hS : S.well_formed = true) :
    ∃ (xs : List (List (List Char))) (ys : List (List Char)),
      list.to_list.map (fun L => expand_pattern L.text) = xs.map Outcome.returned ∧
      expand_pattern S.text = .returned ys ∧
      expand_pattern (P ++ SYM_LIST_START :: (list.text ++ SYM_LIST_END :: S.text)) =
        .returned (xs.flatten.flatMap fun x => ys.map fun y => P ++ x ++ y) := by
  refine ⟨list.to_list.map pattern_tree.unfold, S.unfold, ?_, expand_pattern_tree S hS, ?_⟩
  · rw [List.map_map]
    apply List.map_congr_left
    intro L hL
    exact expand_pattern_tree L (pattern_list_well_formed_mem list hlist L hL)
  · have h := expand_pattern_tree (.braces P list S)
      (by simp [pattern_tree.well_formed, hP, hlist, hS])
    simp only [pattern_tree.text, pattern_tree.unfold] at h
    rw [h, pattern_list_unfold_eq]

/-- C1 at `req.{a,b}` and at `{a,b}{c,d}`, with the expansions spelled out. -/
theorem expand_pattern_cartesian_witness :
    (is_word "req.".toList = true ∧
      (pattern_list.cons (.word "a".toList) (.single (.word "b".toList))).well_formed = true ∧
      (pattern_tree.word []).well_formed = true) ∧
    (∃ (xs : List (List (List Char))) (ys : List (List Char)),
      (pattern_list.cons (.word "a".toList) (.single (.word "b".toList))).to_list.map
        (fun L => expand_pattern L.text) = xs.map Outcome.returned ∧
      expand_pattern (pattern_tree.word []).text = .returned ys ∧
      expand_pattern ("req.".toList ++ SYM_LIST_START ::
        ((pattern_list.cons (.word "a".toList) (.single (.word "b".toList))).text ++
          SYM_LIST_END :: (pattern_tree.word []).text)) =
        .returned (xs.flatten.flatMap fun x => ys.map fun y => "req.".toList ++ x ++ y)) ∧
    expand_pattern "req.\x7ba,b\x7d".toList = .returned ["req.a".toList, "req.b".toList] ∧
    expand_pattern "\x7ba,b\x7d\x7bc,d\x7d".toList =
      .returned ["ac".toList, "ad".toList, "bc".toList, "bd".toList] :=
  ⟨by decide,
   expand_pattern_cartesian "req.".toList
     (.cons (.word "a".toList) (.single (.word "b".toList))) (.word [])
     (by decide) (by decide) (by decide),
   by decide, by decide⟩

/-! ### `select_pattern` -/

theorem group_matches_iff (fnmatch : List Char → List Char → Int → Int)
    (group : List (List Char)) (name : List Char) :
    group_matches fnmatch group name = true ↔ ∃ x ∈ group, fnmatch x name 0 = 0 := by
  induction group with
  | nil => simp [group_matches]
  | cons x rest ih =>
    unfold group_matches
    by_cases hx : fnmatch x name 0 = 0
    · simp [hx]
    · simp [hx, ih]

theorem select_pattern_skip {β : Type} (fnmatch : List Char → List Char → Int → Int)
    (pre rest : List (List (List Char) × β)) (name : List Char)
    (hpre : ∀ e ∈ pre, ∀ x ∈ e.1, fnmatch x name 0 ≠ 0) :
    select_pattern fnmatch (pre ++ rest) name = select_pattern fnmatch rest name := by
  induction pre with
  | nil => rfl
  | cons e pre ih =>
    obtain ⟨group, cfg⟩ := e
    have hno : group_matches fnmatch group name = false := by
      rw [Bool.eq_false_iff]
      intro hm
      obtain ⟨x, hx, h0⟩ := (group_matches_iff fnmatch group name).mp hm
      exact hpre (group, cfg) (List.mem_cons_self _ _) x hx h0
    simp only [List.cons_append, select_pattern, hno, Bool.false_eq_true, if_false]
    exact ih fun e he => hpre e (List.mem_cons_of_mem _ he)

theorem select_pattern_eq_none_iff {β : Type} (fnmatch : List Char → List Char → Int → Int)
    (pattern_opts : List (List (List Char) × β)) (name : List Char) :
    select_pattern fnmatch pattern_opts name = none ↔
      ∀ e ∈ pattern_opts, ∀ x ∈ e.1, fnmatch x name 0 ≠ 0 := by
  induction pattern_opts with
  | nil => simp [select_pattern]
  | cons e rest ih =>
    obtain ⟨group, cfg⟩ := e
    unfold select_pattern
    by_cases hm : group_matches fnmatch group name = true
    · simp only [hm, if_true, List.mem_cons, forall_eq_or_imp, false_iff, not_and, reduceCtorEq]
      intro hall
      obtain ⟨x, hx, h0⟩ := (group_matches_iff fnmatch group name).mp hm
      exact absurd h0 (hall x hx)
    · simp only [hm, if_false, List.mem_cons, forall_eq_or_imp, ih, Bool.false_eq_true]
      constructor
      · intro h
        refine ⟨?_, h⟩
        intro x hx h0
        exact hm ((group_matches_iff fnmatch group name).mpr ⟨x, hx, h0⟩)
      · intro h; exact h.2

/-- C3: `select_pattern` returns the option block of the first entry, in
declaration order, one of whose expanded strings matches the name (an entry
that matches later is never returned), and it returns no block exactly when
no expanded string of any entry matches the name. -/
theorem select_pattern_first_match {β : Type} (fnmatch : List Char → List Char → Int → Int)
    (pattern_opts : List (List (List Char) × β)) (name : List Char) :
    (∀ pre entry post, pattern_opts = pre ++ entry :: post →
      (∀ e ∈ pre, ∀ x ∈ e.1, fnmatch x name 0 ≠ 0) →
      (∃ x ∈ entry.1, fnmatch x name 0 = 0) →
      select_pattern fnmatch pattern_opts name = some entry.2) ∧
    (select_pattern fnmatch pattern_opts name = none ↔
      ∀ e ∈ pattern_opts, ∀ x ∈ e.1, fnmatch x name 0 ≠ 0) := by
  refine ⟨?_, select_pattern_eq_none_iff fnmatch pattern_opts name⟩
  intro pre entry post hsplit hpre hentry
  obtain ⟨group, cfg⟩ := entry
  rw [hsplit, select_pattern_skip fnmatch pre _ name hpre]
  simp [select_pattern, (group_matches_iff fnmatch group name).mpr hentry]

/-- C3 on a list of three entries of which the second and the third match
`b`: the block of the second is returned; and no block for `d`. -/
theorem select_pattern_first_match_witness :
    select_pattern glob_fnmatch
      [(["a".toList], 1), (["b".toList, "c".toList], 2), (["b".toList], 3)] "b".toList = some 2 ∧
    select_pattern glob_fnmatch
      [(["a".toList], 1), (["b".toList, "c".toList], 2), (["b".toList], 3)] "d".toList = none :=
  ⟨(select_pattern_first_match glob_fnmatch
      [(["a".toList], 1), (["b".toList, "c".toList], 2), (["b".toList], 3)] "b".toList).1
      [(["a".toList], 1)] (["b".toList, "c".toList], 2) [(["b".toList], 3)] rfl
      (by decide) (by decide),
   by decide⟩

/-! ### Patterns without glob metacharacters -/

theorem glob_match_plain_nil (c : Char) (ps : List Char) (h1 : ¬c = '*') (h2 : ¬c = '?')
    (h3 : ¬c = GLOB_SET_START) (h4 : ¬c = GLOB_QUOTE) :
    glob_match (c :: ps) .plain [] = false := by
  unfold glob_match
  simp [h1, h2, h3, h4]

theorem glob_match_plain_cons (c d : Char) (ps t : List Char) (h1 : ¬c = '*') (h2 : ¬c = '?')
    (h3 : ¬c = GLOB_SET_START) (h4 : ¬c = GLOB_QUOTE) :
    glob_match (c :: ps) .plain (d :: t) = (decide (d = c) && glob_match ps .plain t) := by
  conv_lhs => unfold glob_match
  simp [h1, h2, h3, h4]

/-- The shell glob matches a pattern without metacharacters against exactly
the pattern itself. -/
theorem glob_match_literal (pattern : List Char)
    (h : ∀ c ∈ pattern, is_glob_meta c = false) (name : List Char) :
    glob_match pattern .plain name = true ↔ pattern = name := by
  induction pattern generalizing name with
  | nil =>
    cases name <;> simp [glob_match]
  | cons c ps ih =>
    have hc := h c (List.mem_cons_self _ _)
    simp only [is_glob_meta, Bool.or_eq_false_iff, decide_eq_false_iff_not] at hc
    obtain ⟨⟨⟨h1, h2⟩, h3⟩, h4⟩ := hc
    have ih2 := ih fun x hx => h x (List.mem_cons_of_mem _ hx)
    cases name with
    | nil => simp [glob_match_plain_nil c ps h1 h2 h3 h4]
    | cons d t =>
      rw [glob_match_plain_cons c d ps t h1 h2 h3 h4]
      simp only [Bool.and_eq_true, decide_eq_true_eq, ih2 t, List.cons.injEq]
      constructor
      · rintro ⟨rfl, rfl⟩; exact ⟨rfl, rfl⟩
      · rintro ⟨rfl, rfl⟩; exact ⟨rfl, rfl⟩

theorem glob_fnmatch_literal (pattern name : List Char)
    (h : ∀ c ∈ pattern, is_glob_meta c = false) :
    glob_fnmatch pattern name 0 = 0 ↔ pattern = name := by
  unfold glob_fnmatch
  rw [← glob_match_literal pattern h name]
  by_cases hm : glob_match pattern .plain name = true
  · simp [hm]
  · simp [hm]

/-! ### `config_json` -/

theorem same_frame_trans {S : Type} {a b c : config_state S} (h1 : same_frame a b)
    (h2 : same_frame b c) : same_frame a c :=
  ⟨h1.1.trans h2.1, h1.2.1.trans h2.2.1, h1.2.2.trans h2.2.2⟩

theorem configure_section_statistics_frame {S : Type} (impl : config_impl S) (cfg : Json)
    (st : config_state S) : same_frame (configure_section_statistics impl cfg st) st := by
  unfold configure_section_statistics configure_all_statistics
  split_ifs <;> exact ⟨rfl, rfl, rfl⟩

theorem configure_section_metrics_frame {S : Type} (impl : config_impl S) (cfg : Json)
    (st : config_state S) : same_frame (configure_section_metrics impl cfg st) st := by
  unfold configure_section_metrics
  dsimp only
  split_ifs <;> exact ⟨rfl, rfl, rfl⟩

theorem configure_section_metrics_dump_frame {S : Type} (impl : config_impl S) (cfg : Json)
    (st : config_state S) : same_frame (configure_section_metrics_dump impl cfg st) st := by
  unfold configure_section_metrics_dump
  split_ifs <;> exact ⟨rfl, rfl, rfl⟩

theorem configure_section_core_frame {S : Type} (impl : config_impl S) (cfg : Json)
    (st : config_state S) : same_frame (configure_section_core impl cfg st) st := by
  unfold configure_section_core
  split_ifs <;> exact ⟨rfl, rfl, rfl⟩

theorem configure_section_defaults_frame {S : Type} (impl : config_impl S) (cfg : Json)
    (st : config_state S) : same_frame (configure_section_defaults impl cfg st) st := by
  unfold configure_section_defaults configure_all_statistics
  split_ifs <;> exact ⟨rfl, rfl, rfl⟩

theorem configure_section_gauge_frame {S : Type} (impl : config_impl S) (cfg : Json)
    (st : config_state S) : same_frame (configure_section_gauge impl cfg st) st := by
  unfold configure_section_gauge
  split_ifs <;> exact ⟨rfl, rfl, rfl⟩

theorem configure_section_counter_frame {S : Type} (impl : config_impl S) (cfg : Json)
    (st : config_state S) : same_frame (configure_section_counter impl cfg st) st := by
  unfold configure_section_counter
  split_ifs <;> exact ⟨rfl, rfl, rfl⟩

theorem configure_section_timer_frame {S : Type} (impl : config_impl S) (cfg : Json)
    (st : config_state S) : same_frame (configure_section_timer impl cfg st) st := by
  unfold configure_section_timer
  split_ifs <;> exact ⟨rfl, rfl, rfl⟩

theorem configure_dump_interval_frame {S : Type} (cfg : Json)
    (st : config_state S) : same_frame (configure_dump_interval cfg st) st := by
  unfold configure_dump_interval
  dsimp only
  split_ifs <;> exact ⟨rfl, rfl, rfl⟩

theorem configure_enable_frame {S : Type} (cfg : Json)
    (st : config_state S) : same_frame (configure_enable cfg st) st := by
  unfold configure_enable
  dsimp only
  split_ifs <;> exact ⟨rfl, rfl, rfl⟩

theorem configure_old_format_frame {S : Type} (impl : config_impl S) (st : config_state S)
    (cfg : Json) : same_frame (configure_old_format impl st cfg) st :=
  same_frame_trans (configure_section_core_frame impl cfg _)
    (same_frame_trans (configure_section_metrics_dump_frame impl cfg _)
      (same_frame_trans (configure_section_metrics_frame impl cfg _)
        (configure_section_statistics_frame impl cfg st)))

theorem configure_new_format_frame {S : Type} (impl : config_impl S) (st : config_state S)
    (cfg : Json) : same_frame (configure_new_format impl st cfg) st :=
  same_frame_trans (configure_enable_frame cfg _)
    (same_frame_trans (configure_dump_interval_frame cfg _)
      (same_frame_trans (configure_section_timer_frame impl cfg _)
        (same_frame_trans (configure_section_counter_frame impl cfg _)
          (same_frame_trans (configure_section_gauge_frame impl cfg _)
            (configure_section_defaults_frame impl cfg st)))))

theorem configure_sections_pattern_opts {S : Type} (impl : config_impl S) (st : config_state S)
    (cfg : Json) : (configure_sections impl st cfg).pattern_opts = st.pattern_opts := by
  unfold configure_sections
  exact (configure_new_format_frame impl _ cfg).1.trans (configure_old_format_frame impl _ cfg).1

/-- The run of `config_json` on a disabled runtime and a document that is an object:
the sections are applied, then the member loop runs. -/
theorem config_json_object {S : Type} (impl : config_impl S) (st : config_state S)
    (members : List (List Char × Json)) (h : st.is_enabled = false) :
    config_json impl st (some (.object members)) =
      ((configure_patterns members st.pattern_opts).1,
        { configure_sections impl st (.object members) with
          pattern_opts := (configure_patterns members st.pattern_opts).2 }) := by
  have hp := configure_sections_pattern_opts impl st (.object members)
  unfold config_json
  rw [if_neg (by simp [h])]
  show ((configure_patterns members (configure_sections impl st (.object members)).pattern_opts).1,
    { configure_sections impl st (.object members) with
      pattern_opts :=
        (configure_patterns members
          (configure_sections impl st (.object members)).pattern_opts).2 }) = _
  rw [hp]

/-- The run of `config_json` on a disabled runtime and a document that failed to parse
or is not an object: `false` is returned and only the source document
changes. -/
theorem config_json_not_object {S : Type} (impl : config_impl S) (st : config_state S)
    (parsed : Option Json) (h : st.is_enabled = false)
    (hparsed : ∀ members, parsed ≠ some (.object members)) :
    config_json impl st parsed = (some false, { st with source := parsed }) := by
  unfold config_json
  rw [if_neg (by simp [h])]
  cases parsed with
  | none => rfl
  | some cfg =>
    cases cfg with
    | object members => exact absurd rfl (hparsed members)
    | _ => rfl

theorem configure_patterns_ne_none (members : List (List Char × Json))
    (opts : List (List (List Char) × Json)) : (configure_patterns members opts).1 ≠ none := by
  induction members generalizing opts with
  | nil => simp [configure_patterns]
  | cons m rest ih =>
    obtain ⟨name, value⟩ := m
    unfold configure_patterns
    by_cases hr : is_reserved name = true
    · simp only [hr, if_true]; exact ih opts
    · have hr2 : is_reserved name = false := by simpa using hr
      simp only [hr2, Bool.false_eq_true, if_false]
      cases he : expand_pattern name with
      | returned e => exact ih _
      | thrown err => simp
      | fuel_exhausted => exact absurd he (expand_pattern_ne_fuel_exhausted name)

/-- The member loop returns `true` exactly when every member that is not
reserved has a name whose expansion returns; it then has appended the
entries of all of them. -/
theorem configure_patterns_true (members : List (List Char × Json))
    (opts : List (List (List Char) × Json))
    (h : (configure_patterns members opts).1 = some true) :
    (configure_patterns members opts).2 = opts ++ pattern_entries members ∧
    ∀ m ∈ members, is_reserved m.1 = false → ∃ e, expand_pattern m.1 = .returned e := by
  induction members generalizing opts with
  | nil => simp [configure_patterns, pattern_entries]
  | cons m rest ih =>
    obtain ⟨name, value⟩ := m
    unfold configure_patterns at h ⊢
    by_cases hr : is_reserved name = true
    · simp only [hr, if_true] at h ⊢
      obtain ⟨h1, h2⟩ := ih opts h
      refine ⟨?_, ?_⟩
      · rw [h1]; simp [pattern_entries, hr]
      · intro m hm hres
        simp only [List.mem_cons] at hm
        rcases hm with rfl | hm
        · simp [hr] at hres
        · exact h2 m hm hres
    · have hr2 : is_reserved name = false := by simpa using hr
      simp only [hr2, Bool.false_eq_true, if_false] at h ⊢
      cases he : expand_pattern name with
      | returned e =>
        simp only [he] at h ⊢
        obtain ⟨h1, h2⟩ := ih _ h
        refine ⟨?_, ?_⟩
        · rw [h1]; simp [pattern_entries, hr2, he]
        · intro m hm hres
          simp only [List.mem_cons] at hm
          rcases hm with rfl | hm
          · exact ⟨e, he⟩
          · exact h2 m hm hres
      | thrown err => simp [he] at h
      | fuel_exhausted => simp [he] at h

/-- The member loop returns `false` exactly at the first member that is not
reserved and whose expansion throws; the entries of the members before it
have been appended. -/
theorem configure_patterns_false (members : List (List Char × Json))
    (opts : List (List (List Char) × Json))
    (h : (configure_patterns members opts).1 = some false) :
    ∃ pre key value post err, members = pre ++ (key, value) :: post ∧
      is_reserved key = false ∧ expand_pattern key = .thrown err ∧
      (∀ m ∈ pre, is_reserved m.1 = false → ∃ e, expand_pattern m.1 = .returned e) ∧
      (configure_patterns members opts).2 = opts ++ pattern_entries pre := by
  induction members generalizing opts with
  | nil => simp [configure_patterns] at h
  | cons m rest ih =>
    obtain ⟨name, value⟩ := m
    unfold configure_patterns at h ⊢
    by_cases hr : is_reserved name = true
    · simp only [hr, if_true] at h ⊢
      obtain ⟨pre, key, v, post, err, hsplit, hres, hthrow, hpre, hopts⟩ := ih opts h
      refine ⟨(name, value) :: pre, key, v, post, err, by rw [hsplit]; rfl, hres, hthrow, ?_, ?_⟩
      · intro m hm hmres
        simp only [List.mem_cons] at hm
        rcases hm with rfl | hm
        · simp [hr] at hmres
        · exact hpre m hm hmres
      · rw [hopts]; simp [pattern_entries, hr]
    · have hr2 : is_reserved name = false := by simpa using hr
      simp only [hr2, Bool.false_eq_true, if_false] at h ⊢
      cases he : expand_pattern name with
      | returned e =>
        simp only [he] at h ⊢
        obtain ⟨pre, key, v, post, err, hsplit, hres, hthrow, hpre, hopts⟩ := ih _ h
        refine ⟨(name, value) :: pre, key, v, post, err, by rw [hsplit]; rfl, hres, hthrow, ?_, ?_⟩
        · intro m hm hmres
          simp only [List.mem_cons] at hm
          rcases hm with rfl | hm
          · exact ⟨e, he⟩
          · exact hpre m hm hmres
        · rw [hopts]; simp [pattern_entries, hr2, he]
      | thrown err =>
        refine ⟨[], name, value, rest, err, rfl, hr2, he, by simp, ?_⟩
        simp [pattern_entries]
      | fuel_exhausted => simp [he] at h

/-- A call of `config_json` always returns: the recursion budget of the
embedding never runs out. -/
theorem config_json_ne_none {S : Type} (impl : config_impl S) (st : config_state S)
    (parsed : Option Json) : (config_json impl st parsed).1 ≠ none := by
  by_cases hen : st.is_enabled = true
  · simp [config_json, hen]
  · have hdis : st.is_enabled = false := by simpa using hen
    by_cases hobj : ∃ members, parsed = some (.object members)
    · obtain ⟨members, rfl⟩ := hobj
      rw [config_json_object impl st members hdis]
      exact configure_patterns_ne_none members _
    · rw [config_json_not_object impl st parsed hdis fun members hm => hobj ⟨members, hm⟩]
      simp

/-- A member that is not reserved and whose expansion throws makes the member
loop return `false`. -/
theorem configure_patterns_of_thrown (members : List (List Char × Json))
    (opts : List (List (List Char) × Json)) (key : List Char) (value : Json)
    (hmem : (key, value) ∈ members) (hres : is_reserved key = false)
    (hthrow : ∃ err, expand_pattern key = .thrown err) :
    (configure_patterns members opts).1 = some false := by
  have hne := configure_patterns_ne_none members opts
  cases hr : (configure_patterns members opts).1 with
  | none => exact absurd hr hne
  | some b =>
    cases b with
    | false => rfl
    | true =>
      obtain ⟨e, he⟩ := (configure_patterns_true members opts hr).2 (key, value) hmem hres
      obtain ⟨err, herr⟩ := hthrow
      rw [herr] at he
      cases he

/-! ### Keys that are rejected -/

theorem brace_depth_ge_counts (s : List Char) : ∀ d,
    d + s.count SYM_LIST_START ≤ brace_depth d s + s.count SYM_LIST_END := by
  induction s with
  | nil => intro d; simp [brace_depth]
  | cons c s ih =>
    intro d
    unfold brace_depth
    by_cases h1 : c = SYM_LIST_START
    · subst h1
      have := ih (d + 1)
      simp only [if_true, List.count_cons_self, List.count_cons_of_ne syms_ne.2.2.2.1.symm]
      omega
    · by_cases h2 : c = SYM_LIST_END
      · subst h2
        have := ih (d - 1)
        simp only [h1, if_false, if_true, List.count_cons_self, List.count_cons_of_ne syms_ne.2.2.2.1]
        omega
      · have := ih d
        simp only [h1, h2, if_false, List.count_cons_of_ne (Ne.symm h1),
          List.count_cons_of_ne (Ne.symm h2)]
        exact this

theorem brace_depth_of_reserved {key : List Char} (h : is_reserved key = true) :
    brace_depth 0 key = 0 := by
  simp only [is_reserved, Bool.or_eq_true, decide_eq_true_eq] at h
  rcases h with ((((((((h | h) | h) | h) | h) | h) | h) | h) | h) | h <;>
    (rw [h]; decide)

theorem is_reserved_false_of_open {key : List Char} (h : brace_depth 0 key ≠ 0) :
    is_reserved key = false := by
  by_contra hr
  exact h (brace_depth_of_reserved (by simpa using hr))

/-- On a disabled runtime, a member whose name leaves a brace list open makes
`config_json` return `false`. -/
theorem config_json_false_of_open {S : Type} (impl : config_impl S) (st : config_state S)
    (members : List (List Char × Json)) (key : List Char) (value : Json)
    (hdis : st.is_enabled = false) (hmem : (key, value) ∈ members)
    (hopen : brace_depth 0 key ≠ 0) :
    (config_json impl st (some (.object members))).1 = some false := by
  rw [config_json_object impl st members hdis]
  exact configure_patterns_of_thrown members _ key value hmem (is_reserved_false_of_open hopen)
    (expand_pattern_thrown_of_open key hopen)

/-- C4: for every top-level key that contains more list starts than list
ends (such a key is never a reserved name), `expand_pattern` raises an error,
and `config_json`, called on a disabled runtime with a JSON object that
contains the key, returns `false`. -/
theorem config_json_unclosed_brace (key : List Char)
    (hcount : key.count SYM_LIST_END < key.count SYM_LIST_START) :
    is_reserved key = false ∧
    (∃ err, expand_pattern key = .thrown err) ∧
    ∀ (S : Type) (impl : config_impl S) (st : config_state S)
      (members : List (List Char × Json)) (value : Json),
      st.is_enabled = false → (key, value) ∈ members →
      (config_json impl st (some (.object members))).1 = some false := by
  have hopen : brace_depth 0 key ≠ 0 := by
    have := brace_depth_ge_counts key 0
    omega
  exact ⟨is_reserved_false_of_open hopen, expand_pattern_thrown_of_open key hopen,
    fun S impl st members value hdis hmem =>
      config_json_false_of_open impl st members key value hdis hmem hopen⟩

/-- C4 at the key `req.{a,b` of scenario S4. -/
theorem config_json_unclosed_brace_witness :
    "req.\x7ba,b".toList.count SYM_LIST_END < "req.\x7ba,b".toList.count SYM_LIST_START ∧
    (∃ err, expand_pattern "req.\x7ba,b".toList = .thrown err) ∧
    (config_json plain_impl plain_state (some scenario_s4)).1 = some false :=
  ⟨by decide,
   (config_json_unclosed_brace "req.\x7ba,b".toList (by decide)).2.1,
   (config_json_unclosed_brace "req.\x7ba,b".toList (by decide)).2.2 Unit plain_impl plain_state
     [("req.\x7ba,b".toList, .object [])] (.object []) rfl (List.mem_cons_self _ _)⟩

/-- A pattern without NUL and without a list start expands to itself. -/
theorem expand_pattern_of_no_start (key : List Char) (hnul : ∀ c ∈ key, c ≠ NUL)
    (hno : ∀ c ∈ key, c ≠ SYM_LIST_START) : expand_pattern key = .returned [key] := by
  have hscan : scan_preamble false (key.drop 0) 0 = key.length := by
    have := scan_preamble_word false key [] 0
      (fun c hc hs => by
        rcases hs with h | h | ⟨h, _⟩
        · exact hnul c hc h
        · exact hno c hc h
        · cases h)
      (Or.inl (by simp))
    simpa using this
  have hchar : char_at key key.length ≠ SYM_LIST_START := by
    rw [char_at_of_length_le (Nat.le_refl _)]
    exact syms_ne.1.symm
  unfold expand_pattern
  rw [expand_pattern_at, hscan, if_pos hchar]
  simp

/-- C5, counterexample: the key `a}` has a list end and no list start, and the
key `a,b` has a delimiter and no brace list at all; neither is rejected: each
expands to itself, and `config_json` returns `true` on a disabled runtime for
the object `{"a,b":{}, "a}":{}}`. -/
theorem expand_pattern_stray_counterexample :
    (SYM_LIST_END ∈ "a\x7d".toList ∧ SYM_LIST_START ∉ "a\x7d".toList ∧
      expand_pattern "a\x7d".toList = .returned ["a\x7d".toList]) ∧
    (SYM_LIST_DELIM ∈ "a,b".toList ∧ SYM_LIST_START ∉ "a,b".toList ∧
      expand_pattern "a,b".toList = .returned ["a,b".toList]) ∧
    is_reserved "a\x7d".toList = false ∧ is_reserved "a,b".toList = false ∧
    plain_state.is_enabled = false ∧
    (config_json plain_impl plain_state (some stray_config)).1 = some true := by
  refine ⟨⟨by decide, by decide, by decide⟩, ⟨by decide, by decide, by decide⟩,
    by decide, by decide, rfl, by decide⟩

/-- C5, amended: a pattern key is rejected exactly when it leaves a brace
list open.  On such a key `expand_pattern` raises an error and `config_json`,
called on a disabled runtime, returns `false` for every object that contains
it as a top-level key (it is never a reserved name).  A list end with no
list open and a delimiter outside any list are ordinary characters: a key
that leaves no list open is expanded, and a key without a list start expands
to itself. -/
theorem expand_pattern_rejects_open_lists (key : List Char) (hnul : ∀ c ∈ key, c ≠ NUL) :
    ((∃ err, expand_pattern key = .thrown err) ↔ brace_depth 0 key ≠ 0) ∧
    ((∃ e, expand_pattern key = .returned e) ↔ brace_depth 0 key = 0) ∧
    (brace_depth 0 key ≠ 0 → is_reserved key = false ∧
      ∀ (S : Type) (impl : config_impl S) (st : config_state S)
        (members : List (List Char × Json)) (value : Json),
        st.is_enabled = false → (key, value) ∈ members →
        (config_json impl st (some (.object members))).1 = some false) ∧
    ((∀ c ∈ key, c ≠ SYM_LIST_START) → expand_pattern key = .returned [key]) := by
  refine ⟨⟨?_, expand_pattern_thrown_of_open key⟩, expand_pattern_returned_iff key hnul, ?_,
    expand_pattern_of_no_start key hnul⟩
  · rintro ⟨err, herr⟩ hd
    obtain ⟨e, he⟩ := (expand_pattern_returned_iff key hnul).mpr hd
    rw [herr] at he
    cases he
  · intro hopen
    exact ⟨is_reserved_false_of_open hopen, fun S impl st members value hdis hmem =>
      config_json_false_of_open impl st members key value hdis hmem hopen⟩

/-- C5, amended, at the keys `req.{a,b` (rejected) and `a,b}` (expanded to
itself). -/
theorem expand_pattern_rejects_open_lists_witness :
    (∀ c ∈ "req.\x7ba,b".toList, c ≠ NUL) ∧
    (∃ err, expand_pattern "req.\x7ba,b".toList = .thrown err) ∧
    (∀ c ∈ "a,b\x7d".toList, c ≠ NUL) ∧
    expand_pattern "a,b\x7d".toList = .returned ["a,b\x7d".toList] :=
  ⟨by decide,
   (expand_pattern_rejects_open_lists "req.\x7ba,b".toList (by decide)).1.mpr (by decide),
   by decide,
   (expand_pattern_rejects_open_lists "a,b\x7d".toList (by decide)).2.2.2 (by decide)⟩

/-! ### What `config_json` changes -/

/-- C6, counterexample: `config_json` returns `false` for
`{"enable":true, "a":{}, "b{":{}}` on a disabled runtime, yet the enable flag
has changed from `false` to `true` and the pattern list from empty to the
entry of the key `a`. -/
theorem config_json_no_rollback_counterexample :
    (config_json plain_impl plain_state (some half_valid_config)).1 = some false ∧
    plain_state.core_opts.enable = false ∧
    (config_json plain_impl plain_state (some half_valid_config)).2.core_opts.enable = true ∧
    plain_state.pattern_opts = [] ∧
    (config_json plain_impl plain_state (some half_valid_config)).2.pattern_opts =
      [(["a".toList], .object [])] := by
  refine ⟨by decide, rfl, by decide, rfl, by rfl⟩

/-- C6, amended: `config_json` returns `false` only on a disabled runtime.
When it does so because the JSON is malformed or is not an object, only the
source document has changed: the options, the dump interval, the enable flag
and the pattern list are those before the call.  When it does so because a
pattern key fails to expand, nothing is rolled back: the sections of the
object have been applied and the entries of the pattern keys before the
failing key have been appended to the pattern list. -/
theorem config_json_false_effects {S : Type} (impl : config_impl S) (st : config_state S)
    (parsed : Option Json) (h : (config_json impl st parsed).1 = some false) :
    st.is_enabled = false ∧
    (((∀ members, parsed ≠ some (.object members)) ∧
        (config_json impl st parsed).2 = { st with source := parsed }) ∨
      ∃ members pre key value post err,
        parsed = some (.object members) ∧ members = pre ++ (key, value) :: post ∧
        is_reserved key = false ∧ expand_pattern key = .thrown err ∧
        (∀ m ∈ pre, is_reserved m.1 = false → ∃ e, expand_pattern m.1 = .returned e) ∧
        (config_json impl st parsed).2 =
          { configure_sections impl st (.object members) with
            pattern_opts := st.pattern_opts ++ pattern_entries pre }) := by
  have hdis : st.is_enabled = false := by
    by_contra hen
    have hen2 : st.is_enabled = true := by simpa using hen
    simp [config_json, hen2] at h
  refine ⟨hdis, ?_⟩
  by_cases hobj : ∃ members, parsed = some (.object members)
  · obtain ⟨members, rfl⟩ := hobj
    right
    rw [config_json_object impl st members hdis] at h ⊢
    obtain ⟨pre, key, value, post, err, hsplit, hres, hthrow, hpre, hopts⟩ :=
      configure_patterns_false members st.pattern_opts h
    exact ⟨members, pre, key, value, post, err, rfl, hsplit, hres, hthrow, hpre, by
      simp only [hopts]⟩
  · left
    have hno : ∀ members, parsed ≠ some (.object members) := fun members hm => hobj ⟨members, hm⟩
    exact ⟨hno, by rw [config_json_not_object impl st parsed hdis hno]⟩

/-- C6, amended, on a document that is not an object and on
`{"enable":true, "a":{}, "b{":{}}`. -/
theorem config_json_false_effects_witness :
    ((config_json plain_impl plain_state (some (.int 5))).1 = some false ∧
      (config_json plain_impl plain_state (some (.int 5))).2 =
        { plain_state with source := some (.int 5) }) ∧
    ((config_json plain_impl plain_state (some half_valid_config)).1 = some false ∧
      plain_state.is_enabled = false) := by
  have h1 : (config_json plain_impl plain_state (some (.int 5))).1 = some false := by decide
  have h2 : (config_json plain_impl plain_state (some half_valid_config)).1 = some false := by
    decide
  refine ⟨⟨h1, ?_⟩, h2, (config_json_false_effects plain_impl plain_state _ h2).1⟩
  rcases (config_json_false_effects plain_impl plain_state _ h1).2 with ⟨_, h⟩ | ⟨m, _, _, _, _, _, hm, _⟩
  · exact h
  · cases hm

/-- C7: for every input, `config_json` called while the runtime is enabled
returns `true` and leaves the whole configuration state, the source document
included, unchanged. -/
theorem config_json_enabled {S : Type} (impl : config_impl S) (st : config_state S)
    (parsed : Option Json) (h : st.is_enabled = true) :
    config_json impl st parsed = (some true, st) := by
  simp [config_json, h]

/-- C7 on an enabled runtime, for a valid document, a document with a bad
pattern key and a malformed text. -/
theorem config_json_enabled_witness :
    config_json plain_impl { plain_state with is_enabled := true } (some benchmark_config) =
      (some true, { plain_state with is_enabled := true }) ∧
    config_json plain_impl { plain_state with is_enabled := true } (some scenario_s4) =
      (some true, { plain_state with is_enabled := true }) ∧
    config_json plain_impl { plain_state with is_enabled := true } none =
      (some true, { plain_state with is_enabled := true }) :=
  ⟨config_json_enabled plain_impl _ _ rfl, config_json_enabled plain_impl _ _ rfl,
   config_json_enabled plain_impl _ _ rfl⟩

theorem pattern_entries_eq (members : List (List Char × Json))
    (h : ∀ m ∈ members, is_reserved m.1 = false → ∃ e, expand_pattern m.1 = .returned e) :
    (pattern_entries members).map (fun e => (Outcome.returned e.1, e.2)) =
      (members.filter fun m => !is_reserved m.1).map fun m => (expand_pattern m.1, m.2) := by
  induction members with
  | nil => simp [pattern_entries]
  | cons m rest ih =>
    have ih2 := ih fun x hx => h x (List.mem_cons_of_mem _ hx)
    unfold pattern_entries at ih2 ⊢
    by_cases hr : is_reserved m.1 = true
    · simp only [List.filterMap_cons, hr, if_true, Bool.not_true, Bool.false_eq_true,
        not_false_eq_true, List.filter_cons_of_neg]
      exact ih2
    · have hr2 : is_reserved m.1 = false := by simpa using hr
      obtain ⟨e, he⟩ := h m (List.mem_cons_self _ _) hr2
      simp only [List.filterMap_cons, hr2, Bool.false_eq_true, if_false, he, List.map_cons,
        Bool.not_false, List.filter_cons_of_pos]
      rw [ih2]

/-- C8: after a successful `config_json` on a disabled runtime with an empty
pattern list, the document is an object and the pattern list is, entry by
entry and in the declaration order of the members, the pair of the expansion
of the key and the value of every top-level member whose key is not one of
the ten reserved names: a reserved key gives no entry, every other key
exactly one. -/
theorem config_json_pattern_list {S : Type} (impl : config_impl S) (st : config_state S)
    (parsed : Option Json) (hdis : st.is_enabled = false) (hempty : st.pattern_opts = [])
    (hok : (config_json impl st parsed).1 = some true) :
    ∃ members, parsed = some (.object members) ∧
      (config_json impl st parsed).2.pattern_opts.map (fun e => (Outcome.returned e.1, e.2)) =
        (members.filter fun m => !is_reserved m.1).map fun m => (expand_pattern m.1, m.2) := by
  by_cases hobj : ∃ members, parsed = some (.object members)
  · obtain ⟨members, rfl⟩ := hobj
    refine ⟨members, rfl, ?_⟩
    rw [config_json_object impl st members hdis] at hok ⊢
    obtain ⟨h1, h2⟩ := configure_patterns_true members st.pattern_opts hok
    show List.map _ (configure_patterns members st.pattern_opts).2 = _
    rw [h1, hempty, List.nil_append]
    exact pattern_entries_eq members h2
  · have hno : ∀ members, parsed ≠ some (.object members) := fun members hm => hobj ⟨members, hm⟩
    rw [config_json_not_object impl st parsed hdis hno] at hok
    cases hok

/-- C8 on the default configuration of the queue benchmark,
`{"enable": true, "events": {"tags": ["count"]}}`: the reserved key `enable`
gives no entry and the key `events` gives one. -/
theorem config_json_pattern_list_witness :
    (plain_state.is_enabled = false ∧ plain_state.pattern_opts = [] ∧
      (config_json plain_impl plain_state (some benchmark_config)).1 = some true) ∧
    (∃ members, some benchmark_config = some (.object members) ∧
      (config_json plain_impl plain_state (some benchmark_config)).2.pattern_opts.map
          (fun e => (Outcome.returned e.1, e.2)) =
        (members.filter fun m => !is_reserved m.1).map fun m => (expand_pattern m.1, m.2)) ∧
    (config_json plain_impl plain_state (some benchmark_config)).2.pattern_opts =
      [(["events".toList], .object [("tags".toList, .array [.string "count".toList])])] :=
  ⟨⟨rfl, rfl, by decide⟩,
   config_json_pattern_list plain_impl plain_state (some benchmark_config) rfl rfl (by decide),
   by rfl⟩

/-! ### Keys without glob metacharacters -/

theorem select_pattern_some_mem {β : Type} (fnmatch : List Char → List Char → Int → Int)
    (pattern_opts : List (List (List Char) × β)) (name : List Char) (blk : β)
    (h : select_pattern fnmatch pattern_opts name = some blk) :
    ∃ e ∈ pattern_opts, e.2 = blk := by
  induction pattern_opts with
  | nil => simp [select_pattern] at h
  | cons e rest ih =>
    obtain ⟨group, cfg⟩ := e
    unfold select_pattern at h
    by_cases hm : group_matches fnmatch group name = true
    · simp only [hm, if_true, Option.some.injEq] at h
      exact ⟨(group, cfg), List.mem_cons_self _ _, h⟩
    · simp only [hm, if_false, Bool.false_eq_true] at h
      obtain ⟨e, he, hb⟩ := ih h
      exact ⟨e, List.mem_cons_of_mem _ he, hb⟩

/-- C2, counterexample: with the two pattern keys `a` and `{a,b}`, whose
expanded strings have no glob metacharacter, the name `a` equals an expanded
string of the second key, yet `select_pattern` returns the block of the
first key, not that of the second. -/
theorem select_pattern_overlap_counterexample :
    (config_json plain_impl plain_state (some overlapping_config)).2.pattern_opts =
      [(["a".toList], .int 1), (["a".toList, "b".toList], .int 2)] ∧
    expand_pattern "\x7ba,b\x7d".toList = .returned ["a".toList, "b".toList] ∧
    (∀ x ∈ ["a".toList, "b".toList], ∀ c ∈ x, is_glob_meta c = false) ∧
    "a".toList ∈ ["a".toList, "b".toList] ∧
    select_pattern glob_fnmatch
      (config_json plain_impl plain_state (some overlapping_config)).2.pattern_opts "a".toList =
        some (.int 1) ∧
    select_pattern glob_fnmatch
      (config_json plain_impl plain_state (some overlapping_config)).2.pattern_opts "a".toList ≠
        some (.int 2) := by
  refine ⟨by rfl, by decide, by decide, by decide, by rfl, ?_⟩
  intro h
  have h1 : select_pattern glob_fnmatch
      (config_json plain_impl plain_state (some overlapping_config)).2.pattern_opts "a".toList =
        some (.int 1) := by rfl
  rw [h1] at h
  cases h

/-- C2, amended: let `fnmatch` match a pattern without glob metacharacters
against exactly the pattern itself.  For a key whose expanded strings contain
no glob metacharacter, and a metric name that no earlier entry of the pattern
list matches, `select_pattern` returns the option block of the key (a block
that no later entry points to) if and only if the name equals one of the
expanded strings of the key. -/
theorem select_pattern_literal_key {β : Type} (fnmatch : List Char → List Char → Int → Int)
    (hfn : ∀ pattern name, (∀ c ∈ pattern, is_glob_meta c = false) →
      (fnmatch pattern name 0 = 0 ↔ pattern = name))
    (key : List Char) (xs : List (List Char)) (_hkey : expand_pattern key = .returned xs)
    (hxs : ∀ x ∈ xs, ∀ c ∈ x, is_glob_meta c = false)
    (pre post : List (List (List Char) × β)) (blk : β) (name : List Char)
    (hpre : ∀ e ∈ pre, ∀ x ∈ e.1, fnmatch x name 0 ≠ 0)
    (hpost : ∀ e ∈ post, e.2 ≠ blk) :
    select_pattern fnmatch (pre ++ (xs, blk) :: post) name = some blk ↔ name ∈ xs := by
  rw [select_pattern_skip fnmatch pre _ name hpre]
  have hgroup : group_matches fnmatch xs name = true ↔ name ∈ xs := by
    rw [group_matches_iff]
    constructor
    · rintro ⟨x, hx, h0⟩
      rw [← (hfn x name (hxs x hx)).mp h0]
      exact hx
    · intro hn
      exact ⟨name, hn, (hfn name name (hxs name hn)).mpr rfl⟩
  unfold select_pattern
  by_cases hm : group_matches fnmatch xs name = true
  · simp only [hm, if_true, true_iff]
    exact hgroup.mp hm
  · simp only [hm, if_false, Bool.false_eq_true]
    constructor
    · intro h
      obtain ⟨e, he, hb⟩ := select_pattern_some_mem fnmatch post name blk h
      exact absurd hb (hpost e he)
    · intro hn
      exact absurd (hgroup.mpr hn) hm

/-- C2, amended, on scenario S2: with the single pattern key `req.{a,b}` the
names `req.a` and `req.b` get the block of the key and `req.c` gets none. -/
theorem select_pattern_literal_key_witness :
    ((∀ pattern name, (∀ c ∈ pattern, is_glob_meta c = false) →
        (glob_fnmatch pattern name 0 = 0 ↔ pattern = name)) ∧
      expand_pattern "req.\x7ba,b\x7d".toList = .returned ["req.a".toList, "req.b".toList] ∧
      (∀ x ∈ ["req.a".toList, "req.b".toList], ∀ c ∈ x, is_glob_meta c = false)) ∧
    (select_pattern glob_fnmatch
        ([] ++ (["req.a".toList, "req.b".toList], scenario_s2_block) :: []) "req.a".toList =
          some scenario_s2_block ↔ "req.a".toList ∈ ["req.a".toList, "req.b".toList]) ∧
    (config_json plain_impl plain_state (some scenario_s2)).2.pattern_opts =
      [(["req.a".toList, "req.b".toList], scenario_s2_block)] ∧
    select_pattern glob_fnmatch
      (config_json plain_impl plain_state (some scenario_s2)).2.pattern_opts "req.a".toList =
        some scenario_s2_block ∧
    select_pattern glob_fnmatch
      (config_json plain_impl plain_state (some scenario_s2)).2.pattern_opts "req.b".toList =
        some scenario_s2_block ∧
    select_pattern glob_fnmatch
      (config_json plain_impl plain_state (some scenario_s2)).2.pattern_opts "req.c".toList =
        none :=
  ⟨⟨fun pattern name h => glob_fnmatch_literal pattern name h, by decide, by decide⟩,
   select_pattern_literal_key glob_fnmatch
     (fun pattern name h => glob_fnmatch_literal pattern name h)
     "req.\x7ba,b\x7d".toList ["req.a".toList, "req.b".toList] (by decide) (by decide)
     [] [] scenario_s2_block "req.a".toList (by simp) (by simp),
   by rfl, by rfl, by rfl, by rfl⟩

end config

/-! ### The gauge -/

namespace metrics

theorem gauge_set_all_samples {V : Type} (sets : List (V × chrono.time_point)) :
    ∀ g : gauge V, (g.set_all sets).values.samples = g.values.samples ++ sets := by
  induction sets with
  | nil => intro g; simp [gauge.set_all]
  | cons s rest ih =>
    intro g
    have h := ih (g.set s.1 s.2)
    simp only [gauge.set_all, List.foldl_cons] at h ⊢
    rw [h]
    simp [gauge.set, statistics.accumulator.push]

theorem gauge_set_all_append {V : Type} (g : gauge V) (sets : List (V × chrono.time_point))
    (v : V) (t : chrono.time_point) :
    g.set_all (sets ++ [(v, t)]) = (g.set_all sets).set v t := by
  simp [gauge.set_all, List.foldl_append]

/-- C9: for every gauge, value `v` and timestamp `t`, `set(v, t)` leaves the
gauge with value `v` and timestamp `t` and pushes exactly the one sample
`(v, t)` into the accumulator; a freshly constructed gauge has the zero value,
the default timestamp (zero duration, internal clock) and no sample. -/
theorem gauge_set_stores_and_pushes {V : Type} [Zero V] (g : gauge V) (v : V)
    (t : chrono.time_point) (unit : chrono.time_unit) :
    (g.set v t).value = v ∧ (g.set v t).timestamp = t ∧
    (g.set v t).values = g.values.push v t ∧
    (g.set v t).values.samples = g.values.samples ++ [(v, t)] ∧
    (gauge.init unit : gauge V).value = 0 ∧
    (gauge.init unit : gauge V).timestamp =
      ⟨⟨0, unit⟩, chrono.clock_type.INTERNAL_CLOCK⟩ ∧
    (gauge.init unit : gauge V).values.samples = [] :=
  ⟨rfl, rfl, rfl, rfl, rfl, rfl, rfl⟩

/-- C10: for every sequence of `n` sets applied to a freshly constructed
gauge, the accumulator holds exactly those `n` samples in that order, so its
`COUNT` is `n`; and after a sequence that ends with the set `(v, t)` the
stored value and timestamp are `v` and `t`. -/
theorem gauge_set_all_count {V : Type} [Zero V] (unit : chrono.time_unit)
    (sets : List (V × chrono.time_point)) (v : V) (t : chrono.time_point) :
    ((gauge.init unit : gauge V).set_all sets).values.samples = sets ∧
    ((gauge.init unit : gauge V).set_all sets).values.count = sets.length ∧
    ((gauge.init unit : gauge V).set_all (sets ++ [(v, t)])).value = v ∧
    ((gauge.init unit : gauge V).set_all (sets ++ [(v, t)])).timestamp = t := by
  have h := gauge_set_all_samples sets (gauge.init unit : gauge V)
  have h0 : (gauge.init unit : gauge V).values.samples = [] := rfl
  rw [h0, List.nil_append] at h
  refine ⟨h, ?_, ?_, ?_⟩
  · simp [statistics.accumulator.count, h]
  · rw [gauge_set_all_append]; rfl
  · rw [gauge_set_all_append]; rfl

end metrics

/-! ### Time points -/

namespace chrono

/-- The calibration loop finds no sample when none of its tries is close,
and then has made all of them. -/
theorem update_loop_none (impl : chrono_impl) (samples : Nat → clock_sample) :
    ∀ remaining update_try,
      (∀ i, update_try ≤ i → i < update_try + remaining → is_close impl (samples i) = false) →
      update_loop impl samples remaining update_try = (none, update_try + remaining) := by
  intro remaining
  induction remaining with
  | zero => intro update_try _; rfl
  | succ n ih =>
    intro update_try h
    have h0 : is_close impl (samples update_try) = false := h update_try (Nat.le_refl _) (by omega)
    unfold is_close at h0
    unfold update_loop
    simp only [h0, Bool.false_eq_true, if_false]
    rw [ih (update_try + 1) fun i h1 h2 => h i (by omega) (by omega)]
    congr 1
    omega

/-- The calibration loop stops at the first try that is close. -/
theorem update_loop_first (impl : chrono_impl) (samples : Nat → clock_sample) :
    ∀ remaining update_try k, update_try ≤ k → k < update_try + remaining →
      (∀ i, update_try ≤ i → i < k → is_close impl (samples i) = false) →
      is_close impl (samples k) = true →
      update_loop impl samples remaining update_try = (some (sample_points (samples k)), k + 1) := by
  intro remaining
  induction remaining with
  | zero => intro update_try k h1 h2; omega
  | succ n ih =>
    intro update_try k h1 h2 hbefore hk
    unfold update_loop
    by_cases heq : update_try = k
    · subst heq
      unfold is_close at hk
      simp only [hk, if_true]
      rfl
    · have h0 : is_close impl (samples update_try) = false := hbefore update_try (Nat.le_refl _) (by omega)
      unfold is_close at h0
      simp only [h0, Bool.false_eq_true, if_false]
      exact ih (update_try + 1) k (by omega) (by omega) (fun i h3 h4 => hbefore i (by omega) h4) hk

/-- The time point that `to_system_time` returns is computed with the value
of `ns_offset` after the call. -/
theorem to_system_time_result (impl : chrono_impl) (st : offset_state) (rd : clock_readings)
    (t : time_point) :
    (to_system_time impl st rd t).result =
      system_time_with impl (to_system_time impl st rd t).state.ns_offset t := by
  unfold to_system_time
  split_ifs <;> rfl

/-- The time point that `to_system_time` returns is on the system clock. -/
theorem to_system_time_clock (impl : chrono_impl) (st : offset_state) (rd : clock_readings)
    (t : time_point) :
    (to_system_time impl st rd t).result.m_clock = clock_type.SYSTEM_CLOCK := by
  rw [to_system_time_result]; rfl

/-- A call that finds the offset fresh does nothing but compute the result. -/
theorem to_system_time_fresh (impl : chrono_impl) (st : offset_state) (rd : clock_readings)
    (t : time_point) (h : offset_is_stale impl st rd = false) :
    to_system_time impl st rd t = ⟨system_time_with impl st.ns_offset t, st, false, 0⟩ := by
  unfold to_system_time
  simp [h]

/-- A call that finds the offset stale and the flag held. -/
theorem to_system_time_held (impl : chrono_impl) (st : offset_state) (rd : clock_readings)
    (t : time_point) (hstale : offset_is_stale impl st rd = true) (hlock : st.lock = true) :
    to_system_time impl st rd t = ⟨system_time_with impl st.ns_offset t, st, true, 0⟩ := by
  unfold to_system_time
  simp only [hstale, if_true, hlock, Bool.true_eq_false, if_false]
  congr 1
  cases st
  simp_all

/-- A call that finds the offset stale and acquires the flag. -/
theorem to_system_time_acquired (impl : chrono_impl) (st : offset_state) (rd : clock_readings)
    (t : time_point) (hstale : offset_is_stale impl st rd = true) (hlock : st.lock = false) :
    to_system_time impl st rd t =
      ⟨system_time_with impl
          (recalibrate impl { st with lock := true } rd time_unit.CYCLE).1.ns_offset t,
        (recalibrate impl { st with lock := true } rd time_unit.CYCLE).1, true,
        (recalibrate impl { st with lock := true } rd time_unit.CYCLE).2⟩ := by
  unfold to_system_time
  simp only [hstale, if_true, hlock]
  rfl

end chrono

namespace chrono

/-! ### Comparisons of time points -/

/-- A comparison of two time points on the same clock. -/
theorem compare_same_clock (impl : chrono_impl) (c : comparison) (rd : clock_readings)
    (st : offset_state) (a b : time_point) (h : a.m_clock = b.m_clock) :
    time_point.compare impl c rd st a b =
      .returned (impl.compare c a.m_since_epoch b.m_since_epoch, st) := by
  simp [time_point.compare, time_point.compare_at, h]

/-- A comparison whose left operand is on the internal clock and whose right
operand is on the system clock. -/
theorem compare_internal_system (impl : chrono_impl) (c : comparison) (rd : clock_readings)
    (st : offset_state) (a b : time_point) (ha : a.m_clock = clock_type.INTERNAL_CLOCK)
    (hb : b.m_clock = clock_type.SYSTEM_CLOCK) :
    time_point.compare impl c rd st a b =
      .returned (impl.compare c (to_system_time impl st rd a).result.m_since_epoch
        b.m_since_epoch, (to_system_time impl st rd a).state) := by
  have hclock := to_system_time_clock impl st rd a
  simp [time_point.compare, time_point.compare_at, time_point.convert_to, ha, hb, hclock]

/-- A comparison whose left operand is on the system clock and whose right
operand is on the internal clock. -/
theorem compare_system_internal (impl : chrono_impl) (c : comparison) (rd : clock_readings)
    (st : offset_state) (a b : time_point) (ha : a.m_clock = clock_type.SYSTEM_CLOCK)
    (hb : b.m_clock = clock_type.INTERNAL_CLOCK) :
    time_point.compare impl c rd st a b =
      .returned (impl.compare c a.m_since_epoch
        (to_system_time impl st rd b).result.m_since_epoch,
        (to_system_time impl st rd b).state) := by
  have hclock := to_system_time_clock impl st rd b
  simp [time_point.compare, time_point.compare_at, time_point.convert_to, ha, hb, hclock]

/-- C11, counterexample: the left operand `a` is on the system clock at 507
ns, the right operand `b` on the internal clock at 1000 cycles (two cycles
per nanosecond, an offset of 7 ns that is fresh).  Converting the left
operand to the system clock leaves it as it is, and its duration differs from
that of `b`; yet `a == b` is `true`: it is `b` that the operator converts. -/
theorem compare_converts_right_counterexample :
    time_point.convert_to (spec_impl two_ghz) ⟨7, 1, false⟩ (steady_readings 1000 far_sample)
        clock_type.SYSTEM_CLOCK ⟨⟨507, time_unit.NSEC⟩, clock_type.SYSTEM_CLOCK⟩ =
      .returned (⟨⟨507, time_unit.NSEC⟩, clock_type.SYSTEM_CLOCK⟩, ⟨7, 1, false⟩) ∧
    (spec_impl two_ghz).compare .EQ ⟨507, time_unit.NSEC⟩ ⟨1000, time_unit.CYCLE⟩ = false ∧
    time_point.compare (spec_impl two_ghz) .EQ (steady_readings 1000 far_sample) ⟨7, 1, false⟩
        ⟨⟨507, time_unit.NSEC⟩, clock_type.SYSTEM_CLOCK⟩
        ⟨⟨1000, time_unit.CYCLE⟩, clock_type.INTERNAL_CLOCK⟩ =
      .returned (true, ⟨7, 1, false⟩) ∧
    (to_system_time (spec_impl two_ghz) ⟨7, 1, false⟩ (steady_readings 1000 far_sample)
        ⟨⟨1000, time_unit.CYCLE⟩, clock_type.INTERNAL_CLOCK⟩).result =
      ⟨⟨507, time_unit.NSEC⟩, clock_type.SYSTEM_CLOCK⟩ := by
  refine ⟨by rfl, by decide, by rfl, by decide⟩

/-- C11, amended: for two time points with different clock tags, each of the
six comparison operators converts the operand that is on the internal clock
to the system clock, the left operand when it is the internal one and the
right operand when the left one is on the system clock, and compares the
durations since the epoch; for equal clock tags it compares the two durations
directly, with no conversion and the offset state untouched. -/
theorem compare_converts_internal_operand (impl : chrono_impl) (c : comparison)
    (rd : clock_readings) (st : offset_state) (a b : time_point) :
    (a.m_clock = b.m_clock →
      time_point.compare impl c rd st a b =
        .returned (impl.compare c a.m_since_epoch b.m_since_epoch, st)) ∧
    (a.m_clock = clock_type.INTERNAL_CLOCK → b.m_clock = clock_type.SYSTEM_CLOCK →
      time_point.compare impl c rd st a b =
        .returned (impl.compare c (to_system_time impl st rd a).result.m_since_epoch
          b.m_since_epoch, (to_system_time impl st rd a).state)) ∧
    (a.m_clock = clock_type.SYSTEM_CLOCK → b.m_clock = clock_type.INTERNAL_CLOCK →
      time_point.compare impl c rd st a b =
        .returned (impl.compare c a.m_since_epoch
          (to_system_time impl st rd b).result.m_since_epoch,
          (to_system_time impl st rd b).state)) :=
  ⟨compare_same_clock impl c rd st a b, compare_internal_system impl c rd st a b,
    compare_system_internal impl c rd st a b⟩

/-- C11, amended, at `a < b` with `a` at 1000 cycles on the internal clock and
`b` at 600 ns on the system clock: `a` is converted, to 507 ns. -/
theorem compare_converts_internal_operand_witness :
    time_point.compare (spec_impl two_ghz) .LT (steady_readings 1000 far_sample) ⟨7, 1, false⟩
        ⟨⟨1000, time_unit.CYCLE⟩, clock_type.INTERNAL_CLOCK⟩
        ⟨⟨600, time_unit.NSEC⟩, clock_type.SYSTEM_CLOCK⟩ =
      .returned ((spec_impl two_ghz).compare .LT
        (to_system_time (spec_impl two_ghz) ⟨7, 1, false⟩ (steady_readings 1000 far_sample)
          ⟨⟨1000, time_unit.CYCLE⟩, clock_type.INTERNAL_CLOCK⟩).result.m_since_epoch
        ⟨600, time_unit.NSEC⟩,
        (to_system_time (spec_impl two_ghz) ⟨7, 1, false⟩ (steady_readings 1000 far_sample)
          ⟨⟨1000, time_unit.CYCLE⟩, clock_type.INTERNAL_CLOCK⟩).state) ∧
    time_point.compare (spec_impl two_ghz) .LT (steady_readings 1000 far_sample) ⟨7, 1, false⟩
        ⟨⟨1000, time_unit.CYCLE⟩, clock_type.INTERNAL_CLOCK⟩
        ⟨⟨600, time_unit.NSEC⟩, clock_type.SYSTEM_CLOCK⟩ =
      .returned (true, ⟨7, 1, false⟩) :=
  ⟨(compare_converts_internal_operand (spec_impl two_ghz) .LT (steady_readings 1000 far_sample)
      ⟨7, 1, false⟩ ⟨⟨1000, time_unit.CYCLE⟩, clock_type.INTERNAL_CLOCK⟩
      ⟨⟨600, time_unit.NSEC⟩, clock_type.SYSTEM_CLOCK⟩).2.1 rfl rfl,
   by rfl⟩

/-! ### Recalibration -/

/-- C12: if a recalibration attempt (the offset is stale and the flag is
acquired) finds no sample among its 100 tries whose counter reads are closer
than 15 µs, then all 100 tries are made, `ns_offset` and `offset_timestamp`
after the call equal their values before the call, and the returned system
time is computed with the previous `ns_offset`. -/
theorem to_system_time_no_close_pair (impl : chrono_impl) (st : offset_state)
    (rd : clock_readings) (t : time_point)
    (hstale : offset_is_stale impl st rd = true) (hlock : st.lock = false)
    (hno : ∀ i, i < MAX_UPDATE_TRIES → is_close impl (rd.samples i) = false) :
    (to_system_time impl st rd t).samples_taken = 100 ∧
    (to_system_time impl st rd t).state.ns_offset = st.ns_offset ∧
    (to_system_time impl st rd t).state.offset_timestamp = st.offset_timestamp ∧
    (to_system_time impl st rd t).result = system_time_with impl st.ns_offset t := by
  have hloop : update_loop impl rd.samples 100 0 = (none, 100) := by
    have h := update_loop_none impl rd.samples MAX_UPDATE_TRIES 0
      (fun i _ h => hno i (by omega))
    simpa [MAX_UPDATE_TRIES] using h
  rw [to_system_time_acquired impl st rd t hstale hlock]
  simp [recalibrate, MAX_UPDATE_TRIES, hloop]

/-- C12 on the initial state, with every try a million cycles apart. -/
theorem to_system_time_no_close_pair_witness :
    (offset_is_stale (spec_impl two_ghz) offset_state.init (steady_readings 1000 far_sample) =
        true ∧
      offset_state.init.lock = false ∧
      ∀ i, i < MAX_UPDATE_TRIES →
        is_close (spec_impl two_ghz) ((steady_readings 1000 far_sample).samples i) = false) ∧
    ((to_system_time (spec_impl two_ghz) offset_state.init (steady_readings 1000 far_sample)
        ⟨⟨1000, time_unit.CYCLE⟩, clock_type.INTERNAL_CLOCK⟩).samples_taken = 100 ∧
      (to_system_time (spec_impl two_ghz) offset_state.init (steady_readings 1000 far_sample)
        ⟨⟨1000, time_unit.CYCLE⟩, clock_type.INTERNAL_CLOCK⟩).state.ns_offset =
          offset_state.init.ns_offset ∧
      (to_system_time (spec_impl two_ghz) offset_state.init (steady_readings 1000 far_sample)
        ⟨⟨1000, time_unit.CYCLE⟩, clock_type.INTERNAL_CLOCK⟩).state.offset_timestamp =
          offset_state.init.offset_timestamp ∧
      (to_system_time (spec_impl two_ghz) offset_state.init (steady_readings 1000 far_sample)
        ⟨⟨1000, time_unit.CYCLE⟩, clock_type.INTERNAL_CLOCK⟩).result =
          system_time_with (spec_impl two_ghz) offset_state.init.ns_offset
            ⟨⟨1000, time_unit.CYCLE⟩, clock_type.INTERNAL_CLOCK⟩) :=
  ⟨⟨by decide, rfl, fun _ _ => by
    show is_close (spec_impl two_ghz) far_sample = false
    decide⟩,
   to_system_time_no_close_pair (spec_impl two_ghz) offset_state.init
     (steady_readings 1000 far_sample) ⟨⟨1000, time_unit.CYCLE⟩, clock_type.INTERNAL_CLOCK⟩
     (by decide) rfl (fun _ _ => by
    show is_close (spec_impl two_ghz) far_sample = false
    decide)⟩

/-- C15: `to_system_time` tries to acquire the flag exactly when the cached
`offset_timestamp` is 0 or the current counter minus `offset_timestamp` is
strictly greater than `OFFSET_TIMEOUT`, 15 s; when `offset_timestamp` is not
0 and the difference is at most 15 s, the call takes no calibration sample
and leaves `ns_offset`, `offset_timestamp` and the flag unchanged. -/
theorem to_system_time_attempts_iff_stale (impl : chrono_impl) (st : offset_state)
    (rd : clock_readings) (t : time_point) :
    ((to_system_time impl st rd t).acquire_attempted = true ↔
      (st.offset_timestamp = 0 ∨
        impl.gt (impl.sub ⟨rd.current_tsc_time, time_unit.CYCLE⟩
          ⟨st.offset_timestamp, time_unit.CYCLE⟩) ⟨15 * 10 ^ 9, time_unit.NSEC⟩ = true)) ∧
    ((st.offset_timestamp ≠ 0 ∧
        impl.gt (impl.sub ⟨rd.current_tsc_time, time_unit.CYCLE⟩
          ⟨st.offset_timestamp, time_unit.CYCLE⟩) ⟨15 * 10 ^ 9, time_unit.NSEC⟩ = false) →
      (to_system_time impl st rd t).samples_taken = 0 ∧
      (to_system_time impl st rd t).state = st) := by
  have hstale : offset_is_stale impl st rd = true ↔
      (st.offset_timestamp = 0 ∨
        impl.gt (impl.sub ⟨rd.current_tsc_time, time_unit.CYCLE⟩
          ⟨st.offset_timestamp, time_unit.CYCLE⟩) ⟨15 * 10 ^ 9, time_unit.NSEC⟩ = true) := by
    simp [offset_is_stale, internal_clock_now, time_point.time_since_epoch, OFFSET_TIMEOUT]
  constructor
  · rw [← hstale]
    unfold to_system_time
    split_ifs with h1 h2
    · simp [h1]
    · simp [h1]
    · simp [h1]
  · rintro ⟨h0, hgt⟩
    have hfresh : offset_is_stale impl st rd = false := by
      rw [Bool.eq_false_iff]
      intro hs
      rcases hstale.mp hs with h | h
      · exact h0 h
      · rw [hgt] at h; cases h
    rw [to_system_time_fresh impl st rd t hfresh]
    exact ⟨rfl, rfl⟩

/-- C15 with one cycle per nanosecond and `offset_timestamp` 1: a counter
exactly 15 s later is not stale, and one cycle more is. -/
theorem to_system_time_attempts_iff_stale_witness :
    ((to_system_time (spec_impl ⟨1, 1⟩) ⟨7, 1, false⟩
        (steady_readings (15 * 10 ^ 9 + 1) far_sample)
        ⟨⟨0, time_unit.CYCLE⟩, clock_type.INTERNAL_CLOCK⟩).acquire_attempted = false ∧
      (to_system_time (spec_impl ⟨1, 1⟩) ⟨7, 1, false⟩
        (steady_readings (15 * 10 ^ 9 + 1) far_sample)
        ⟨⟨0, time_unit.CYCLE⟩, clock_type.INTERNAL_CLOCK⟩).samples_taken = 0 ∧
      (to_system_time (spec_impl ⟨1, 1⟩) ⟨7, 1, false⟩
        (steady_readings (15 * 10 ^ 9 + 1) far_sample)
        ⟨⟨0, time_unit.CYCLE⟩, clock_type.INTERNAL_CLOCK⟩).state = ⟨7, 1, false⟩) ∧
    (to_system_time (spec_impl ⟨1, 1⟩) ⟨7, 1, false⟩
      (steady_readings (15 * 10 ^ 9 + 2) far_sample)
      ⟨⟨0, time_unit.CYCLE⟩, clock_type.INTERNAL_CLOCK⟩).acquire_attempted = true := by
  have h := to_system_time_attempts_iff_stale (spec_impl ⟨1, 1⟩) ⟨7, 1, false⟩
    (steady_readings (15 * 10 ^ 9 + 1) far_sample)
    ⟨⟨0, time_unit.CYCLE⟩, clock_type.INTERNAL_CLOCK⟩
  refine ⟨⟨by decide, (h.2 ⟨by decide, by decide⟩).1, (h.2 ⟨by decide, by decide⟩).2⟩, by decide⟩

/-- C16: if the flag is already held when `to_system_time` finds the offset
stale, the call tries the flag once and goes on: it takes no calibration
sample, leaves `ns_offset`, `offset_timestamp` and the flag (held) as they
are, and returns the conversion computed with the current `ns_offset`. -/
theorem to_system_time_flag_held (impl : chrono_impl) (st : offset_state) (rd : clock_readings)
    (t : time_point) (hstale : offset_is_stale impl st rd = true) (hlock : st.lock = true) :
    (to_system_time impl st rd t).acquire_attempted = true ∧
    (to_system_time impl st rd t).samples_taken = 0 ∧
    (to_system_time impl st rd t).state = st ∧
    (to_system_time impl st rd t).state.lock = true ∧
    (to_system_time impl st rd t).result = system_time_with impl st.ns_offset t := by
  rw [to_system_time_held impl st rd t hstale hlock]
  exact ⟨rfl, rfl, rfl, hlock, rfl⟩

/-- C16 on a state that was never calibrated and whose flag is held, with
samples that would be close. -/
theorem to_system_time_flag_held_witness :
    (offset_is_stale (spec_impl two_ghz) ⟨0, 0, true⟩ (steady_readings 1000 near_sample) = true ∧
      (⟨0, 0, true⟩ : offset_state).lock = true) ∧
    ((to_system_time (spec_impl two_ghz) ⟨0, 0, true⟩ (steady_readings 1000 near_sample)
        ⟨⟨1000, time_unit.CYCLE⟩, clock_type.INTERNAL_CLOCK⟩).acquire_attempted = true ∧
      (to_system_time (spec_impl two_ghz) ⟨0, 0, true⟩ (steady_readings 1000 near_sample)
        ⟨⟨1000, time_unit.CYCLE⟩, clock_type.INTERNAL_CLOCK⟩).samples_taken = 0 ∧
      (to_system_time (spec_impl two_ghz) ⟨0, 0, true⟩ (steady_readings 1000 near_sample)
        ⟨⟨1000, time_unit.CYCLE⟩, clock_type.INTERNAL_CLOCK⟩).state = ⟨0, 0, true⟩ ∧
      (to_system_time (spec_impl two_ghz) ⟨0, 0, true⟩ (steady_readings 1000 near_sample)
        ⟨⟨1000, time_unit.CYCLE⟩, clock_type.INTERNAL_CLOCK⟩).state.lock = true ∧
      (to_system_time (spec_impl two_ghz) ⟨0, 0, true⟩ (steady_readings 1000 near_sample)
        ⟨⟨1000, time_unit.CYCLE⟩, clock_type.INTERNAL_CLOCK⟩).result =
          system_time_with (spec_impl two_ghz) 0
            ⟨⟨1000, time_unit.CYCLE⟩, clock_type.INTERNAL_CLOCK⟩) :=
  ⟨⟨by decide, rfl⟩,
   to_system_time_flag_held (spec_impl two_ghz) ⟨0, 0, true⟩ (steady_readings 1000 near_sample)
     ⟨⟨1000, time_unit.CYCLE⟩, clock_type.INTERNAL_CLOCK⟩ (by decide) rfl⟩

end chrono

namespace chrono

/-! ### What a calibration publishes, and what the conversion returns -/

theorem spec_convert_to_same (f : tsc_frequency) (d : duration) :
    spec_convert_to f d.m_unit d = d := by
  simp [spec_convert_to]

theorem spec_convert_to_cycles_nsec (f : tsc_frequency) (count : Int) :
    spec_convert_to f time_unit.NSEC ⟨count, time_unit.CYCLE⟩ =
      ⟨cycles_to_nanoseconds f count, time_unit.NSEC⟩ := by
  simp [spec_convert_to, unit_nanoseconds, Int.tdiv_one]

theorem spec_convert_to_zero_nsec_cycles (f : tsc_frequency) :
    spec_convert_to f time_unit.CYCLE ⟨0, time_unit.NSEC⟩ = ⟨0, time_unit.CYCLE⟩ := by
  simp [spec_convert_to, unit_nanoseconds, nanoseconds_to_cycles]

/-- The conversion of an internal time point in cycles when `ns_offset` is 0,
with durations as the specification describes them. -/
theorem system_time_with_zero (f : tsc_frequency) (t : time_point) (count : Int)
    (ht : t.m_since_epoch = ⟨count, time_unit.CYCLE⟩) :
    system_time_with (spec_impl f) 0 t =
      ⟨⟨cycles_to_nanoseconds f count, time_unit.NSEC⟩, clock_type.SYSTEM_CLOCK⟩ := by
  simp [system_time_with, spec_impl, time_point.time_since_epoch, ht,
    spec_convert_to_zero_nsec_cycles, spec_convert_to_cycles_nsec]

/-- C13, counterexample: with two cycles per nanosecond, on the initial state
and with no close pair found (so that `ns_offset` is 0 before and after the
call), the internal time point at 1000 cycles is converted to 500 ns, not to
1000 ns. -/
theorem to_system_time_scales_counterexample :
    offset_state.init.ns_offset = 0 ∧
    (to_system_time (spec_impl two_ghz) offset_state.init (steady_readings 1000 far_sample)
      ⟨⟨1000, time_unit.CYCLE⟩, clock_type.INTERNAL_CLOCK⟩).state.ns_offset = 0 ∧
    (to_system_time (spec_impl two_ghz) offset_state.init (steady_readings 1000 far_sample)
      ⟨⟨1000, time_unit.CYCLE⟩, clock_type.INTERNAL_CLOCK⟩).result =
        ⟨⟨500, time_unit.NSEC⟩, clock_type.SYSTEM_CLOCK⟩ ∧
    (to_system_time (spec_impl two_ghz) offset_state.init (steady_readings 1000 far_sample)
      ⟨⟨1000, time_unit.CYCLE⟩, clock_type.INTERNAL_CLOCK⟩).result.m_since_epoch.m_rep ≠
        1000 := by
  refine ⟨rfl, by decide, by decide, by decide⟩

/-- C13, amended: if `ns_offset` is still 0 when the call returns (no
calibration has succeeded, this call included), converting an internal time
point of `count` cycles gives the system time point whose nanosecond count is
`count` converted from cycles to nanoseconds with the measured frequency, no
offset added; it is `count` itself when the frequency is one cycle per
nanosecond. -/
theorem to_system_time_uncalibrated (f : tsc_frequency) (st : offset_state)
    (rd : clock_readings) (t : time_point) (count : Int)
    (ht : t.m_since_epoch = ⟨count, time_unit.CYCLE⟩)
    (h0 : (to_system_time (spec_impl f) st rd t).state.ns_offset = 0) :
    (to_system_time (spec_impl f) st rd t).result =
      ⟨⟨cycles_to_nanoseconds f count, time_unit.NSEC⟩, clock_type.SYSTEM_CLOCK⟩ ∧
    (f.cycles = f.nanoseconds → f.cycles ≠ 0 →
      (to_system_time (spec_impl f) st rd t).result.m_since_epoch.m_rep = count) := by
  have hres : (to_system_time (spec_impl f) st rd t).result =
      ⟨⟨cycles_to_nanoseconds f count, time_unit.NSEC⟩, clock_type.SYSTEM_CLOCK⟩ := by
    rw [to_system_time_result, h0]
    exact system_time_with_zero f t count ht
  refine ⟨hres, ?_⟩
  intro heq hne
  rw [hres]
  show cycles_to_nanoseconds f count = count
  unfold cycles_to_nanoseconds
  rw [← heq]
  exact Int.mul_tdiv_cancel count (by exact_mod_cast hne)

/-- C13, amended, at 1000 cycles: 500 ns with two cycles per nanosecond, and
1000 ns with one cycle per nanosecond. -/
theorem to_system_time_uncalibrated_witness :
    ((⟨⟨1000, time_unit.CYCLE⟩, clock_type.INTERNAL_CLOCK⟩ : time_point).m_since_epoch =
        ⟨1000, time_unit.CYCLE⟩ ∧
      (to_system_time (spec_impl two_ghz) offset_state.init (steady_readings 1000 far_sample)
        ⟨⟨1000, time_unit.CYCLE⟩, clock_type.INTERNAL_CLOCK⟩).state.ns_offset = 0) ∧
    (to_system_time (spec_impl two_ghz) offset_state.init (steady_readings 1000 far_sample)
      ⟨⟨1000, time_unit.CYCLE⟩, clock_type.INTERNAL_CLOCK⟩).result =
        ⟨⟨cycles_to_nanoseconds two_ghz 1000, time_unit.NSEC⟩, clock_type.SYSTEM_CLOCK⟩ ∧
    cycles_to_nanoseconds two_ghz 1000 = 500 ∧
    (to_system_time (spec_impl ⟨1, 1⟩) offset_state.init (steady_readings 1000 far_sample)
      ⟨⟨1000, time_unit.CYCLE⟩, clock_type.INTERNAL_CLOCK⟩).result.m_since_epoch.m_rep = 1000 :=
  ⟨⟨rfl, by decide⟩,
   (to_system_time_uncalibrated two_ghz offset_state.init (steady_readings 1000 far_sample)
     ⟨⟨1000, time_unit.CYCLE⟩, clock_type.INTERNAL_CLOCK⟩ 1000 rfl (by decide)).1,
   by decide,
   (to_system_time_uncalibrated ⟨1, 1⟩ offset_state.init (steady_readings 1000 far_sample)
     ⟨⟨1000, time_unit.CYCLE⟩, clock_type.INTERNAL_CLOCK⟩ 1000 rfl (by decide)).2 rfl
     (by decide)⟩

/-- The stores of a calibration, with durations as the specification
describes them. -/
theorem publish_offset_spec (f : tsc_frequency) (st : offset_state) (s : clock_sample) :
    publish_offset (spec_impl f) st time_unit.CYCLE (sample_points s) =
      { st with
        ns_offset := (spec_impl f).count ((spec_impl f).sub s.current_system_time
          ⟨s.cycles_start + Int.tdiv (s.cycles_end - s.cycles_start) 2, time_unit.CYCLE⟩)
          time_unit.NSEC
        offset_timestamp := s.cycles_start + Int.tdiv (s.cycles_end - s.cycles_start) 2 } := by
  simp [publish_offset, sample_points, internal_clock_now, system_clock_now, time_point.add,
    time_point.time_since_epoch, spec_impl, spec_convert_to]

/-- C14: when a recalibration attempt succeeds, the sample used is the first
of the (at most 100) samples whose counter reads are closer than 15 µs, and
the call publishes `offset_timestamp = TSC_mid` and `ns_offset = wall -
TSC_mid` in nanoseconds, where `TSC_mid = TSC_before + (TSC_after -
TSC_before) / 2` with the integer division; the counter being monotonic
(`TSC_before ≤ TSC_after`), `TSC_before ≤ TSC_mid ≤ TSC_after`. -/
theorem to_system_time_publishes_midpoint (f : tsc_frequency) (st : offset_state)
    (rd : clock_readings) (t : time_point) (k : Nat)
    (hstale : offset_is_stale (spec_impl f) st rd = true) (hlock : st.lock = false)
    (hk : k < MAX_UPDATE_TRIES)
    (hbefore : ∀ i, i < k → is_close (spec_impl f) (rd.samples i) = false)
    (hclose : is_close (spec_impl f) (rd.samples k) = true) :
    (to_system_time (spec_impl f) st rd t).samples_taken = k + 1 ∧
    (to_system_time (spec_impl f) st rd t).state.offset_timestamp =
      (rd.samples k).cycles_start +
        Int.tdiv ((rd.samples k).cycles_end - (rd.samples k).cycles_start) 2 ∧
    (to_system_time (spec_impl f) st rd t).state.ns_offset =
      (spec_impl f).count ((spec_impl f).sub (rd.samples k).current_system_time
        ⟨(rd.samples k).cycles_start +
          Int.tdiv ((rd.samples k).cycles_end - (rd.samples k).cycles_start) 2,
          time_unit.CYCLE⟩) time_unit.NSEC ∧
    ((rd.samples k).current_system_time.m_unit = time_unit.NSEC →
      (to_system_time (spec_impl f) st rd t).state.ns_offset =
        (rd.samples k).current_system_time.m_rep -
          cycles_to_nanoseconds f ((rd.samples k).cycles_start +
            Int.tdiv ((rd.samples k).cycles_end - (rd.samples k).cycles_start) 2)) ∧
    ((rd.samples k).cycles_start ≤ (rd.samples k).cycles_end →
      (rd.samples k).cycles_start ≤ (rd.samples k).cycles_start +
          Int.tdiv ((rd.samples k).cycles_end - (rd.samples k).cycles_start) 2 ∧
      (rd.samples k).cycles_start +
          Int.tdiv ((rd.samples k).cycles_end - (rd.samples k).cycles_start) 2 ≤
        (rd.samples k).cycles_end ∧
      Int.tdiv ((rd.samples k).cycles_end - (rd.samples k).cycles_start) 2 =
        ((rd.samples k).cycles_end - (rd.samples k).cycles_start) / 2) := by
  have hloop : update_loop (spec_impl f) rd.samples 100 0 =
      (some (sample_points (rd.samples k)), k + 1) := by
    have h := update_loop_first (spec_impl f) rd.samples MAX_UPDATE_TRIES 0 k (Nat.zero_le _)
      (by omega) (fun i _ hi => hbefore i hi) hclose
    simpa [MAX_UPDATE_TRIES] using h
  rw [to_system_time_acquired (spec_impl f) st rd t hstale hlock]
  simp only [recalibrate, MAX_UPDATE_TRIES, hloop, publish_offset_spec]
  refine ⟨trivial, trivial, trivial, ?_, ?_⟩
  · intro hunit
    simp [spec_impl, hunit, spec_convert_to, unit_nanoseconds, Int.tdiv_one]
  · intro hmono
    have hnn : 0 ≤ (rd.samples k).cycles_end - (rd.samples k).cycles_start := by omega
    have hdiv : Int.tdiv ((rd.samples k).cycles_end - (rd.samples k).cycles_start) 2 =
        ((rd.samples k).cycles_end - (rd.samples k).cycles_start) / 2 :=
      Int.tdiv_eq_ediv hnn (by decide)
    rw [hdiv]
    refine ⟨?_, ?_, rfl⟩ <;> omega

/-- C14 with two cycles per nanosecond: the tries 0 to 2 are a million cycles
apart, try 3 reads the counter at 100 and 111 and the wall clock at 5000 ns;
`offset_timestamp` becomes 105 and `ns_offset` 4948. -/
theorem to_system_time_publishes_midpoint_witness :
    (offset_is_stale (spec_impl two_ghz) offset_state.init
        (readings_close_at 1000 3 far_sample near_sample) = true ∧
      offset_state.init.lock = false ∧ 3 < MAX_UPDATE_TRIES ∧
      (∀ i, i < 3 → is_close (spec_impl two_ghz)
        ((readings_close_at 1000 3 far_sample near_sample).samples i) = false) ∧
      is_close (spec_impl two_ghz)
        ((readings_close_at 1000 3 far_sample near_sample).samples 3) = true) ∧
    ((to_system_time (spec_impl two_ghz) offset_state.init
        (readings_close_at 1000 3 far_sample near_sample)
        ⟨⟨1000, time_unit.CYCLE⟩, clock_type.INTERNAL_CLOCK⟩).samples_taken = 3 + 1 ∧
      (to_system_time (spec_impl two_ghz) offset_state.init
        (readings_close_at 1000 3 far_sample near_sample)
        ⟨⟨1000, time_unit.CYCLE⟩, clock_type.INTERNAL_CLOCK⟩).state.offset_timestamp =
          ((readings_close_at 1000 3 far_sample near_sample).samples 3).cycles_start +
            Int.tdiv (((readings_close_at 1000 3 far_sample near_sample).samples 3).cycles_end -
              ((readings_close_at 1000 3 far_sample near_sample).samples 3).cycles_start) 2) ∧
    (to_system_time (spec_impl two_ghz) offset_state.init
      (readings_close_at 1000 3 far_sample near_sample)
      ⟨⟨1000, time_unit.CYCLE⟩, clock_type.INTERNAL_CLOCK⟩).state = ⟨4948, 105, false⟩ :=
  ⟨⟨by decide, rfl, by decide, by decide, by decide⟩,
   ⟨(to_system_time_publishes_midpoint two_ghz offset_state.init
      (readings_close_at 1000 3 far_sample near_sample)
      ⟨⟨1000, time_unit.CYCLE⟩, clock_type.INTERNAL_CLOCK⟩ 3 (by decide) rfl (by decide)
      (by decide) (by decide)).1,
    (to_system_time_publishes_midpoint two_ghz offset_state.init
      (readings_close_at 1000 3 far_sample near_sample)
      ⟨⟨1000, time_unit.CYCLE⟩, clock_type.INTERNAL_CLOCK⟩ 3 (by decide) rfl (by decide)
      (by decide) (by decide)).2.1⟩,
   by decide⟩

end chrono

namespace config

/-! ### Where the top-level expansion ends -/

/-- A returning call has read no NUL before the position at which it returns. -/
theorem expand_no_nul (p : List Char) : ∀ fuel,
    (∀ pos nested e q, pos ≤ p.length →
      expand_pattern_at p fuel pos nested = .returned (e, q) →
      ∀ c ∈ segment p pos q, c ≠ NUL) ∧
    (∀ le acc e q, le ≤ p.length →
      expand_list p fuel le acc = .returned (e, q) →
      ∀ c ∈ segment p le q, c ≠ NUL) := by
  intro fuel
  induction fuel with
  | zero =>
    constructor
    · intro pos nested e q _ h; simp [expand_pattern_at] at h
    · intro le acc e q _ h; simp [expand_list] at h
  | succ fuel ih =>
    obtain ⟨ihp, ihl⟩ := ih
    constructor
    · intro pos nested e q hpos h
      obtain ⟨h1, h2, h3, _⟩ := scan_preamble_at p pos nested hpos
      have hword : ∀ c ∈ segment p pos (scan_preamble nested (p.drop pos) pos), c ≠ NUL :=
        fun c hc hn => h3 c hc (Or.inl hn)
      rcases expand_pattern_at_returned h with ⟨_, _, rfl⟩ | ⟨hc, lexp, q1, pexp, hl, hp, _⟩
      · exact hword
      · have hlt : scan_preamble nested (p.drop pos) pos < p.length :=
          lt_length_of_char_at_ne_nul (by rw [hc]; exact syms_ne.1)
        obtain ⟨hq1, hq1', hend⟩ := (expand_bounds p fuel).2 _ _ _ _ hlt hl
        obtain ⟨hq, hq', _⟩ := (expand_bounds p fuel).1 _ _ _ _ hq1' hp
        have hlist := ihl _ _ _ _ hlt hl
        have hpost := ihp _ _ _ _ hq1' hp
        generalize scan_preamble nested (p.drop pos) pos = pe at *
        rw [segment_append p h1 (show pe ≤ q by omega),
          segment_append p (Nat.le_succ pe) (show pe + 1 ≤ q by omega),
          segment_one p hlt, hc, segment_append p hq1 (show q1 ≤ q by omega),
          segment_append p (Nat.le_succ q1) hq, segment_one p hq1', hend]
        intro c hmem
        simp only [List.mem_append, List.mem_singleton] at hmem
        rcases hmem with hm | hm | hm | hm | hm
        · exact hword c hm
        · rw [hm]; exact syms_ne.1
        · exact hlist c hm
        · rw [hm]; exact syms_ne.2.1
        · exact hpost c hm
    · intro le acc e q hle h
      obtain ⟨sub, q1, hp, hcase⟩ := expand_list_returned h
      obtain ⟨hq1, hq1', _⟩ := (expand_bounds p fuel).1 _ _ _ _ hle hp
      have hsub := ihp _ _ _ _ hle hp
      rcases hcase with ⟨hd, hl⟩ | ⟨_, _, _, rfl⟩
      · have hlt : q1 < p.length :=
          lt_length_of_char_at_ne_nul (by rw [hd]; exact syms_ne.2.2.1)
        obtain ⟨hq, _, _⟩ := (expand_bounds p fuel).2 _ _ _ _ hlt hl
        have hrest := ihl _ _ _ _ hlt hl
        rw [segment_append p hq1 (show q1 ≤ q by omega),
          segment_append p (Nat.le_succ q1) hq, segment_one p hlt, hd]
        intro c hmem
        simp only [List.mem_append, List.mem_singleton] at hmem
        rcases hmem with hm | hm | hm
        · exact hsub c hm
        · rw [hm]; exact syms_ne.2.2.1
        · exact hrest c hm
      · exact hsub

/-- The length of the C string at `p` is the index of the first NUL. -/
theorem c_string_length_eq (p : List Char) : ∀ q, q ≤ p.length →
    (∀ c ∈ p.take q, c ≠ NUL) → p.getD q NUL = NUL → (c_string p).length = q := by
  induction p with
  | nil => intro q hq _ _; simp at hq; simp [c_string, hq]
  | cons c p ih =>
    intro q hq hbefore hat
    cases q with
    | zero =>
      simp only [List.getD_cons_zero] at hat
      simp [c_string, hat]
    | succ q =>
      have hc : c ≠ NUL := hbefore c (by simp)
      have := ih q (by simpa using hq) (fun x hx => hbefore x (by simp [hx])) (by simpa using hat)
      simp only [c_string] at this ⊢
      simpa [List.takeWhile_cons, hc] using this

theorem c_string_of_no_nul {p : List Char} (hnul : ∀ c ∈ p, c ≠ NUL) : c_string p = p := by
  unfold c_string
  rw [List.takeWhile_eq_self_iff]
  intro c hc
  simpa using hnul c hc

theorem c_string_no_nul (chars : List Char) : ∀ c ∈ c_string chars, c ≠ NUL := by
  intro c hc
  have := List.mem_takeWhile_imp hc
  simpa using this

/-- The wrapper takes its error branch only when the pattern holds a NUL. -/
theorem nul_mem_of_parsing_stopped {p : List Char} {q : Nat}
    (h : expand_pattern p = .thrown (.parsing_stopped q)) : NUL ∈ p := by
  by_contra hno
  have hnul : ∀ c ∈ p, c ≠ NUL := fun c hc hn => hno (hn ▸ hc)
  unfold expand_pattern at h
  cases hr : expand_pattern_at p (2 * p.length + 1) 0 false with
  | returned r =>
    obtain ⟨e, q1⟩ := r
    obtain ⟨_, hq, hstop⟩ := (expand_bounds p _).1 _ _ _ _ (Nat.zero_le _) hr
    have hq2 : q1 = p.length := by
      rcases hstop with h0 | ⟨hn, _⟩
      · exact Nat.le_antisymm hq (length_le_of_char_at_nul hnul h0)
      · cases hn
    simp [hr, hq2] at h
  | thrown err =>
    obtain ⟨i, hi⟩ := (expand_thrown_invalid_symbol p _).1 _ _ _ hr
    simp [hr, hi] at h
  | fuel_exhausted => simp [hr] at h

/-- C18: whenever the recursive `expand_pattern`, called with `nested =
false`, returns, its output position is at the terminator, with no NUL read
before it: called at the start it is the length of the C string.  So for
every pattern built from a C string, which holds no NUL, the branch `Parsing
stopped at pos` of the wrapper is never taken; it could be taken only for a
string that holds a NUL. -/
theorem expand_pattern_at_returns_at_end (p : List Char) :
    (∀ fuel pos e q, pos ≤ p.length → expand_pattern_at p fuel pos false = .returned (e, q) →
      char_at p q = NUL ∧ ∀ c ∈ segment p pos q, c ≠ NUL) ∧
    (∀ fuel e q, expand_pattern_at p fuel 0 false = .returned (e, q) →
      q = (c_string p).length) ∧
    (∀ q, expand_pattern (c_string p) ≠ .thrown (.parsing_stopped q)) ∧
    (∀ q, expand_pattern p = .thrown (.parsing_stopped q) → NUL ∈ p) := by
  have hfirst : ∀ fuel pos e q, pos ≤ p.length →
      expand_pattern_at p fuel pos false = .returned (e, q) →
      char_at p q = NUL ∧ ∀ c ∈ segment p pos q, c ≠ NUL := by
    intro fuel pos e q hpos h
    obtain ⟨_, _, hstop⟩ := (expand_bounds p fuel).1 _ _ _ _ hpos h
    refine ⟨?_, (expand_no_nul p fuel).1 _ _ _ _ hpos h⟩
    rcases hstop with h0 | ⟨hn, _⟩
    · exact h0
    · cases hn
  refine ⟨hfirst, ?_, ?_, fun q h => nul_mem_of_parsing_stopped h⟩
  · intro fuel e q h
    obtain ⟨hat, hseg⟩ := hfirst fuel 0 e q (Nat.zero_le _) h
    obtain ⟨_, hq, _⟩ := (expand_bounds p fuel).1 _ _ _ _ (Nat.zero_le _) h
    have hseg2 : ∀ c ∈ p.take q, c ≠ NUL := by simpa [segment] using hseg
    exact (c_string_length_eq p q hq hseg2 hat).symm
  · intro q h
    have hmem := nul_mem_of_parsing_stopped h
    exact c_string_no_nul p NUL hmem rfl

/-- C18 at the pattern `x{a,b}y}`: the top-level call returns at position 8,
the length, and the wrapper returns the expansion. -/
theorem expand_pattern_at_returns_at_end_witness :
    expand_pattern_at "x\x7ba,b\x7dy\x7d".toList 17 0 false =
      .returned (["xay\x7d".toList, "xby\x7d".toList], 8) ∧
    (8 = (c_string "x\x7ba,b\x7dy\x7d".toList).length ∧
      "x\x7ba,b\x7dy\x7d".toList.length = 8) ∧
    expand_pattern "x\x7ba,b\x7dy\x7d".toList =
      .returned ["xay\x7d".toList, "xby\x7d".toList] :=
  ⟨by decide,
   ⟨(expand_pattern_at_returns_at_end "x\x7ba,b\x7dy\x7d".toList).2.1 17
      ["xay\x7d".toList, "xby\x7d".toList] 8 (by decide), by decide⟩,
   by decide⟩

/-! ### Termination and bounds of the recursion -/

theorem list_events_in_bounds (p : List Char) : ∀ fuel le lo, lo < le → le ≤ p.length →
    ∀ ev ∈ list_events p fuel le, event_in_bounds p.length lo ev := by
  intro fuel
  induction fuel with
  | zero => intro le lo _ _ ev hev; simp [list_events] at hev
  | succ fuel ih =>
    intro le lo hlo hle ev hev
    unfold list_events at hev
    simp only [List.mem_cons] at hev
    rcases hev with rfl | hev
    · exact ⟨hlo, hle⟩
    · cases hp : expand_pattern_at p fuel le true with
      | returned r =>
        obtain ⟨sub, q⟩ := r
        obtain ⟨hq, hq', _⟩ := (expand_bounds p fuel).1 _ _ _ _ hle hp
        simp only [hp, List.mem_cons] at hev
        rcases hev with rfl | hev
        · exact hq'
        · by_cases hd : char_at p q = SYM_LIST_DELIM
          · have hlt : q < p.length :=
              lt_length_of_char_at_ne_nul (by rw [hd]; exact syms_ne.2.2.1)
            simp only [hd, if_true] at hev
            exact ih (q + 1) lo (by omega) hlt ev hev
          · simp [hd] at hev
      | thrown err => simp [hp] at hev
      | fuel_exhausted => simp [hp] at hev

theorem pattern_events_in_bounds (p : List Char) (fuel pos : Nat) (nested : Bool)
    (hpos : pos ≤ p.length) :
    ∀ ev ∈ pattern_events p fuel pos nested, event_in_bounds p.length pos ev := by
  cases fuel with
  | zero => intro ev hev; simp [pattern_events] at hev
  | succ fuel =>
    intro ev hev
    obtain ⟨h1, h2, _, _⟩ := scan_preamble_at p pos nested hpos
    unfold pattern_events at hev
    simp only [List.mem_append, List.mem_map, List.mem_range'_1] at hev
    rcases hev with ⟨i, ⟨_, hi⟩, rfl⟩ | hev
    · show i ≤ p.length
      omega
    · by_cases hc : char_at p (scan_preamble nested (p.drop pos) pos) = SYM_LIST_START
      · have hlt : scan_preamble nested (p.drop pos) pos < p.length :=
          lt_length_of_char_at_ne_nul (by rw [hc]; exact syms_ne.1)
        simp only [hc, ne_eq, not_true_eq_false, if_false, List.mem_append] at hev
        rcases hev with hev | hev
        · exact list_events_in_bounds p fuel _ pos (by omega) hlt ev hev
        · cases hl : expand_list p fuel (scan_preamble nested (p.drop pos) pos + 1) [] with
          | returned r =>
            obtain ⟨lexp, q1⟩ := r
            obtain ⟨hq1, hq1', _⟩ := (expand_bounds p fuel).2 _ _ _ _ hlt hl
            simp only [hl, List.mem_singleton] at hev
            rw [hev]
            exact ⟨by omega, hq1'⟩
          | thrown err => simp [hl] at hev
          | fuel_exhausted => simp [hl] at hev
      · simp [hc] at hev

/-- C19: for every pattern, every start position not past the terminator and
either value of `nested`, the recursive `expand_pattern` ends, returning or
throwing, once the budget is `2 * (length - pos) + 1`, with one outcome for
every larger budget; every recursive call that an invocation makes starts
after the start of its caller and not beyond the terminator, and every read
is at an index not beyond the terminator. -/
theorem expand_pattern_at_terminates (p : List Char) (pos : Nat) (nested : Bool)
    (hpos : pos ≤ p.length) :
    (∃ r, r ≠ Outcome.fuel_exhausted ∧
      ∀ fuel, 2 * (p.length - pos) + 1 ≤ fuel → expand_pattern_at p fuel pos nested = r) ∧
    (∀ fuel, ∀ ev ∈ pattern_events p fuel pos nested, event_in_bounds p.length pos ev) := by
  refine ⟨⟨expand_pattern_at p (2 * (p.length - pos) + 1) pos nested, ?_, ?_⟩,
    fun fuel => pattern_events_in_bounds p fuel pos nested hpos⟩
  · exact (expand_fuel_suffices p _).1 pos nested hpos (Nat.le_refl _)
  · intro fuel hfuel
    exact (expand_fuel_mono p _).1 pos nested
      ((expand_fuel_suffices p _).1 pos nested hpos (Nat.le_refl _)) fuel hfuel

/-- C19 at the pattern `x{a,b}y`, from the start: the reads and the calls of
the first invocation. -/
theorem expand_pattern_at_terminates_witness :
    (0 ≤ "x\x7ba,b\x7dy".toList.length) ∧
    ((∃ r, r ≠ Outcome.fuel_exhausted ∧
      ∀ fuel, 2 * ("x\x7ba,b\x7dy".toList.length - 0) + 1 ≤ fuel →
        expand_pattern_at "x\x7ba,b\x7dy".toList fuel 0 false = r) ∧
    (∀ fuel, ∀ ev ∈ pattern_events "x\x7ba,b\x7dy".toList fuel 0 false,
      event_in_bounds "x\x7ba,b\x7dy".toList.length 0 ev)) ∧
    pattern_events "x\x7ba,b\x7dy".toList 15 0 false =
      [.read 0, .read 1, .call 2 true, .read 3, .call 4 true, .read 5, .call 6 false] :=
  ⟨Nat.zero_le _,
   expand_pattern_at_terminates "x\x7ba,b\x7dy".toList 0 false (Nat.zero_le _),
   by decide⟩

/-! ### Patterns without a list start -/

/-- C20: for every pattern (a C string) that contains no list start, strings
that contain a list delimiter or a list end included, the top-level
`expand_pattern` returns exactly the one-element list of the pattern itself. -/
theorem expand_pattern_without_list_start (pattern : List Char)
    (hnul : ∀ c ∈ pattern, c ≠ NUL) (hno : ∀ c ∈ pattern, c ≠ SYM_LIST_START) :
    expand_pattern pattern = .returned [pattern] :=
  expand_pattern_of_no_start pattern hnul hno

/-- C20 at the pattern `a,b}c,`. -/
theorem expand_pattern_without_list_start_witness :
    ((∀ c ∈ "a,b\x7dc,".toList, c ≠ NUL) ∧ (∀ c ∈ "a,b\x7dc,".toList, c ≠ SYM_LIST_START) ∧
      SYM_LIST_DELIM ∈ "a,b\x7dc,".toList ∧ SYM_LIST_END ∈ "a,b\x7dc,".toList) ∧
    expand_pattern "a,b\x7dc,".toList = .returned ["a,b\x7dc,".toList] :=
  ⟨⟨by decide, by decide, by decide, by decide⟩,
   expand_pattern_without_list_start "a,b\x7dc,".toList (by decide) (by decide)⟩

end config

namespace chrono

/-! ### The recalibration flag -/

/-- The calibration loop, given at least one try, makes at least one. -/
theorem update_loop_tries (impl : chrono_impl) (samples : Nat → clock_sample) :
    ∀ remaining update_try,
      update_try + 1 ≤ (update_loop impl samples (remaining + 1) update_try).2 := by
  intro remaining
  induction remaining with
  | zero =>
    intro update_try
    unfold update_loop
    simp only []
    split_ifs
    · exact Nat.le_refl _
    · simp [update_loop]
  | succ n ih =>
    intro update_try
    unfold update_loop
    simp only []
    split_ifs
    · exact Nat.le_refl _
    · exact Nat.le_trans (Nat.le_succ _) (ih (update_try + 1))

/-- The block that has acquired the flag ends with `lock.clear`. -/
theorem recalibrate_lock (impl : chrono_impl) (st : offset_state) (rd : clock_readings)
    (tsc_unit : time_unit) : (recalibrate impl st rd tsc_unit).1.lock = false := rfl

/-- The block that has acquired the flag takes at least one sample. -/
theorem recalibrate_samples (impl : chrono_impl) (st : offset_state) (rd : clock_readings)
    (tsc_unit : time_unit) : 1 ≤ (recalibrate impl st rd tsc_unit).2 := by
  have h := update_loop_tries impl rd.samples 99 0
  simpa [recalibrate, MAX_UPDATE_TRIES] using h

/-- A call of `to_system_time` leaves the flag as it found it. -/
theorem to_system_time_lock (impl : chrono_impl) (st : offset_state) (rd : clock_readings)
    (t : time_point) : (to_system_time impl st rd t).state.lock = st.lock := by
  cases hstale : offset_is_stale impl st rd
  · rw [to_system_time_fresh impl st rd t hstale]
  · cases hlock : st.lock
    · rw [to_system_time_acquired impl st rd t hstale hlock]
      rfl
    · rw [to_system_time_held impl st rd t hstale hlock]
      exact hlock

/-- A stale call that finds the flag clear acquires it and takes a sample. -/
theorem to_system_time_stale_clear (impl : chrono_impl) (st : offset_state)
    (rd : clock_readings) (t : time_point) (hstale : offset_is_stale impl st rd = true)
    (hlock : st.lock = false) :
    (to_system_time impl st rd t).acquire_attempted = true ∧
    1 ≤ (to_system_time impl st rd t).samples_taken := by
  rw [to_system_time_acquired impl st rd t hstale hlock]
  exact ⟨rfl, recalibrate_samples impl { st with lock := true } rd time_unit.CYCLE⟩

theorem run_to_system_time_length (impl : chrono_impl) :
    ∀ (calls : List system_time_call) (st : offset_state),
      (run_to_system_time impl st calls).length = calls.length
  | [], _ => rfl
  | call :: calls, st => by
    simp [run_to_system_time, run_to_system_time_length impl calls]

/-- In a run that starts with the flag clear every call finds the flag clear. -/
theorem run_to_system_time_clear (impl : chrono_impl) :
    ∀ (calls : List system_time_call) (st : offset_state), st.lock = false →
      ∀ r ∈ run_to_system_time impl st calls,
        r.before.lock = false ∧
        r.outcome = to_system_time impl r.before r.call.readings r.call.argument
  | [], _, _ => by intro r hr; simp [run_to_system_time] at hr
  | call :: calls, st, hst => by
    intro r hr
    simp only [run_to_system_time, List.mem_cons] at hr
    rcases hr with rfl | hr
    · exact ⟨hst, rfl⟩
    · exact run_to_system_time_clear impl calls _
        (by rw [to_system_time_lock]; exact hst) r hr

/-- C21: `to_system_time` never leaves the flag set by itself: a call leaves
the flag as it found it, so a call that starts with the flag clear returns
with the flag clear, whether the offset was fresh or stale and whether or not
a close pair was found; a stale call that finds the flag clear acquires it
and takes at least one sample.  Hence in every sequential run of calls from
the initial state, every call finds the flag clear and leaves it clear, and
every call that finds the offset stale acquires the flag and samples. -/
theorem to_system_time_releases_flag (impl : chrono_impl) :
    (∀ st rd t, (to_system_time impl st rd t).state.lock = st.lock) ∧
    (∀ st rd t, st.lock = false → (to_system_time impl st rd t).state.lock = false) ∧
    (∀ st rd t, st.lock = false → offset_is_stale impl st rd = true →
      (to_system_time impl st rd t).acquire_attempted = true ∧
      1 ≤ (to_system_time impl st rd t).samples_taken) ∧
    (∀ calls, (run_to_system_time impl offset_state.init calls).length = calls.length ∧
      ∀ r ∈ run_to_system_time impl offset_state.init calls,
        r.outcome = to_system_time impl r.before r.call.readings r.call.argument ∧
        r.before.lock = false ∧ r.outcome.state.lock = false ∧
        (offset_is_stale impl r.before r.call.readings = true →
          r.outcome.acquire_attempted = true ∧ 1 ≤ r.outcome.samples_taken)) := by
  refine ⟨to_system_time_lock impl, ?_, ?_, ?_⟩
  · intro st rd t hst
    rw [to_system_time_lock]; exact hst
  · intro st rd t hst hstale
    exact to_system_time_stale_clear impl st rd t hstale hst
  · intro calls
    refine ⟨run_to_system_time_length impl calls _, ?_⟩
    intro r hr
    obtain ⟨hbefore, hout⟩ := run_to_system_time_clear impl calls offset_state.init rfl r hr
    refine ⟨hout, hbefore, ?_, ?_⟩
    · rw [hout, to_system_time_lock]; exact hbefore
    · intro hstale
      rw [hout]
      exact to_system_time_stale_clear impl _ _ _ hstale hbefore

/-- C21 on a run of four calls with two cycles per nanosecond: no close pair
(100 samples), a close pair at the fourth try, a fresh offset (no attempt),
and a stale offset again; the flag is clear after each of them. -/
theorem to_system_time_releases_flag_witness :
    (run_to_system_time (spec_impl two_ghz) offset_state.init four_calls).map
        (fun r => (offset_is_stale (spec_impl two_ghz) r.before r.call.readings,
          r.outcome.acquire_attempted, r.outcome.samples_taken, r.outcome.state)) =
      [(true, true, 100, ⟨0, 0, false⟩), (true, true, 4, ⟨4948, 105, false⟩),
       (false, false, 0, ⟨4948, 105, false⟩), (true, true, 1, ⟨4948, 105, false⟩)] ∧
    ((run_to_system_time (spec_impl two_ghz) offset_state.init four_calls).length =
        four_calls.length ∧
      ∀ r ∈ run_to_system_time (spec_impl two_ghz) offset_state.init four_calls,
        r.outcome = to_system_time (spec_impl two_ghz) r.before r.call.readings
          r.call.argument ∧
        r.before.lock = false ∧ r.outcome.state.lock = false ∧
        (offset_is_stale (spec_impl two_ghz) r.before r.call.readings = true →
          r.outcome.acquire_attempted = true ∧ 1 ≤ r.outcome.samples_taken)) :=
  ⟨by decide, (to_system_time_releases_flag (spec_impl two_ghz)).2.2.2 four_calls⟩

/-! ### When a conversion raises -/

/-- A comparison of two time points returns. -/
theorem compare_returns (impl : chrono_impl) (c : comparison) (rd : clock_readings)
    (st : offset_state) (self t : time_point) :
    ∃ b s, time_point.compare impl c rd st self t = .returned (b, s) := by
  by_cases h : self.m_clock = t.m_clock
  · exact ⟨_, _, compare_same_clock impl c rd st self t h⟩
  · cases hs : self.m_clock with
    | INTERNAL_CLOCK =>
      cases ht : t.m_clock with
      | INTERNAL_CLOCK => rw [hs, ht] at h; exact absurd rfl h
      | SYSTEM_CLOCK => exact ⟨_, _, compare_internal_system impl c rd st self t hs ht⟩
    | SYSTEM_CLOCK =>
      cases ht : t.m_clock with
      | INTERNAL_CLOCK => exact ⟨_, _, compare_system_internal impl c rd st self t hs ht⟩
      | SYSTEM_CLOCK => rw [hs, ht] at h; exact absurd rfl h

/-- The difference of two time points returns: the difference of the
durations, the operand on the internal clock converted when the clocks
differ. -/
theorem diff_returns (impl : chrono_impl) (rd : clock_readings) (st : offset_state)
    (self t : time_point) :
    ∃ d s, time_point.diff impl rd st self t = .returned (d, s) := by
  obtain ⟨ds, cs⟩ := self
  obtain ⟨dt, ct⟩ := t
  cases cs <;> cases ct <;> simp [time_point.diff, time_point.convert_to]

/-- C22: `time_point::convert_to(c, t)` raises exactly when `c` is the
internal clock and `t` is on the system clock; in every other case it returns
a time point on the clock `c`; when `t` is already on the clock `c` it returns
`t` with the static variables untouched, whatever the clocks would read.  No
comparison operator and no difference of two time points raises: each of them
returns. -/
theorem convert_to_raises_iff (impl : chrono_impl) (st : offset_state) (rd : clock_readings)
    (c : clock_type) (t : time_point) :
    (time_point.convert_to impl st rd c t = .not_implemented ↔
      (c = clock_type.INTERNAL_CLOCK ∧ t.m_clock = clock_type.SYSTEM_CLOCK)) ∧
    (¬ (c = clock_type.INTERNAL_CLOCK ∧ t.m_clock = clock_type.SYSTEM_CLOCK) →
      ∃ r s, time_point.convert_to impl st rd c t = .returned (r, s) ∧ r.m_clock = c) ∧
    (t.m_clock = c →
      ∀ readings, time_point.convert_to impl st readings c t = .returned (t, st)) ∧
    (∀ op self, ∃ b s, time_point.compare impl op rd st self t = .returned (b, s)) ∧
    (∀ op self, ∃ b s, time_point.compare impl op rd st t self = .returned (b, s)) ∧
    (∀ self, ∃ d s, time_point.diff impl rd st self t = .returned (d, s)) ∧
    (∀ self, ∃ d s, time_point.diff impl rd st t self = .returned (d, s)) := by
  refine ⟨?_, ?_, ?_, fun op self => compare_returns impl op rd st self t,
    fun op self => compare_returns impl op rd st t self,
    fun self => diff_returns impl rd st self t, fun self => diff_returns impl rd st t self⟩
  · obtain ⟨d, k⟩ := t
    cases c <;> cases k <;> simp [time_point.convert_to]
  · intro hnot
    by_cases h : t.m_clock = c
    · exact ⟨t, st, by simp [time_point.convert_to, h], h⟩
    · cases c with
      | INTERNAL_CLOCK =>
        exfalso
        apply hnot
        refine ⟨rfl, ?_⟩
        cases ht : t.m_clock with
        | INTERNAL_CLOCK => exact absurd ht h
        | SYSTEM_CLOCK => rfl
      | SYSTEM_CLOCK =>
        exact ⟨(to_system_time impl st rd t).result, (to_system_time impl st rd t).state,
          by simp [time_point.convert_to, h], to_system_time_clock impl st rd t⟩
  · intro h readings
    simp [time_point.convert_to, h]

/-- C22 with two cycles per nanosecond and an offset of 7 ns: the conversion
of a system time point to the internal clock raises, that of 1000 cycles to
the system clock gives 507 ns, and the difference of 1000 cycles and 600 ns
is -93 ns. -/
theorem convert_to_raises_iff_witness :
    time_point.convert_to (spec_impl two_ghz) ⟨7, 1, false⟩ (steady_readings 1000 far_sample)
        clock_type.INTERNAL_CLOCK ⟨⟨600, time_unit.NSEC⟩, clock_type.SYSTEM_CLOCK⟩ =
      .not_implemented ∧
    time_point.convert_to (spec_impl two_ghz) ⟨7, 1, false⟩ (steady_readings 1000 far_sample)
        clock_type.SYSTEM_CLOCK ⟨⟨1000, time_unit.CYCLE⟩, clock_type.INTERNAL_CLOCK⟩ =
      .returned (⟨⟨507, time_unit.NSEC⟩, clock_type.SYSTEM_CLOCK⟩, ⟨7, 1, false⟩) ∧
    time_point.diff (spec_impl two_ghz) (steady_readings 1000 far_sample) ⟨7, 1, false⟩
        ⟨⟨1000, time_unit.CYCLE⟩, clock_type.INTERNAL_CLOCK⟩
        ⟨⟨600, time_unit.NSEC⟩, clock_type.SYSTEM_CLOCK⟩ =
      .returned (⟨-93, time_unit.NSEC⟩, ⟨7, 1, false⟩) :=
  ⟨(convert_to_raises_iff (spec_impl two_ghz) ⟨7, 1, false⟩ (steady_readings 1000 far_sample)
      clock_type.INTERNAL_CLOCK ⟨⟨600, time_unit.NSEC⟩, clock_type.SYSTEM_CLOCK⟩).1.mpr
      ⟨rfl, rfl⟩,
   by rfl, by rfl⟩

end chrono

end handystats
